import Mathlib

/-! # hycrypt: a shallow embedding of the envelope services and the naming strategy

The definitions below follow the Go sources function by function:

* `internal/errors/errors.go`      : `ErrorCode`, `GoError`, `CryptoError`, `WithContext`, ...
* `internal/crypto/aes_utils.go`   : `EncryptAESGCM`, `DecryptAESGCM`
* `internal/crypto/rsa_service.go` : `RSAServiceInterface.EncryptData`, `DecryptData`,
  `encryptLargeData`, `decryptHybridData`, `isHybridEncrypted`
* `internal/crypto/kmac_service.go`: `KMACServiceInterface.EncryptData`, `DecryptData`, `deriveKey`
* `internal/naming/strategy.go`    : `GenerateEncryptedName`, `ParseEncryptedName`, ...

Go's standard library (crypto/rsa, crypto/aes, crypto/cipher, x/crypto/sha3, crypto/rand,
time) is not part of the repository.  Its functions appear as parameters: a key is
represented by the function the library computes with it, and the bytes a call draws from
`rand.Reader` are an explicit argument of that call.
-/

namespace Hycrypt

/-! ## Bytes, readers and outcomes -/

/-- A Go `byte`. -/
abbrev Byte := Fin 256

/-- A Go `[]byte` (contents only). -/
abbrev Bytes := List Byte

/-- `internal/errors.ErrorCode`. -/
inductive ErrorCode where
  | ErrInvalidConfig
  | ErrKeyNotFound
  | ErrEncryptionFailed
  | ErrDecryptionFailed
  | ErrFileNotFound
  | ErrInvalidFormat
  | ErrPermissionDenied
  | ErrInvalidInput
  deriving DecidableEq, Repr

/-- The string constant behind each `ErrorCode`. -/
def ErrorCode.text : ErrorCode → String
  | .ErrInvalidConfig => "INVALID_CONFIG"
  | .ErrKeyNotFound => "KEY_NOT_FOUND"
  | .ErrEncryptionFailed => "ENCRYPTION_FAILED"
  | .ErrDecryptionFailed => "DECRYPTION_FAILED"
  | .ErrFileNotFound => "FILE_NOT_FOUND"
  | .ErrInvalidFormat => "INVALID_FORMAT"
  | .ErrPermissionDenied => "PERMISSION_DENIED"
  | .ErrInvalidInput => "INVALID_INPUT"

/-- A Go `error` value: `nil`, a plain text error (`errors.New`, `fmt.Errorf` without `%w`),
an error wrapped by `fmt.Errorf(pre + "%w", err)`, or a `*CryptoErrorInterface`
with its four fields.  `Context` lists the map entries in insertion order. -/
inductive GoError where
  | nil
  | errorString (s : String)
  | wrapError (pre : String) (err : GoError)
  | cryptoError (Code : ErrorCode) (Message : String) (Cause : GoError)
      (Context : List (String × String))
  deriving DecidableEq, Repr

/-- What a Go call does: return a value, return an error, or stop with a run-time panic. -/
inductive Result (α : Type) where
  | ok (v : α)
  | err (e : GoError)
  | panic
  deriving DecidableEq, Repr

/-- An `io.Reader` seen through `io.ReadAll`: the bytes it yields, or the read error. -/
abbrev Reader := Except GoError Bytes

/-- `strings.NewReader(string(b))`: a reader that yields `b`. -/
def stringsNewReader (b : Bytes) : Reader := .ok b

/-- `io.ReadFull(rand.Reader, buf)` with `len(buf) = n`, where `supply` is what the random
source can still deliver: the first `n` bytes, or an error when fewer are available. -/
def ioReadFull (supply : Bytes) (n : Nat) : Option Bytes :=
  if n ≤ supply.length then some (supply.take n) else none

/-- The error `io.ReadFull` returns on a short read. -/
def ErrUnexpectedEOF : GoError := .errorString "unexpected EOF"

/-! ## internal/errors/errors.go -/

/-- `errors.CryptoError(code, message, cause)`; the context map starts empty. -/
def CryptoError (code : ErrorCode) (message : String) (cause : GoError) : GoError :=
  .cryptoError code message cause []

/-- `(*CryptoErrorInterface).WithContext(key, value)`: sets `Context[key] = value`. -/
def WithContext (e : GoError) (key value : String) : GoError :=
  match e with
  | .cryptoError c m cause ctx => .cryptoError c m cause (ctx.filter (fun p => p.1 != key) ++ [(key, value)])
  | other => other

/-- `errors.InvalidConfig`. -/
def InvalidConfig (message : String) (cause : GoError) : GoError :=
  CryptoError .ErrInvalidConfig message cause

/-- `errors.KeyNotFound`. -/
def KeyNotFound (keyType path : String) : GoError :=
  WithContext (WithContext (CryptoError .ErrKeyNotFound (keyType ++ " key not found") .nil)
    "keyType" keyType) "path" path

/-- `errors.EncryptionFailed`. -/
def EncryptionFailed (method : String) (cause : GoError) : GoError :=
  WithContext (CryptoError .ErrEncryptionFailed ("encryption with " ++ method ++ " failed") cause)
    "method" method

/-- `errors.DecryptionFailed`. -/
def DecryptionFailed (method : String) (cause : GoError) : GoError :=
  WithContext (CryptoError .ErrDecryptionFailed ("decryption with " ++ method ++ " failed") cause)
    "method" method

/-- `errors.InvalidFormat`. -/
def InvalidFormat (format : String) (cause : GoError) : GoError :=
  WithContext (CryptoError .ErrInvalidFormat ("invalid " ++ format ++ " format") cause)
    "format" format

/-- `strings.Join(parts, sep)`. -/
def stringsJoin (parts : List String) (sep : String) : String :=
  match parts with
  | [] => ""
  | p :: ps => ps.foldl (fun acc q => acc ++ sep ++ q) p

/-- `err.Error()`.  For a `*CryptoErrorInterface` this is `CryptoErrorInterface.Error`:
`"[Code] Message"`, then `"caused by: <cause>"` when the cause is not nil, then
`"context: {k=v, ...}"` when the context is not empty, joined by single spaces.
(Go iterates a map in unspecified order; the list order is the one used here.) -/
def GoError.Error : GoError → String
  | .nil => "<nil>"
  | .errorString s => s
  | .wrapError pre err => pre ++ err.Error
  | .cryptoError code message cause ctx =>
    let parts := ["[" ++ code.text ++ "] " ++ message]
    let parts := match cause with
      | .nil => parts
      | c => parts ++ ["caused by: " ++ c.Error]
    let parts := if ctx.length > 0 then
        parts ++ ["context: \x7b" ++ stringsJoin (ctx.map (fun p => p.1 ++ "=" ++ p.2)) ", " ++ "\x7d"]
      else parts
    stringsJoin parts " "

/-- The `Code` field of a `*CryptoErrorInterface` (none for other errors). -/
def GoError.code? : GoError → Option ErrorCode
  | .cryptoError c _ _ _ => some c
  | _ => none

/-- The `Message` field of a `*CryptoErrorInterface`. -/
def GoError.message? : GoError → Option String
  | .cryptoError _ m _ _ => some m
  | _ => none

/-- `(*CryptoErrorInterface).Unwrap()`: the `Cause` field. -/
def GoError.Unwrap : GoError → GoError
  | .cryptoError _ _ cause _ => cause
  | .wrapError _ err => err
  | _ => .nil

/-- The `Context` field of a `*CryptoErrorInterface`. -/
def GoError.context : GoError → List (String × String)
  | .cryptoError _ _ _ ctx => ctx
  | _ => []

/-! ## internal/constants/algorithms.go -/

/-- `constants.AlgorithmRSA`. -/
def AlgorithmRSA : String := "rsa"

/-- `constants.AlgorithmKMAC`. -/
def AlgorithmKMAC : String := "kmac"

/-! ## internal/crypto/aes_utils.go -/

/-- The AES-GCM primitive of crypto/aes and crypto/cipher, taken as a parameter.
`Seal key nonce plaintext` is `gcm.Seal(nil, nonce, plaintext, nil)` for the GCM built on
`aes.NewCipher(key)`; `Open key nonce ciphertext` is `gcm.Open(nil, nonce, ciphertext, nil)`,
`none` when the tag does not verify. -/
structure GCM where
  Seal : Bytes → Bytes → Bytes → Bytes
  Open : Bytes → Bytes → Bytes → Option Bytes

/-- `gcm.NonceSize()` of the standard GCM. -/
def gcmNonceSize : Nat := 12

/-- `gcm.Overhead()` of the standard GCM: the tag length. -/
def gcmTagSize : Nat := 16

/-- Key lengths `aes.NewCipher` accepts. -/
def validAESKeySize (n : Nat) : Bool := n == 16 || n == 24 || n == 32

/-- `aes.NewCipher(key)`: fails with `aes.KeySizeError` unless the key has 16, 24 or 32 bytes. -/
def aesNewCipher (key : Bytes) : Except GoError Unit :=
  if validAESKeySize key.length then .ok ()
  else .error (.errorString ("crypto/aes: invalid key size " ++ toString key.length))

/-- The error `gcm.Open` returns when authentication fails. -/
def errOpen : GoError := .errorString "cipher: message authentication failed"

/-- What the code relies on from AES-GCM for valid keys and 12-byte nonces: the sealed text
is the plaintext length plus the tag, and opening a sealed text gives the plaintext back. -/
structure GCM.Lawful (gcm : GCM) : Prop where
  seal_length : ∀ key nonce pt, validAESKeySize key.length = true → nonce.length = gcmNonceSize →
    (gcm.Seal key nonce pt).length = pt.length + gcmTagSize
  open_seal : ∀ key nonce pt, validAESKeySize key.length = true → nonce.length = gcmNonceSize →
    gcm.Open key nonce (gcm.Seal key nonce pt) = some pt

/-- `EncryptAESGCM(key, plaintext)`; `rnd` is what `rand.Reader` delivers for the nonce.
`cipher.NewGCM` cannot fail on an AES block, so its error branch is not represented. -/
def EncryptAESGCM (gcm : GCM) (rnd : Bytes) (key plaintext : Bytes) : Except GoError Bytes :=
  match aesNewCipher key with
  | .error e => .error (.wrapError "failed to create AES cipher: " e)
  | .ok _ =>
    match ioReadFull rnd gcmNonceSize with
    | none => .error (.wrapError "failed to generate nonce: " ErrUnexpectedEOF)
    | some nonce =>
      -- gcm.Seal(nonce, nonce, plaintext, nil) appends the sealed text to the nonce
      .ok (nonce ++ gcm.Seal key nonce plaintext)

/-- `DecryptAESGCM(key, ciphertext)`. -/
def DecryptAESGCM (gcm : GCM) (key ciphertext : Bytes) : Except GoError Bytes :=
  match aesNewCipher key with
  | .error e => .error (.wrapError "failed to create AES cipher: " e)
  | .ok _ =>
    let nonceSize := gcmNonceSize
    if ciphertext.length < nonceSize then
      .error (.errorString "ciphertext too short")
    else
      let nonce := ciphertext.take nonceSize
      let encryptedData := ciphertext.drop nonceSize
      match gcm.Open key nonce encryptedData with
      | none => .error (.wrapError "AES-GCM decryption failed: " errOpen)
      | some plaintext => .ok plaintext

/-- The unexported `encryptAESGCM`. -/
def encryptAESGCM (gcm : GCM) (rnd : Bytes) (key plaintext : Bytes) : Except GoError Bytes :=
  EncryptAESGCM gcm rnd key plaintext

/-- The unexported `decryptAESGCM`. -/
def decryptAESGCM (gcm : GCM) (key ciphertext : Bytes) : Except GoError Bytes :=
  DecryptAESGCM gcm key ciphertext

/-! ## internal/crypto/rsa_service.go -/

/-- An `*rsa.PublicKey` as the service uses it: `Size` is `pub.Size()`, the modulus length
in bytes, and `EncryptOAEP random msg` is
`rsa.EncryptOAEP(sha256.New(), rand.Reader, pub, msg, nil)` when the call draws `random`
from `rand.Reader`; `none` stands for a returned error. -/
structure PublicKey where
  Size : Nat
  EncryptOAEP : Bytes → Bytes → Option Bytes

/-- An `*rsa.PrivateKey` as the service uses it: `DecryptOAEP ciphertext` is
`rsa.DecryptOAEP(sha256.New(), rand.Reader, priv, ciphertext, nil)`; `none` stands for the
returned `rsa.ErrDecryption`. -/
structure PrivateKey where
  DecryptOAEP : Bytes → Option Bytes

/-- The error `rsa.DecryptOAEP` returns. -/
def ErrDecryption : GoError := .errorString "crypto/rsa: decryption error"

/-- The error `rsa.EncryptOAEP` returns for a message that does not fit. -/
def ErrMessageTooLong : GoError := .errorString "crypto/rsa: message too long for RSA key size"

/-- `2 * sha256.Size + 2`: the OAEP overhead with SHA-256. -/
def oaepOverhead : Nat := 66

/-- What the code relies on from RSA-OAEP (PKCS #1 v2.2, SHA-256, empty label) for a
matching key pair: encryption succeeds exactly on messages of at most `Size - 66` bytes,
a ciphertext has `Size` bytes, decryption inverts encryption, and decryption rejects an
input longer than the modulus. -/
structure KeyPair (pub : PublicKey) (priv : PrivateKey) : Prop where
  encrypt_isSome : ∀ random msg, (pub.EncryptOAEP random msg).isSome = true ↔
    msg.length + oaepOverhead ≤ pub.Size
  encrypt_length : ∀ random msg c, pub.EncryptOAEP random msg = some c → c.length = pub.Size
  decrypt_encrypt : ∀ random msg c, pub.EncryptOAEP random msg = some c →
    priv.DecryptOAEP c = some msg
  decrypt_long : ∀ c, pub.Size < c.length → priv.DecryptOAEP c = none

/-- `crypto.RSAConfig`.  The two sizes are Go `int`s; they are natural numbers here. -/
structure RSAConfig where
  PublicKeyPath : String
  PrivateKeyPath : String
  KeySize : Nat
  AESKeySize : Nat

/-- `crypto.RSAServiceInterface` after `RSAService(config)` returned it: the public key is
loaded, the private key is optional (`nil` when loading it failed). -/
structure RSAServiceInterface where
  publicKey : PublicKey
  privateKey : Option PrivateKey
  config : RSAConfig

/-- The bytes the calls inside `RSAServiceInterface.EncryptData` draw from `rand.Reader`, one
supply per call: the direct `rsa.EncryptOAEP`, `io.ReadFull(rand.Reader, aesKey)`, the
`rsa.EncryptOAEP` of the AES key, and the nonce of `encryptAESGCM`. -/
structure RSAEntropy where
  direct : Bytes
  aesKey : Bytes
  wrap : Bytes
  nonce : Bytes

/-- `uint32(n)` for a non-negative `int`. -/
def uint32 (n : Nat) : Nat := n % 2 ^ 32

/-- `binary.BigEndian.Uint32(b[0:4])`.  Every caller checks `len(b) >= 4` first; on a shorter
slice (where Go would panic) the value is 0. -/
def bigEndianUint32 (b : Bytes) : Nat :=
  match b with
  | b0 :: b1 :: b2 :: b3 :: _ => b0.val * 2 ^ 24 + b1.val * 2 ^ 16 + b2.val * 2 ^ 8 + b3.val
  | _ => 0

/-- `binary.BigEndian.PutUint32(buf, v)`: the four bytes written. -/
def putUint32 (v : Nat) : Bytes :=
  [Fin.ofNat (v / 2 ^ 24), Fin.ofNat (v / 2 ^ 16), Fin.ofNat (v / 2 ^ 8), Fin.ofNat v]

/-- `(*RSAServiceInterface).isHybridEncrypted`. -/
def isHybridEncrypted (data : Bytes) : Bool :=
  if data.length ≤ 4 then
    false
  else
    let keyLen := bigEndianUint32 data
    decide (keyLen > 0) && decide (keyLen < uint32 data.length) && decide (keyLen ≤ 1024)

/-- `(*RSAServiceInterface).encryptLargeData`. -/
def encryptLargeData (r : RSAServiceInterface) (gcm : GCM) (rnd : RSAEntropy)
    (plaintext : Bytes) : Result Bytes :=
  match ioReadFull rnd.aesKey r.config.AESKeySize with
  | none => .err (EncryptionFailed AlgorithmRSA ErrUnexpectedEOF)
  | some aesKey =>
    match r.publicKey.EncryptOAEP rnd.wrap aesKey with
    | none => .err (EncryptionFailed AlgorithmRSA ErrMessageTooLong)
    | some encryptedKey =>
      match encryptAESGCM gcm rnd.nonce aesKey plaintext with
      | .error e => .err (EncryptionFailed AlgorithmRSA e)
      | .ok ciphertext =>
        .ok (putUint32 (uint32 encryptedKey.length) ++ encryptedKey ++ ciphertext)

/-- `(*RSAServiceInterface).EncryptData`: the content of the returned reader. -/
def RSAServiceInterface.EncryptData (r : RSAServiceInterface) (gcm : GCM) (rnd : RSAEntropy)
    (data : Reader) : Result Bytes :=
  match data with
  | .error e => .err (EncryptionFailed AlgorithmRSA e)
  | .ok plaintext =>
    match r.publicKey.EncryptOAEP rnd.direct plaintext with
    | none => encryptLargeData r gcm rnd plaintext
    | some ciphertext => .ok ciphertext

/-- `(*RSAServiceInterface).decryptHybridData`, for the loaded private key `priv`.
The two slice expressions `encryptedData[4 : 4+keyLen]` and `encryptedData[4+keyLen:]` are
evaluated one after the other before anything else happens; the second panics when
`4+keyLen > len(encryptedData)` (the first already does when `4+keyLen` exceeds the capacity
or wrapped around below 4), so together they panic exactly when the bound is below 4 or
above the length. -/
def decryptHybridData (priv : PrivateKey) (gcm : GCM) (encryptedData : Bytes) : Result Bytes :=
  if encryptedData.length < 4 then
    .err (InvalidFormat "hybrid encrypted data" (.errorString "data too short"))
  else
    let keyLen := bigEndianUint32 encryptedData
    if keyLen == 0 || decide (keyLen ≥ uint32 encryptedData.length) then
      .err (InvalidFormat "hybrid encrypted data" (.errorString "invalid key length"))
    else
      let hi := uint32 (4 + keyLen)
      if hi < 4 ∨ encryptedData.length < hi then
        .panic
      else
        let encryptedKey := (encryptedData.take hi).drop 4
        let encryptedContent := encryptedData.drop hi
        match priv.DecryptOAEP encryptedKey with
        | none => .err (DecryptionFailed AlgorithmRSA ErrDecryption)
        | some aesKey =>
          match decryptAESGCM gcm aesKey encryptedContent with
          | .error e => .err e
          | .ok plaintext => .ok plaintext

/-- `(*RSAServiceInterface).DecryptData`: the content of the returned reader. -/
def RSAServiceInterface.DecryptData (r : RSAServiceInterface) (gcm : GCM) (data : Reader) :
    Result Bytes :=
  match r.privateKey with
  | none => .err (KeyNotFound "private" r.config.PrivateKeyPath)
  | some priv =>
    match data with
    | .error e => .err (DecryptionFailed AlgorithmRSA e)
    | .ok ciphertext =>
      let res : Result Bytes :=
        if isHybridEncrypted ciphertext then
          decryptHybridData priv gcm ciphertext
        else
          match priv.DecryptOAEP ciphertext with
          | none => .err ErrDecryption
          | some plaintext => .ok plaintext
      match res with
      | .err e => .err (DecryptionFailed AlgorithmRSA e)
      | .panic => .panic
      | .ok plaintext => .ok plaintext

/-! ## internal/crypto/kmac_service.go -/

/-- SHAKE256 of x/crypto/sha3, taken as a parameter: `shake msg i` is byte `i` of the output
stream after `msg` has been written to a fresh `sha3.NewShake256()`. -/
abbrev Shake256 := Bytes → Nat → Byte

/-- `crypto.KMACConfig`. -/
structure KMACConfig where
  Key : Bytes
  KeySize : Nat
  AESKeySize : Nat

/-- `crypto.KMACServiceInterface`. -/
structure KMACServiceInterface where
  config : KMACConfig

/-- `crypto.KMACService(config)`. -/
def KMACService (config : KMACConfig) : Except GoError KMACServiceInterface :=
  if config.Key.length != config.KeySize then
    .error (InvalidConfig "KMAC key length mismatch" .nil)
  else
    .ok { config := config }

/-- The bytes of the label `"KMAC-AES-KEY-DERIVATION"`. -/
def kmacLabel : Bytes :=
  "KMAC-AES-KEY-DERIVATION".toList.map (fun c => Fin.ofNat c.toNat)

/-- `(*KMACServiceInterface).deriveKey`: `keyLength` bytes read from SHAKE256 after writing
the key, the salt and the label. -/
def KMACServiceInterface.deriveKey (k : KMACServiceInterface) (shake : Shake256) (salt : Bytes)
    (keyLength : Nat) : Bytes :=
  (List.range keyLength).map (shake (k.config.Key ++ salt ++ kmacLabel))

/-- `(*KMACServiceInterface).EncryptData`; `saltRnd` and `nonceRnd` are what `rand.Reader`
delivers for the salt and for the nonce. -/
def KMACServiceInterface.EncryptData (k : KMACServiceInterface) (shake : Shake256) (gcm : GCM)
    (saltRnd nonceRnd : Bytes) (data : Reader) : Result Bytes :=
  match data with
  | .error e => .err (EncryptionFailed AlgorithmKMAC e)
  | .ok plaintext =>
    match ioReadFull saltRnd 16 with
    | none => .err (EncryptionFailed AlgorithmKMAC ErrUnexpectedEOF)
    | some salt =>
      let aesKey := k.deriveKey shake salt k.config.AESKeySize
      match encryptAESGCM gcm nonceRnd aesKey plaintext with
      | .error e => .err (EncryptionFailed AlgorithmKMAC e)
      | .ok ciphertext => .ok (salt ++ ciphertext)

/-- `(*KMACServiceInterface).DecryptData`. -/
def KMACServiceInterface.DecryptData (k : KMACServiceInterface) (shake : Shake256) (gcm : GCM)
    (data : Reader) : Result Bytes :=
  match data with
  | .error e => .err (DecryptionFailed AlgorithmKMAC e)
  | .ok ciphertext =>
    if ciphertext.length < 16 then
      .err (InvalidFormat "kmac encrypted data" .nil)
    else
      let salt := ciphertext.take 16
      let encryptedData := ciphertext.drop 16
      let aesKey := k.deriveKey shake salt k.config.AESKeySize
      match decryptAESGCM gcm aesKey encryptedData with
      | .error e => .err (DecryptionFailed AlgorithmKMAC e)
      | .ok plaintext => .ok plaintext

/-! ## internal/naming/strategy.go -/

/-- A Go `string` holding valid UTF-8 text, as its sequence of code points. -/
abbrev GoString := List Char

/-- `len(s)`: the length of the string in bytes. -/
def goLen (s : GoString) : Nat := (s.map Char.utf8Size).sum

/-- `strings.HasSuffix(s, suffix)`. -/
def stringsHasSuffix (s suffix : GoString) : Bool :=
  decide (suffix.length ≤ s.length) && s.drop (s.length - suffix.length) == suffix

/-- `strings.TrimSuffix(s, suffix)`. -/
def stringsTrimSuffix (s suffix : GoString) : GoString :=
  if stringsHasSuffix s suffix then s.take (s.length - suffix.length) else s

/-- `strings.HasPrefix(s, pre)`. -/
def stringsHasPrefix (s pre : GoString) : Bool :=
  s.take pre.length == pre

/-- `strings.Contains(s, substr)`. -/
def stringsContains : GoString → GoString → Bool
  | [], substr => substr.isEmpty
  | c :: cs, substr => stringsHasPrefix (c :: cs) substr || stringsContains cs substr

/-- `naming.DefaultStrategyInterface`. -/
structure DefaultStrategyInterface where
  dateFormat : GoString
  extension : GoString

/-- `naming.DefaultStrategy(extension)`. -/
def DefaultStrategy (extension : GoString) : DefaultStrategyInterface :=
  { dateFormat := ['2', '0', '0', '6', '0', '1', '0', '2'], extension := extension }

/-- The constant `charset` of `generateRandomString` and `generateRandomHash`. -/
def charset : GoString :=
  ['a', 'b', 'c', 'd', 'e', 'f', 'g', 'h', 'i', 'j', 'k', 'l', 'm', 'n', 'o', 'p', 'q', 'r',
   's', 't', 'u', 'v', 'w', 'x', 'y', 'z', '0', '1', '2', '3', '4', '5', '6', '7', '8', '9']

/-- `(*DefaultStrategyInterface).generateRandomString(length)`; `draw i` is the number
`rand.Int(rand.Reader, big.NewInt(36))` returns in iteration `i`. -/
def generateRandomString (draw : Nat → Fin 36) (length : Nat) : GoString :=
  (List.range length).map (fun i => charset.getD (draw i).val 'a')

/-- `(*DefaultStrategyInterface).generateRandomHash(length)`; `draw` as in
`generateRandomString`. -/
def generateRandomHash (draw : Nat → Fin 36) (length : Nat) : GoString :=
  (List.range length).map (fun i => charset.getD (draw i).val 'a')

/-- The literal `"crypto-text-"`. -/
def markerCryptoText : GoString :=
  ['c', 'r', 'y', 'p', 't', 'o', '-', 't', 'e', 'x', 't', '-']

/-- The literal `".tmp"`. -/
def markerTmp : GoString := ['.', 't', 'm', 'p']

/-- The literal `".zip"`. -/
def dotZip : GoString := ['.', 'z', 'i', 'p']

/-- The literal `"text-content.txt"`. -/
def textContentName : GoString :=
  ['t', 'e', 'x', 't', '-', 'c', 'o', 'n', 't', 'e', 'n', 't', '.', 't', 'x', 't']

/-- The algorithm identifier `"rsa"` as a file-name component. -/
def nameRSA : GoString := ['r', 's', 'a']

/-- The algorithm identifier `"kmac"` as a file-name component. -/
def nameKMAC : GoString := ['k', 'm', 'a', 'c']

/-- `(*DefaultStrategyInterface).isTemporaryFile`. -/
def isTemporaryFile (filename : GoString) : Bool :=
  stringsContains filename markerCryptoText || stringsContains filename markerTmp

/-- `(*DefaultStrategyInterface).isAllAlphaNum`. -/
def isAllAlphaNum (str : GoString) : Bool :=
  str.all (fun r => (decide ('a' ≤ r) && decide (r ≤ 'z')) || (decide ('0' ≤ r) && decide (r ≤ '9')))

/-- The regexp class `[a-z0-9]`. -/
def isLowerAlnum (c : Char) : Bool :=
  (decide ('a' ≤ c) && decide (c ≤ 'z')) || (decide ('0' ≤ c) && decide (c ≤ '9'))

/-- The regexp class `\d` (ASCII digits in Go). -/
def isDigit (c : Char) : Bool := decide ('0' ≤ c) && decide (c ≤ '9')

/-- `fmt.Sprintf("%s-%s-%s-%s%s", a, b, c, d, e)`. -/
def sprintfName (a b c d e : GoString) : GoString :=
  a ++ ['-'] ++ b ++ ['-'] ++ c ++ ['-'] ++ d ++ e

/-- `(*DefaultStrategyInterface).GenerateEncryptedName`.  `dateStr` is
`time.Now().Format(s.dateFormat)`; `hashDraw` and `tokenDraw` are the random draws of
`generateRandomHash(6)` and `generateRandomString(8)`. -/
def DefaultStrategyInterface.GenerateEncryptedName (s : DefaultStrategyInterface)
    (dateStr : GoString) (hashDraw tokenDraw : Nat → Fin 36) (originalName method : GoString) :
    GoString :=
  let hashPrefix := generateRandomHash hashDraw 6
  if isTemporaryFile originalName then
    let randomStr := generateRandomString tokenDraw 8
    sprintfName randomStr hashPrefix dateStr method s.extension
  else
    sprintfName originalName hashPrefix dateStr method s.extension

/-- One alternative of the pattern `^(.+)-([a-z0-9]{6})-(\d{8})-(rsa|kmac)$` of
`ParseEncryptedName`, for the method `m`.  The pattern is anchored at both ends and
everything after group 1 has a fixed length, so a match splits the input into a non-empty
prefix in which `.` excludes the newline, and a tail `-`, six `[a-z0-9]`, `-`, eight digits,
`-`, `m`.  The result lists the groups 1 to 4. -/
def matchWithMethod (m : GoString) (str : GoString) :
    Option (GoString × GoString × GoString × GoString) :=
  let tailLen := 1 + 6 + 1 + 8 + 1 + m.length
  if str.length < tailLen + 1 then none
  else
    let name := str.take (str.length - tailLen)
    let rest := str.drop (str.length - tailLen)
    let hash := (rest.drop 1).take 6
    let date := (rest.drop 8).take 8
    if rest.take 1 == ['-'] && hash.all isLowerAlnum && (rest.drop 7).take 1 == ['-']
        && date.all isDigit && (rest.drop 16).take 1 == ['-'] && rest.drop 17 == m
        && name.all (fun c => c != '\n') then
      some (name, hash, date, m)
    else none

/-- `re.FindStringSubmatch(str)` for the pattern of `ParseEncryptedName`, without group 0:
the alternatives `rsa` and `kmac` are tried in this order (a string ends with at most one of
them, so the order does not change the result). -/
def findStringSubmatch (str : GoString) : Option (GoString × GoString × GoString × GoString) :=
  match matchWithMethod nameRSA str with
  | some r => some r
  | none => matchWithMethod nameKMAC str

/-- `(*DefaultStrategyInterface).ParseEncryptedName`: the tuple
`(originalName, method, date, isDirectory)`. -/
def DefaultStrategyInterface.ParseEncryptedName (s : DefaultStrategyInterface)
    (encryptedName : GoString) : GoString × GoString × GoString × Bool :=
  if !stringsHasSuffix encryptedName s.extension then
    (encryptedName, [], [], false)
  else
    let nameWithoutExt := stringsTrimSuffix encryptedName s.extension
    let isDirectory := stringsHasSuffix encryptedName (dotZip ++ s.extension)
    let nameWithoutExt :=
      if isDirectory then stringsTrimSuffix encryptedName (dotZip ++ s.extension)
      else nameWithoutExt
    match findStringSubmatch nameWithoutExt with
    | some (originalName, _, date, method) =>
      if goLen originalName == 8 && isAllAlphaNum originalName then
        (textContentName, method, date, isDirectory)
      else
        (originalName, method, date, isDirectory)
    | none => (nameWithoutExt, [], [], isDirectory)

/-- `naming.DirectoryStrategy`: it embeds a `*DefaultStrategyInterface`. -/
structure DirectoryStrategy where
  base : DefaultStrategyInterface

/-- `naming.CreateDirectoryStrategy(extension)`. -/
def CreateDirectoryStrategy (extension : GoString) : DirectoryStrategy :=
  { base := DefaultStrategy extension }

/-- `(*DirectoryStrategy).GenerateEncryptedName`. -/
def DirectoryStrategy.GenerateEncryptedName (d : DirectoryStrategy) (dateStr : GoString)
    (hashDraw : Nat → Fin 36) (originalName method : GoString) : GoString :=
  let hashPrefix := generateRandomHash hashDraw 6
  originalName ++ ['-'] ++ hashPrefix ++ ['-'] ++ dateStr ++ ['-'] ++ method ++ dotZip
    ++ d.base.extension

/-- The literal `"-rsa-"`. -/
def markerDashRSA : GoString := ['-', 'r', 's', 'a', '-']

/-- The literal `"-kmac-"`. -/
def markerDashKMAC : GoString := ['-', 'k', 'm', 'a', 'c', '-']

/-- The literal `".rsa."`. -/
def markerDotRSA : GoString := ['.', 'r', 's', 'a', '.']

/-- The literal `".kmac."`. -/
def markerDotKMAC : GoString := ['.', 'k', 'm', 'a', 'c', '.']

/-- `(*DefaultStrategyInterface).IsEncryptedFile`. -/
def DefaultStrategyInterface.IsEncryptedFile (s : DefaultStrategyInterface)
    (fileName : GoString) : Bool :=
  if !stringsHasSuffix fileName s.extension then
    false
  else
    let nameWithoutExt := stringsTrimSuffix fileName s.extension
    stringsContains nameWithoutExt markerDashRSA ||
      stringsContains nameWithoutExt markerDashKMAC ||
      stringsContains fileName markerDotRSA ||
      stringsContains fileName markerDotKMAC

/-! ## time.Now().Format("20060102") -/

/-- The calendar date of a `time.Time` with a non-negative year. -/
structure Date where
  year : Nat
  month : Nat
  day : Nat

/-- The decimal digit of `n mod 10`. -/
def digitChar (n : Nat) : Char := Char.ofNat (48 + n % 10)

/-- `appendInt(b, x, width)` of package time for `x >= 0`: the decimal digits of `x`, padded
with zeros on the left to at least `width` digits. -/
def appendInt (x width : Nat) : GoString :=
  if x < 10 ^ width then
    (List.range width).reverse.map (fun i => digitChar (x / 10 ^ i))
  else
    Nat.toDigits 10 x

/-- `t.Format("20060102")`: the year on (at least) four digits, the month and the day on two
digits each. -/
def formatDate (t : Date) : GoString :=
  appendInt t.year 4 ++ appendInt t.month 2 ++ appendInt t.day 2

/-! ## path/filepath -/

/-- `filepath.Base(path)` on a system whose separator is `/`: trailing separators are
stripped, the part after the last separator is returned; `"."` for the empty path and `"/"`
for a path of separators only. -/
def filepathBase (path : GoString) : GoString :=
  if path = [] then ['.']
  else
    let stripped := (path.reverse.dropWhile (fun c => c == '/')).reverse
    let last := (stripped.reverse.takeWhile (fun c => c != '/')).reverse
    if last = [] then ['/'] else last

/-! ## internal/config/config.go: StandardAlgorithmDetector -/

/-- `config.StandardAlgorithmDetector`. -/
structure StandardAlgorithmDetector where
  supportedAlgorithms : List GoString
  fileExtension : GoString

/-- `config.CreateStandardDetector`. -/
def CreateStandardDetector (supportedAlgorithms : List GoString) (fileExtension : GoString) :
    StandardAlgorithmDetector :=
  { supportedAlgorithms := supportedAlgorithms, fileExtension := fileExtension }

/-- `(*StandardAlgorithmDetector).IsSupported`. -/
def StandardAlgorithmDetector.IsSupported (d : StandardAlgorithmDetector)
    (algorithm : GoString) : Bool :=
  d.supportedAlgorithms.any (fun supported => supported == algorithm)

/-- The characters `regexp.QuoteMeta` escapes: those with a special meaning in a pattern. -/
def regexpSpecial : GoString :=
  ['\\', '.', '+', '*', '?', '(', ')', '|', '[', ']', '\x7b', '\x7d', '^', '$']

/-- The text stands for itself when it is pasted into a pattern. -/
def isLiteralText (a : GoString) : Bool := a.all (fun c => !regexpSpecial.contains c)

/-- The fixed middle part of both detector patterns, `-[a-z0-9]{6}-[0-9]{8}-`, matched at the
head of `t`: the text that follows it. -/
def stripHashDate (t : GoString) : Option GoString :=
  let hash := (t.drop 1).take 6
  let date := (t.drop 8).take 8
  if t.take 1 == ['-'] && hash.length == 6 && hash.all isLowerAlnum
      && (t.drop 7).take 1 == ['-'] && date.length == 8 && date.all isDigit
      && (t.drop 16).take 1 == ['-'] then
    some (t.drop 17)
  else none

/-- What follows `.*` in a detector pattern, `-[a-z0-9]{6}-[0-9]{8}-(a1|...|an)SUFFIX$`,
matched against the whole remaining text `t`: the alternatives are tried in the listed order
and `$` asks for the end of the text.  Result: group 1. -/
def matchTail (algs : List GoString) (suffix t : GoString) : Option GoString :=
  match stripHashDate t with
  | none => none
  | some rest => algs.find? (fun a => rest == a ++ suffix)

/-- The greedy `.*`: `f k` is tried for `k = n`, `n - 1`, ..., `0` characters taken. -/
def greedyStar {β : Type} (f : Nat → Option β) : Nat → Option β
  | 0 => f 0
  | k + 1 =>
    match f (k + 1) with
    | some b => some b
    | none => greedyStar f k

/-- `regexp.MustCompile(pattern).FindStringSubmatch(str)` for the detector pattern
`.*-[a-z0-9]{6}-[0-9]{8}-(a1|...|an)SUFFIX$`, where `SUFFIX` is quoted text: group 1 of the
leftmost-first match, `none` when there is no match.  The match may start at any position,
the leftmost one that leads to a match wins; from there `.*` takes the longest run without a
newline and gives characters back one by one.  The identifiers `a1 ... an` are pasted into
the pattern unquoted; they are read here as literal text, which is what the pattern means
when `isLiteralText` holds of each of them. -/
def detectorSubmatch (algs : List GoString) (suffix str : GoString) : Option GoString :=
  (List.range (str.length + 1)).findSome? (fun i =>
    let fromI := str.drop i
    let run := (fromI.takeWhile (fun c => c != '\n')).length
    greedyStar (fun k => matchTail algs suffix (fromI.drop k)) run)

/-- The loop that builds `algorithmPattern`: the identifiers joined by `|`. -/
def joinAlternatives (first : GoString) (rest : List GoString) : GoString :=
  rest.foldl (fun acc a => acc ++ ['|'] ++ a) first

/-- The text has no special character other than parentheses. -/
def isParenText (a : GoString) : Bool :=
  a.all (fun c => c == '(' || c == ')' || !regexpSpecial.contains c)

/-- The group nesting of a pattern text read from depth `depth`: `(` opens a group, `)`
closes one and is a syntax error at depth 0.  Result: the depth at the end. -/
def scanGroups : GoString → Nat → Option Nat
  | [], depth => some depth
  | c :: cs, depth =>
    if c = '(' then scanGroups cs (depth + 1)
    else if c = ')' then (if depth = 0 then none else scanGroups cs (depth - 1))
    else scanGroups cs depth

/-- What `regexp.MustCompile` makes of the text pasted between `-(` and `)` in the two
detector patterns; the rest of a pattern is fixed text and the quoted extension. -/
inductive PatternParse where
  /-- The alternation of the identifiers, each read as literal text. -/
  | alternatives
  /-- A syntax error: `MustCompile` panics. -/
  | syntaxError
  /-- Some other pattern or error, not embedded in this development. -/
  | other
  deriving DecidableEq, Repr

/-- The identifiers are pasted into the pattern unquoted.  When none of them holds a special
character the pattern is the alternation of these texts.  When parentheses are the only
special characters they open and close groups, and the pattern is rejected unless they pair
up inside `(` ... `)`. -/
def parseAlternation (first : GoString) (rest : List GoString) : PatternParse :=
  if (first :: rest).all isLiteralText then .alternatives
  else if (first :: rest).all isParenText
      && scanGroups (joinAlternatives first rest) 1 != some 1 then .syntaxError
  else .other

/-- `(*StandardAlgorithmDetector).DetectFromPath`.  Indexing `supportedAlgorithms[0]` panics
on an empty list and `regexp.MustCompile` panics on a pattern it rejects.  `none`: the
identifiers make a pattern that is outside `parseAlternation`. -/
def StandardAlgorithmDetector.DetectFromPath (d : StandardAlgorithmDetector)
    (filePath : GoString) : Option (Result GoString) :=
  let fileName := filepathBase filePath
  match d.supportedAlgorithms with
  | [] => some .panic
  | first :: rest =>
    match parseAlternation first rest with
    | .other => none
    | .syntaxError => some .panic
    | .alternatives =>
      let zipMatch :=
        detectorSubmatch d.supportedAlgorithms (dotZip ++ d.fileExtension) fileName
      let zipHit : Option GoString :=
        match zipMatch with
        | some m => if m != [] && d.IsSupported m then some m else none
        | none => none
      match zipHit with
      | some m => some (.ok m)
      | none =>
        match detectorSubmatch d.supportedAlgorithms d.fileExtension fileName with
        | some m => if m != [] && d.IsSupported m then some (.ok m) else some (.ok [])
        | none => some (.ok [])

/-! ## internal/domain/crypto.go and internal/crypto/processor.go -/

/-- `domain.OutputFormat`. -/
inductive OutputFormat where
  | OutputFile
  | OutputHex
  deriving DecidableEq, Repr

/-- `domain.InputFormat`. -/
inductive InputFormat where
  | InputFile
  | InputHex
  | InputText
  deriving DecidableEq, Repr

/-- `domain.CryptoOptions`. -/
structure CryptoOptions where
  Method : GoString
  OutputFormat : OutputFormat
  InputFormat : InputFormat
  Verbose : Bool

/-- `domain.CryptoResult`. -/
structure CryptoResult where
  Success : Bool
  OutputPath : GoString
  ProcessedSize : Int
  Method : GoString
  ProcessTime : Int
  deriving DecidableEq, Repr

/-- A `domain.DataSource`: what its four methods return (`SourceType` is `Type()`).  `Read` is the result of
`source.Read(ctx)`: an error, or the reader. -/
structure DataSource where
  Read : Except GoError Reader
  Size : Int
  Name : GoString
  SourceType : GoString

/-- A `domain.DataSink`: `Write data` is the error `sink.Write(ctx, reader)` returns for a
reader yielding `data` (`GoError.nil` for success). -/
structure DataSink where
  Write : Bytes → GoError
  Path : GoString

/-- What a call of the processor does to its collaborators, in order. -/
inductive Event where
  | sourceRead
  | sinkWrite (data : Bytes)
  | extractDirectory (zipFilePath : GoString)
  deriving DecidableEq, Repr

/-- A value of the interface `crypto.CryptoService`: one of the two services. -/
inductive CryptoService where
  | rsa (r : RSAServiceInterface)
  | kmac (k : KMACServiceInterface)

/-- The library parameters and the random supplies one service call uses, and the outcome of
the file-system work of `handleDirectoryDecryption` (unzip, remove, rename). -/
structure CryptoEnv where
  gcm : GCM
  shake : Shake256
  rsaEntropy : RSAEntropy
  saltRnd : Bytes
  nonceRnd : Bytes
  handleDirectoryDecryption : GoString → Except GoError GoString

/-- `cryptoService.EncryptData(ctx, reader)` through the interface. -/
def CryptoService.EncryptData (env : CryptoEnv) : CryptoService → Reader → Result Bytes
  | .rsa r, data => r.EncryptData env.gcm env.rsaEntropy data
  | .kmac k, data => k.EncryptData env.shake env.gcm env.saltRnd env.nonceRnd data

/-- `cryptoService.DecryptData(ctx, reader)` through the interface. -/
def CryptoService.DecryptData (env : CryptoEnv) : CryptoService → Reader → Result Bytes
  | .rsa r, data => r.DecryptData env.gcm data
  | .kmac k, data => k.DecryptData env.shake env.gcm data

/-- `crypto.UnifiedProcessor`; `NewUnifiedProcessor` sets `strategy` to
`naming.DefaultStrategy(".hycrypt")` and leaves a service `nil` when it has no
configuration. -/
structure UnifiedProcessor where
  rsaService : Option RSAServiceInterface
  kmacService : Option KMACServiceInterface
  strategy : DefaultStrategyInterface

/-- `(*UnifiedProcessor).getCryptoService`. -/
def UnifiedProcessor.getCryptoService (p : UnifiedProcessor) (method : GoString) :
    Except GoError CryptoService :=
  if method = nameRSA then
    match p.rsaService with
    | none => .error (InvalidConfig "RSA service not available" .nil)
    | some r => .ok (.rsa r)
  else if method = nameKMAC then
    match p.kmacService with
    | none => .error (InvalidConfig "KMAC service not available" .nil)
    | some k => .ok (.kmac k)
  else
    .error (InvalidConfig ("unsupported method: " ++ String.mk method) .nil)

/-- `(*UnifiedProcessor).detectEncryptionMethod`. -/
def UnifiedProcessor.detectEncryptionMethod (p : UnifiedProcessor) (fileName : GoString) :
    GoString :=
  if !p.strategy.IsEncryptedFile fileName then
    []
  else
    (p.strategy.ParseEncryptedName fileName).2.1

/-- `(*UnifiedProcessor).Encrypt`: what it returns, and what it did to source and sink.
`elapsed` is `time.Since(startTime).Milliseconds()`. -/
def UnifiedProcessor.Encrypt (p : UnifiedProcessor) (env : CryptoEnv) (elapsed : Int)
    (source : DataSource) (sink : DataSink) (opts : CryptoOptions) :
    Result CryptoResult × List Event :=
  match p.getCryptoService opts.Method with
  | .error err => (.err err, [])
  | .ok cryptoService =>
    match source.Read with
    | .error err => (.err (EncryptionFailed (String.mk opts.Method) err), [.sourceRead])
    | .ok reader =>
      match cryptoService.EncryptData env reader with
      | .err err => (.err (EncryptionFailed (String.mk opts.Method) err), [.sourceRead])
      | .panic => (.panic, [.sourceRead])
      | .ok result =>
        match sink.Write result with
        | .nil =>
          (.ok { Success := true, OutputPath := sink.Path, ProcessedSize := source.Size,
                 Method := opts.Method, ProcessTime := elapsed },
            [.sourceRead, .sinkWrite result])
        | err =>
          (.err (EncryptionFailed (String.mk opts.Method) err),
            [.sourceRead, .sinkWrite result])

/-- `(*UnifiedProcessor).Decrypt`: what it returns, and what it did to its collaborators. -/
def UnifiedProcessor.Decrypt (p : UnifiedProcessor) (env : CryptoEnv) (elapsed : Int)
    (source : DataSource) (sink : DataSink) (opts : CryptoOptions) :
    Result CryptoResult × List Event :=
  let method := if opts.Method = [] then p.detectEncryptionMethod source.Name else opts.Method
  if method = [] then
    (.err (DecryptionFailed "unknown" (.errorString "cannot detect encryption method")), [])
  else
    match p.getCryptoService method with
    | .error err => (.err err, [])
    | .ok cryptoService =>
      match source.Read with
      | .error err => (.err (DecryptionFailed (String.mk method) err), [.sourceRead])
      | .ok reader =>
        match cryptoService.DecryptData env reader with
        | .err err => (.err (DecryptionFailed (String.mk method) err), [.sourceRead])
        | .panic => (.panic, [.sourceRead])
        | .ok result =>
          match sink.Write result with
          | .nil =>
            let encryptedFileName := filepathBase source.Name
            let isDirectory := (p.strategy.ParseEncryptedName encryptedFileName).2.2.2
            if isDirectory then
              match env.handleDirectoryDecryption sink.Path with
              | .error err =>
                (.err (DecryptionFailed (String.mk method)
                    (.wrapError "failed to extract directory: " err)),
                  [.sourceRead, .sinkWrite result, .extractDirectory sink.Path])
              | .ok outputPath =>
                (.ok { Success := true, OutputPath := outputPath,
                       ProcessedSize := source.Size, Method := method,
                       ProcessTime := elapsed },
                  [.sourceRead, .sinkWrite result, .extractDirectory sink.Path])
            else
              (.ok { Success := true, OutputPath := sink.Path, ProcessedSize := source.Size,
                     Method := method, ProcessTime := elapsed },
                [.sourceRead, .sinkWrite result])
          | err =>
            (.err (DecryptionFailed (String.mk method) err), [.sourceRead, .sinkWrite result])

/-! ## internal/utils/filename.go: FormatFileSize -/

/-- The value of an `int64` computation whose exact result is `x`: Go wraps around. -/
def wrapInt64 (x : Int) : Int := (x + 2 ^ 63) % 2 ^ 64 - 2 ^ 63

/-- The verb `%d` of package fmt. -/
def fmtDecimal (x : Int) : GoString :=
  if x < 0 then '-' :: (Nat.toDigits 10 x.natAbs) else Nat.toDigits 10 x.natAbs

/-- `fmt.Sprintf("%.1f", float64(a)/float64(b))`, taken as a parameter: the conversion of
an `int64` to a `float64`, the division of package math and the rendering of fmt. -/
abbrev FloatFormat := Int → Int → GoString

/-- What is used of IEEE 754 arithmetic and of the verb `%.1f`: when `a` and `b` are
positive and below `2 ^ 53`, both conversions are exact, and when moreover `b` divides `a`,
the quotient is that integer, exactly, rendered with one digit `0` after the point. -/
structure FloatFormat.Lawful (fmtF1 : FloatFormat) : Prop where
  exact_quotient : ∀ a b : Int, 0 < a → a < 2 ^ 53 → 0 < b → b < 2 ^ 53 → b ∣ a →
    fmtF1 a b = fmtDecimal (a / b) ++ ['.', '0']

/-- The loop of `FormatFileSize`, started with `n := size / unit`, run while `n >= unit`
with the step `n /= unit` and the body `div *= unit; exp++`, from the state `(n, div, exp)`:
the values of `div` and `exp` when it ends.  The loop runs on positive `n` only, where the
division of Go and the division of integers rounded down agree. -/
def sizeUnitLoop (n : Int) (div : Int) (exp : Nat) : Int × Nat :=
  if n ≥ 1024 then sizeUnitLoop (n / 1024) (wrapInt64 (div * 1024)) (exp + 1)
  else (div, exp)
termination_by n.toNat
decreasing_by omega

/-- The constant `"KMGTPE"`. -/
def unitLetters : GoString := ['K', 'M', 'G', 'T', 'P', 'E']

/-- `utils.FormatFileSize(size)`; indexing `"KMGTPE"[exp]` panics when `exp` is out of
range. -/
def FormatFileSize (fmtF1 : FloatFormat) (size : Int) : Result GoString :=
  if size < 1024 then
    .ok (fmtDecimal size ++ [' ', 'B'])
  else
    let r := sizeUnitLoop (size / 1024) 1024 0
    match unitLetters.get? r.2 with
    | none => .panic
    | some letter => .ok (fmtF1 size r.1 ++ [' ', letter, 'B'])

/-- The file size line of `(*UnifiedRenderer).renderResultDetails`, the same in CLI and in
UI mode: nothing for a size that is not positive, else an optional emoji, the label and
`FormatFileSize`. -/
def renderFileSize (fmtF1 : FloatFormat) (useEmoji : Bool) (fileSize : Int) :
    Result GoString :=
  if fileSize > 0 then
    match FormatFileSize fmtF1 fileSize with
    | .ok text =>
      .ok ((if useEmoji then "📏 ".toList else []) ++ "文件大小: ".toList ++ text ++ ['\n'])
    | .err e => .err e
    | .panic => .panic
  else .ok []

/-! ## internal/interactive-cli/state_manager.go -/

/-- `interactivecli.UIState`, an `int`; the constants are numbered by `iota`. -/
abbrev UIState := Int

def StateMainMenu : UIState := 0
def StateKeySource : UIState := 1
def StateKeySelection : UIState := 2
def StateAlgorithm : UIState := 3
def StateInputType : UIState := 4
def StateFileInput : UIState := 5
def StateTextInput : UIState := 6
def StateHexInput : UIState := 7
def StateOutputFormat : UIState := 8
def StateOutput : UIState := 9
def StateKeyGeneration : UIState := 10
def StateRSAKeyConfirm : UIState := 11
def StateKMACKeyConfirm : UIState := 12
def StateProcessing : UIState := 13
def StateComplete : UIState := 14

/-- `interactivecli.OperationType`, an `int`. -/
abbrev OperationType := Int

def OperationEncrypt : OperationType := 0
def OperationDecrypt : OperationType := 1
def OperationKeyGen : OperationType := 2

/-- `interactivecli.UIStateManagerStruct`, without the fields `progress` and `stepNames`,
which the step computation does not read. -/
structure UIStateManagerStruct where
  currentState : UIState
  operation : OperationType
  inputType : Int
  algorithm : GoString
  totalSteps : Int
  currentStep : Int
  deriving DecidableEq, Repr

/-- `interactivecli.UIStateManager()`: the fields not named in the literal are zero. -/
def UIStateManager : UIStateManagerStruct :=
  { currentState := StateMainMenu, operation := 0, inputType := 0, algorithm := [],
    totalSteps := 0, currentStep := 0 }

/-- `(*UIStateManagerStruct).getStepNumber`. -/
def UIStateManagerStruct.getStepNumber (sm : UIStateManagerStruct) (state : UIState) : Int :=
  if state = StateMainMenu then 1
  else if state = StateKeySource ∨ state = StateAlgorithm then 2
  else if state = StateKeySelection then 3
  else if state = StateInputType then 3
  else if state = StateFileInput ∨ state = StateTextInput ∨ state = StateHexInput then 4
  else if state = StateOutputFormat then 5
  else if state = StateOutput then
    (if sm.operation = OperationEncrypt then 6 else 5)
  else if state = StateProcessing then
    (if sm.operation = OperationEncrypt then 6 else 5)
  else if state = StateComplete then sm.totalSteps
  else if state = StateKeyGeneration then 1
  else if state = StateRSAKeyConfirm ∨ state = StateKMACKeyConfirm then 2
  else 1

/-- `(*UIStateManagerStruct).updateStepInfo`, with `updateEncryptionSteps`,
`updateDecryptionSteps` and `updateKeyGenSteps`: the total is set first, the current step is
computed from the updated manager. -/
def UIStateManagerStruct.updateStepInfo (sm : UIStateManagerStruct) : UIStateManagerStruct :=
  let total : Int :=
    if sm.operation = OperationEncrypt then 7
    else if sm.operation = OperationDecrypt then 6
    else if sm.operation = OperationKeyGen then 3
    else 7
  let sm1 := { sm with totalSteps := total }
  { sm1 with currentStep := sm1.getStepNumber sm1.currentState }

/-- `(*UIStateManagerStruct).SetState`. -/
def UIStateManagerStruct.SetState (sm : UIStateManagerStruct) (state : UIState) :
    UIStateManagerStruct :=
  ({ sm with currentState := state }).updateStepInfo

/-- `(*UIStateManagerStruct).SetOperation`. -/
def UIStateManagerStruct.SetOperation (sm : UIStateManagerStruct) (op : OperationType) :
    UIStateManagerStruct :=
  ({ sm with operation := op }).updateStepInfo

/-- `(*UIStateManagerStruct).SetAlgorithm`. -/
def UIStateManagerStruct.SetAlgorithm (sm : UIStateManagerStruct) (algorithm : GoString) :
    UIStateManagerStruct :=
  { sm with algorithm := algorithm }

/-- `(*UIStateManagerStruct).GetProcessingTitle`. -/
def UIStateManagerStruct.GetProcessingTitle (sm : UIStateManagerStruct) : GoString :=
  let steps := "⏳ 步骤 ".toList ++ fmtDecimal sm.currentStep ++ ['/']
    ++ fmtDecimal sm.totalSteps ++ [':', ' ']
  if sm.operation = OperationEncrypt then steps ++ "加密处理中...".toList
  else if sm.operation = OperationDecrypt then steps ++ "解密处理中...".toList
  else if sm.operation = OperationKeyGen then steps ++ "密钥生成中...".toList
  else steps ++ "处理中...".toList

/-- The state manager `ViewRendererStruct.RenderProcessing` builds for a model whose
operation is `"encrypt"`, `"decrypt"` or `"keygen"` (any other text leaves the zero value),
after its calls of `SetOperation`, `SetAlgorithm` and `SetState(StateProcessing)`. -/
def renderProcessingManager (operation algorithm : GoString) : UIStateManagerStruct :=
  let op : OperationType :=
    if operation = "encrypt".toList then OperationEncrypt
    else if operation = "decrypt".toList then OperationDecrypt
    else if operation = "keygen".toList then OperationKeyGen
    else 0
  ((UIStateManager.SetOperation op).SetAlgorithm algorithm).SetState StateProcessing

/-! ## internal/utils/filename.go: GetOriginalFileName -/

/-- `strings.Split(s, sep)` for a separator of one character: the parts between the
separators, one part (the whole text) when there is none. -/
def stringsSplit (s : GoString) (sep : Char) : List GoString :=
  match s with
  | [] => [[]]
  | c :: cs =>
    if c = sep then [] :: stringsSplit cs sep
    else
      match stringsSplit cs sep with
      | [] => [[c]]
      | p :: ps => (c :: p) :: ps

/-- `strings.Join(parts, sep)` on file-name texts. -/
def stringsJoinText (parts : List GoString) (sep : GoString) : GoString :=
  match parts with
  | [] => []
  | p :: ps => ps.foldl (fun acc q => acc ++ sep ++ q) p

/-- `utils.IsAlphaNumeric`: lower-case letters and digits only. -/
def IsAlphaNumeric (s : GoString) : Bool :=
  s.all (fun r => (decide ('a' ≤ r) && decide (r ≤ 'z')) || (decide ('0' ≤ r) && decide (r ≤ '9')))

/-- `utils.isAllDigits`. -/
def isAllDigits (s : GoString) : Bool :=
  s.all (fun r => !(decide (r < '0') || decide (r > '9')))

/-- The literal `".hycrypt"`. -/
def dotHycrypt : GoString := ['.', 'h', 'y', 'c', 'r', 'y', 'p', 't']

/-- The literal `".encrypted"`. -/
def dotEncrypted : GoString := ['.', 'e', 'n', 'c', 'r', 'y', 'p', 't', 'e', 'd']

/-- `utils.GetOriginalFileName`.  `parts[len(parts)-1]` is in range because `strings.Split`
returns at least one part. -/
def GetOriginalFileName (encryptedName : GoString) : GoString :=
  let viaHycrypt : Option GoString :=
    if stringsHasSuffix encryptedName dotHycrypt then
      let base := encryptedName.take (encryptedName.length - dotHycrypt.length)
      let parts := stringsSplit base '-'
      let lastPart := parts.getLastD []
      let hasDuplicateSuffix := goLen lastPart == 6 && IsAlphaNumeric lastPart
      if hasDuplicateSuffix && decide (parts.length ≥ 5) then
        some (stringsJoinText (parts.take (parts.length - 4)) ['-'])
      else if parts.length ≥ 4 then
        some (stringsJoinText (parts.take (parts.length - 3)) ['-'])
      else none
    else none
  match viaHycrypt with
  | some original => original
  | none =>
    let viaEncrypted : Option GoString :=
      if stringsHasSuffix encryptedName dotEncrypted then
        let nameWithoutExt := stringsTrimSuffix encryptedName dotEncrypted
        let parts := stringsSplit nameWithoutExt '-'
        if parts.length ≥ 3 then
          let algorithm := parts.getLastD []
          if algorithm = nameRSA ∨ algorithm = nameKMAC then
            let datePart := parts.getD (parts.length - 2) []
            if goLen datePart == 8 && isAllDigits datePart then
              let originalParts := parts.take (parts.length - 2)
              if originalParts.length > 0 then
                let originalName := stringsJoinText originalParts ['-']
                if originalParts.length == 1 && goLen (originalParts.getD 0 []) == 8
                    && IsAlphaNumeric (originalParts.getD 0 []) then
                  some textContentName
                else some originalName
              else none
            else none
          else none
        else none
      else none
    match viaEncrypted with
    | some original => original
    | none => encryptedName

/-! ## internal/datasource/source.go: HexSource, and internal/datasink/sink.go: HexSink -/

/-- `datasource.HexSource`. -/
structure HexSource where
  data : Bytes
  name : GoString
  deriving DecidableEq, Repr

/-- `(*HexSource).Size`. -/
def HexSource.Size (h : HexSource) : Int := h.data.length

/-- `datasource.cleanHexInput`: five calls of `strings.ReplaceAll` that delete the space,
the line feed, the carriage return, the tab and `=`, then `strings.ToLower`, which on ASCII
text maps `A`-`Z` to `a`-`z`. -/
def cleanHexInput (input : GoString) : GoString :=
  let cleaned := input.filter (fun c => c != ' ')
  let cleaned := cleaned.filter (fun c => c != '\n')
  let cleaned := cleaned.filter (fun c => c != '\r')
  let cleaned := cleaned.filter (fun c => c != '\t')
  let cleaned := cleaned.filter (fun c => c != '=')
  cleaned.map Char.toLower

/-- `isSpace` of package fmt on ASCII characters: U+0009 to U+000D and the space. -/
def fmtIsSpace (c : Char) : Bool :=
  (decide (9 ≤ c.toNat) && decide (c.toNat ≤ 13)) || c == ' '

/-- `(*ss).SkipSpace` of package fmt for `Sscanf` (a newline is not a space there): the
input left, `none` for the error "unexpected newline". -/
def fmtSkipSpace : GoString → Option GoString
  | [] => some []
  | c :: cs =>
    if c = '\r' ∧ cs.head? = some '\n' then fmtSkipSpace cs
    else if c = '\n' then none
    else if fmtIsSpace c then fmtSkipSpace cs
    else some (c :: cs)

/-- The digit string of the verb `x`: `0123456789aAbBcCdDeEfF`. -/
def isHexDigitChar (c : Char) : Bool :=
  (decide ('0' ≤ c) && decide (c ≤ '9')) || (decide ('a' ≤ c) && decide (c ≤ 'f'))
    || (decide ('A' ≤ c) && decide (c ≤ 'F'))

/-- The value of a hexadecimal digit. -/
def hexDigitValue (c : Char) : Nat :=
  if decide ('0' ≤ c) && decide (c ≤ '9') then c.toNat - 48
  else if decide ('a' ≤ c) && decide (c ≤ 'f') then c.toNat - 87
  else c.toNat - 55

/-- `fmt.Sscanf(str, "%02x", &b)` for a `byte` and an ASCII text: the byte stored when the
call returns no error, `none` when it returns one.  Leading space is skipped; the number is
read from the next two characters at most (the width), must start with a hexadecimal digit
and ends at the first character that is not one; what follows the number is not looked at. -/
def sscanfHexByte (str : GoString) : Option Byte :=
  match fmtSkipSpace str with
  | none => none
  | some rest =>
    let tok := (rest.take 2).takeWhile isHexDigitChar
    if tok = [] then none
    else some (Fin.ofNat (tok.foldl (fun acc c => acc * 16 + hexDigitValue c) 0))

/-- The loop of `CreateHexSource` over the pairs `cleaned[i:i+2]`: the decoded bytes, or
the first pair on which `fmt.Sscanf` returned an error. -/
def decodeHexPairs : GoString → Except GoString Bytes
  | a :: b :: rest =>
    match sscanfHexByte [a, b] with
    | none => .error [a, b]
    | some v =>
      match decodeHexPairs rest with
      | .error pair => .error pair
      | .ok data => .ok (v :: data)
  | _ => .ok []

/-- `datasource.CreateHexSource(hexData, name)` for ASCII input; `none` for an input with a
character outside ASCII, which is not embedded here (`strings.ToLower` and the byte slices
`cleaned[i:i+2]` then depend on the encoding).  `scanErr pair` is the error `fmt.Sscanf`
returns on a pair it rejects. -/
def CreateHexSource (scanErr : GoString → GoError) (hexData name : GoString) :
    Option (Except GoError HexSource) :=
  if hexData.all (fun c => decide (c.toNat < 128)) then
    let cleaned := cleanHexInput hexData
    if cleaned.length % 2 != 0 then
      some (.error (InvalidFormat "hex" (.errorString "odd length hex string")))
    else
      match decodeHexPairs cleaned with
      | .error pair => some (.error (InvalidFormat "hex" (scanErr pair)))
      | .ok data => some (.ok { data := data, name := name })
  else none

/-- The constant `hextable` of package encoding/hex. -/
def hextable : GoString :=
  ['0', '1', '2', '3', '4', '5', '6', '7', '8', '9', 'a', 'b', 'c', 'd', 'e', 'f']

/-- `hex.EncodeToString(src)`. -/
def hexEncodeToString (src : Bytes) : GoString :=
  src.flatMap (fun v => [hextable.getD (v.val / 16) '0', hextable.getD (v.val % 16) '0'])

/-- `datasink.HexSink`, without its channel. -/
structure HexSink where
  result : GoString
  deriving DecidableEq, Repr

/-- `(*HexSink).Write`: the error returned and the sink afterwards; the text printed to the
console is the same hex string between two rules. -/
def HexSink.Write (h : HexSink) (data : Reader) : GoError × HexSink :=
  match data with
  | .error e => (e, h)
  | .ok bytes => (.nil, { result := hexEncodeToString bytes })

/-- `(*HexSink).GetResult`. -/
def HexSink.GetResult (h : HexSink) : GoString := h.result

/-! ## path/filepath (continued) and internal/datasink/sink.go: FileSink -/

/-- One step of `filepath.Clean` on the elements kept so far: an empty element and `.` are
dropped, `..` removes the last element kept unless there is none or it is a `..` itself (then
it is kept on a relative path and dropped on a rooted one), any other element is kept. -/
def cleanStep (rooted : Bool) (out : List GoString) (elem : GoString) : List GoString :=
  if elem = [] ∨ elem = ['.'] then out
  else if elem = ['.', '.'] then
    match out.getLast? with
    | some top => if top = ['.', '.'] then out ++ [elem] else out.dropLast
    | none => if rooted then out else out ++ [elem]
  else out ++ [elem]

/-- `filepath.Clean(path)` on a system whose separator is `/`. -/
def filepathClean (path : GoString) : GoString :=
  if path = [] then ['.']
  else
    let rooted := path.head? == some '/'
    let out := (stringsSplit path '/').foldl (cleanStep rooted) []
    if rooted then '/' :: stringsJoinText out ['/']
    else if out = [] then ['.']
    else stringsJoinText out ['/']

/-- `filepath.Dir(path)`: `Clean` of the path up to and including its last separator. -/
def filepathDir (path : GoString) : GoString :=
  filepathClean (path.reverse.dropWhile (fun c => c != '/')).reverse

/-- `filepath.Ext(path)`: the suffix of the last element that starts at its last dot, empty
when that element has no dot. -/
def filepathExt (path : GoString) : GoString :=
  let last := (path.reverse.takeWhile (fun c => c != '/')).reverse
  if '.' ∈ last then '.' :: (last.reverse.takeWhile (fun c => c != '.')).reverse else []

/-- `filepath.Join(dir, name)`: empty elements are ignored, the rest is joined with the
separator from the first non-empty element on and cleaned. -/
def filepathJoin (dir name : GoString) : GoString :=
  if dir ≠ [] then filepathClean (dir ++ ['/'] ++ name)
  else if name ≠ [] then filepathClean name
  else []

/-- `generateRandomString(length)` of package datasink; `draw i` is the number
`rand.Int(rand.Reader, big.NewInt(36))` returns in iteration `i`. -/
def datasinkRandomString (draw : Nat → Fin 36) (length : Nat) : GoString :=
  (List.range length).map (fun i => charset.getD (draw i).val 'a')

/-- The body of `generateUniqueFilePath` after the existence check: the new path tried when
`originalPath` exists. -/
def nextUniquePath (draw : Nat → Fin 36) (originalPath : GoString) : GoString :=
  let dir := filepathDir originalPath
  let filename := filepathBase originalPath
  let ext := filepathExt filename
  let nameWithoutExt := stringsTrimSuffix filename ext
  let randomSuffix := datasinkRandomString draw 6
  let newFilename := nameWithoutExt ++ ['-'] ++ randomSuffix ++ ext
  filepathJoin dir newFilename

/-- `datasink.generateUniqueFilePath(originalPath)` over a file system given as the list
`fs` of the existing paths: `os.Stat` reports that the path does not exist exactly when it
is not in the list.  `draws k` supplies the random numbers of the `k`-th call of
`generateRandomString`; `fuel` bounds the depth of the recursion, `none` when it is used
up. -/
def generateUniqueFilePath (fs : List GoString) (draws : Nat → Nat → Fin 36) :
    Nat → Nat → GoString → Option GoString
  | 0, _, _ => none
  | fuel + 1, k, originalPath =>
    if originalPath ∉ fs then some originalPath
    else generateUniqueFilePath fs draws fuel (k + 1) (nextUniquePath (draws k) originalPath)

/-- `datasink.FileSinkInterface`, without the open file. -/
structure FileSinkInterface where
  path : GoString
  deriving DecidableEq, Repr

/-- `datasink.FileSink(path)` when `os.MkdirAll` and `os.Create` succeed: the sink, and the
file system afterwards.  `created` lists the directories `os.MkdirAll` had to create. -/
def FileSink (fs : List GoString) (created : List GoString) (draws : Nat → Nat → Fin 36)
    (fuel k : Nat) (path : GoString) : Option (FileSinkInterface × List GoString) :=
  match generateUniqueFilePath (created ++ fs) draws fuel k path with
  | none => none
  | some uniquePath => some ({ path := uniquePath }, uniquePath :: (created ++ fs))

/-! ## Model instances of the library parameters

Small executable instances of the parameters above.  They are not the real primitives: they
show that the laws assumed of the library can be met, and they let the services be evaluated
on concrete inputs. -/

/-- Model public key with a modulus of `k` bytes.  A ciphertext is: the first four bytes of
the randomness (zero-padded), the message length on two bytes, the message, zero padding up
to `k` bytes. -/
def modelPublicKey (k : Nat) : PublicKey where
  Size := k
  EncryptOAEP := fun random msg =>
    if msg.length + oaepOverhead ≤ k then
      some ((random ++ [0, 0, 0, 0]).take 4
        ++ [Fin.ofNat (msg.length / 256), Fin.ofNat msg.length]
        ++ msg ++ List.replicate (k - 6 - msg.length) 0)
    else none

/-- Model private key matching `modelPublicKey k`. -/
def modelPrivateKey (k : Nat) : PrivateKey where
  DecryptOAEP := fun c =>
    if c.length = k then
      let n := (c.getD 4 0).val * 256 + (c.getD 5 0).val
      if n + oaepOverhead ≤ k then some ((c.drop 6).take n) else none
    else none

/-- Model tag: sixteen copies of the byte sum of key, nonce and text. -/
def modelTag (key nonce text : Bytes) : Bytes :=
  List.replicate 16 (Fin.ofNat ((key ++ nonce ++ text).map Fin.val).sum)

/-- Model AEAD: the plaintext followed by `modelTag`. -/
def modelGCM : GCM where
  Seal := fun key nonce pt => pt ++ modelTag key nonce pt
  Open := fun key nonce ct =>
    if ct.length < 16 then none
    else
      let body := ct.take (ct.length - 16)
      if ct.drop (ct.length - 16) = modelTag key nonce body then some body else none

/-- Model extendable-output function. -/
def modelShake : Shake256 := fun msg i => Fin.ofNat ((msg.map Fin.val).sum + i)

/-- An RSA service with both model keys of `k` bytes loaded and 32-byte AES keys. -/
def modelRSAService (k : Nat) : RSAServiceInterface where
  publicKey := modelPublicKey k
  privateKey := some (modelPrivateKey k)
  config := { PublicKeyPath := "public.pem", PrivateKeyPath := "private.pem",
              KeySize := 8 * k, AESKeySize := 32 }

/-- A KMAC service with a 32-byte secret and 32-byte AES keys. -/
def modelKMACService : KMACServiceInterface where
  config := { Key := List.replicate 32 7, KeySize := 32, AESKeySize := 32 }

/-- Random supplies used in the examples: `n` bytes counting up from `start`. -/
def countingBytes (start n : Nat) : Bytes := (List.range n).map (fun i => Fin.ofNat (start + i))

/-- Example entropy: every supply counts up from 1. -/
def modelEntropy : RSAEntropy where
  direct := countingBytes 1 32
  aesKey := countingBytes 1 32
  wrap := countingBytes 1 32
  nonce := countingBytes 1 12

/-- Example entropy whose direct-encryption supply starts with `00 00 00 05`. -/
def smallPrefixEntropy : RSAEntropy where
  direct := [0, 0, 0, 5]
  aesKey := countingBytes 1 32
  wrap := countingBytes 1 32
  nonce := countingBytes 1 12

/-- `list[i] = v`: the slice with the byte at index `i` replaced. -/
def setByte (b : Bytes) (i : Nat) (v : Byte) : Bytes := b.set i v

/-- The number of positions at which two byte slices of equal length differ. -/
def hammingBytes : Bytes → Bytes → Nat
  | x :: xs, y :: ys => (if x = y then 0 else 1) + hammingBytes xs ys
  | _, _ => 0

/-- Example environment: the model primitives, counting random supplies, and a directory
extraction that succeeds and returns the path it was given. -/
def modelEnv : CryptoEnv where
  gcm := modelGCM
  shake := modelShake
  rsaEntropy := modelEntropy
  saltRnd := countingBytes 3 16
  nonceRnd := countingBytes 9 12
  handleDirectoryDecryption := fun zipFilePath => .ok zipFilePath

/-- Example processor as `NewUnifiedProcessor` builds it, with both services. -/
def modelProcessor : UnifiedProcessor where
  rsaService := some (modelRSAService 256)
  kmacService := some modelKMACService
  strategy := DefaultStrategy ".hycrypt".toList

/-- Example processor with the RSA service only. -/
def rsaOnlyProcessor : UnifiedProcessor where
  rsaService := some (modelRSAService 256)
  kmacService := none
  strategy := DefaultStrategy ".hycrypt".toList

/-- Example file source: readable, with the given name and content. -/
def fileSourceNamed (name : GoString) (content : Bytes) : DataSource where
  Read := .ok (.ok content)
  Size := content.length
  Name := name
  SourceType := "file".toList

/-- Example sink: every write succeeds. -/
def modelSink (path : GoString) : DataSink where
  Write := fun _ => .nil
  Path := path

/-- Options with the given algorithm and file input and output. -/
def optionsFor (method : GoString) : CryptoOptions where
  Method := method
  OutputFormat := .OutputFile
  InputFormat := .InputFile
  Verbose := false

/-- An RSA service whose private key could not be loaded: `RSAService` leaves the field
`nil`. -/
def publicOnlyRSAService (k : Nat) : RSAServiceInterface where
  publicKey := modelPublicKey k
  privateKey := none
  config := { PublicKeyPath := "public.pem", PrivateKeyPath := "private.pem",
              KeySize := 8 * k, AESKeySize := 32 }

/-- Example processor whose RSA service has no private key. -/
def publicOnlyProcessor : UnifiedProcessor where
  rsaService := some (publicOnlyRSAService 256)
  kmacService := none
  strategy := DefaultStrategy ".hycrypt".toList

/-- Model rendering: the exact quotient `a / b`, rounded to one decimal, halves to the even
digit. -/
def modelFloatFormat : FloatFormat := fun a b =>
  let n := a.natAbs * 10
  let d := b.natAbs
  let q := n / d
  let r := n % d
  let t := if 2 * r < d then q else if d < 2 * r then q + 1 else if q % 2 = 0 then q else q + 1
  Nat.toDigits 10 (t / 10) ++ ['.'] ++ Nat.toDigits 10 (t % 10)

/-- Example random numbers: the ones that make `generateRandomString` return the given text
of `charset` characters. -/
def drawText (s : GoString) : Nat → Fin 36 :=
  fun i => Fin.ofNat (charset.indexOf (s.getD i 'a'))

/-- The value a call returned; the empty slice when it returned none. -/
def resultBytes : Result Bytes → Bytes
  | .ok b => b
  | _ => []

/-- The bytes of an ASCII text. -/
def asciiBytes (s : String) : Bytes := s.toList.map (fun c => Fin.ofNat c.toNat)

/-! ## Basic facts about the embedding -/


theorem ioReadFull_eq_some {supply : Bytes} {n : Nat} {b : Bytes}
    (h : ioReadFull supply n = some b) : b = supply.take n ∧ b.length = n := by
  unfold ioReadFull at h
  split at h
  · rename_i hle
    simp only [Option.some.injEq] at h
    subst h
    exact ⟨rfl, by simp [List.length_take]; omega⟩
  · simp at h

theorem ioReadFull_of_le {supply : Bytes} {n : Nat} (h : n ≤ supply.length) :
    ioReadFull supply n = some (supply.take n) := by
  simp [ioReadFull, h]

theorem aesNewCipher_ok {key : Bytes} (h : validAESKeySize key.length = true) :
    aesNewCipher key = .ok () := by
  simp [aesNewCipher, h]

theorem deriveKey_length (k : KMACServiceInterface) (shake : Shake256) (salt : Bytes)
    (n : Nat) : (k.deriveKey shake salt n).length = n := by
  simp [KMACServiceInterface.deriveKey]

/-- What `EncryptAESGCM` returns when it succeeds: the first 12 bytes of the random supply as
nonce, followed by the sealed plaintext; success needs a valid key. -/
theorem EncryptAESGCM_eq_ok {gcm : GCM} {rnd key P E : Bytes}
    (h : EncryptAESGCM gcm rnd key P = .ok E) :
    validAESKeySize key.length = true ∧ (rnd.take 12).length = 12 ∧
      E = rnd.take 12 ++ gcm.Seal key (rnd.take 12) P := by
  unfold EncryptAESGCM aesNewCipher at h
  by_cases hk : validAESKeySize key.length = true
  · simp only [hk, if_true] at h
    cases hr : ioReadFull rnd gcmNonceSize with
    | none => simp [hr] at h
    | some nonce =>
      obtain ⟨hn, hl⟩ := ioReadFull_eq_some hr
      simp only [hr, Except.ok.injEq] at h
      subst hn
      exact ⟨hk, hl, h.symm⟩
  · simp [hk] at h

theorem EncryptAESGCM_of_le (gcm : GCM) {rnd key : Bytes} (P : Bytes)
    (hk : validAESKeySize key.length = true) (hr : 12 ≤ rnd.length) :
    EncryptAESGCM gcm rnd key P = .ok (rnd.take 12 ++ gcm.Seal key (rnd.take 12) P) := by
  have h12 : ioReadFull rnd gcmNonceSize = some (rnd.take 12) := ioReadFull_of_le hr
  simp [EncryptAESGCM, aesNewCipher, hk, h12]

/-- Opening `nonce ++ Seal key nonce P` with the same valid key gives `P` back. -/
theorem DecryptAESGCM_seal {gcm : GCM} (hg : gcm.Lawful) {key nonce : Bytes} (P : Bytes)
    (hk : validAESKeySize key.length = true) (hn : nonce.length = 12) :
    DecryptAESGCM gcm key (nonce ++ gcm.Seal key nonce P) = .ok P := by
  have hlt : ¬ (nonce ++ gcm.Seal key nonce P).length < gcmNonceSize := by
    simp [gcmNonceSize, hn]
  have htake : (nonce ++ gcm.Seal key nonce P).take gcmNonceSize = nonce := by
    rw [show gcmNonceSize = nonce.length from hn.symm]; exact List.take_left' rfl
  have hdrop : (nonce ++ gcm.Seal key nonce P).drop gcmNonceSize = gcm.Seal key nonce P := by
    rw [show gcmNonceSize = nonce.length from hn.symm]; exact List.drop_left' rfl
  have hopen := hg.open_seal key nonce P hk hn
  simp only [DecryptAESGCM, aesNewCipher, hk, if_true, hlt, if_false, htake, hdrop, hopen]

theorem isHybridEncrypted_iff (blob : Bytes) :
    isHybridEncrypted blob = true ↔
      4 < blob.length ∧ 0 < bigEndianUint32 blob ∧
        bigEndianUint32 blob < uint32 blob.length ∧ bigEndianUint32 blob ≤ 1024 := by
  unfold isHybridEncrypted
  by_cases h : blob.length ≤ 4
  · simp only [h, if_true]
    constructor
    · intro hf; cases hf
    · intro hf; omega
  · simp only [h, if_false, Bool.and_eq_true, decide_eq_true_eq]
    constructor
    · rintro ⟨⟨h1, h2⟩, h3⟩; exact ⟨by omega, h1, h2, h3⟩
    · rintro ⟨_, h1, h2, h3⟩; exact ⟨⟨h1, h2⟩, h3⟩

theorem modelGCM_lawful : modelGCM.Lawful where
  seal_length := by
    intro key nonce pt _ _
    simp [modelGCM, modelTag, gcmTagSize]
  open_seal := by
    intro key nonce pt _ _
    have hlen : (pt ++ modelTag key nonce pt).length - 16 = pt.length := by
      simp [modelTag]
    have h1 : ¬ (pt ++ modelTag key nonce pt).length < 16 := by
      simp [modelTag]
    have h2 : (pt ++ modelTag key nonce pt).take pt.length = pt := List.take_left' rfl
    have h3 : (pt ++ modelTag key nonce pt).drop pt.length = modelTag key nonce pt :=
      List.drop_left' rfl
    simp only [modelGCM, h1, if_false, hlen, h2, h3, if_true]

/-! ## Claims on the symmetric primitive and the KMAC service -/


/-- What `KMACServiceInterface.EncryptData` returns when it succeeds: salt, nonce and the
text sealed under the key derived from the salt. -/
theorem KMAC_EncryptData_eq_ok {k : KMACServiceInterface} {shake : Shake256} {gcm : GCM}
    {saltRnd nonceRnd P E : Bytes}
    (h : k.EncryptData shake gcm saltRnd nonceRnd (.ok P) = .ok E) :
    (saltRnd.take 16).length = 16 ∧ (nonceRnd.take 12).length = 12 ∧
      validAESKeySize k.config.AESKeySize = true ∧
      E = saltRnd.take 16 ++ (nonceRnd.take 12 ++
        gcm.Seal (k.deriveKey shake (saltRnd.take 16) k.config.AESKeySize)
          (nonceRnd.take 12) P) := by
  unfold KMACServiceInterface.EncryptData at h
  simp only at h
  cases hs : ioReadFull saltRnd 16 with
  | none => simp [hs] at h
  | some salt =>
    obtain ⟨hsalt, hsl⟩ := ioReadFull_eq_some hs
    simp only [hs] at h
    cases he : encryptAESGCM gcm nonceRnd (k.deriveKey shake salt k.config.AESKeySize) P with
    | error e => simp [he] at h
    | ok c =>
      simp only [he, Result.ok.injEq] at h
      obtain ⟨hk, hn, hc⟩ := EncryptAESGCM_eq_ok he
      rw [deriveKey_length] at hk
      subst hsalt
      subst hc
      exact ⟨hsl, hn, hk, h.symm⟩

theorem KMAC_EncryptData_of_le (k : KMACServiceInterface) (shake : Shake256) (gcm : GCM)
    {saltRnd nonceRnd : Bytes} (P : Bytes)
    (hsize : validAESKeySize k.config.AESKeySize = true)
    (hs : 16 ≤ saltRnd.length) (hn : 12 ≤ nonceRnd.length) :
    k.EncryptData shake gcm saltRnd nonceRnd (.ok P) =
      .ok (saltRnd.take 16 ++ (nonceRnd.take 12 ++
        gcm.Seal (k.deriveKey shake (saltRnd.take 16) k.config.AESKeySize)
          (nonceRnd.take 12) P)) := by
  have h16 : ioReadFull saltRnd 16 = some (saltRnd.take 16) := ioReadFull_of_le hs
  have hk : validAESKeySize
      (k.deriveKey shake (saltRnd.take 16) k.config.AESKeySize).length = true := by
    rw [deriveKey_length]; exact hsize
  simp only [KMACServiceInterface.EncryptData, h16, encryptAESGCM,
    EncryptAESGCM_of_le gcm P hk hn]

/-- C2: KMAC round trip.  For a KMAC service whose AES key size is 16, 24 or 32, every
plaintext `P` and every random salt and nonce: whatever envelope `EncryptData` returns,
`DecryptData` of it returns exactly `P`, the key re-derived from the first 16 bytes of the
envelope being the key encryption derived from its salt; and `EncryptData` does return an
envelope once the random source delivers the 16 salt bytes and the 12 nonce bytes. -/
theorem C2_kmac_round_trip (k : KMACServiceInterface) (shake : Shake256) (gcm : GCM)
    (hg : gcm.Lawful) (hsize : validAESKeySize k.config.AESKeySize = true)
    (saltRnd nonceRnd P : Bytes) :
    (∀ E, k.EncryptData shake gcm saltRnd nonceRnd (.ok P) = .ok E →
      k.deriveKey shake (E.take 16) k.config.AESKeySize =
        k.deriveKey shake (saltRnd.take 16) k.config.AESKeySize ∧
      k.DecryptData shake gcm (stringsNewReader E) = .ok P) ∧
    (16 ≤ saltRnd.length → 12 ≤ nonceRnd.length →
      ∃ E, k.EncryptData shake gcm saltRnd nonceRnd (.ok P) = .ok E) := by
  refine ⟨?_, fun hs hn => ⟨_, KMAC_EncryptData_of_le k shake gcm P hsize hs hn⟩⟩
  intro E hE
  obtain ⟨hsl, hnl, _, hEq⟩ := KMAC_EncryptData_eq_ok hE
  have htake : E.take 16 = saltRnd.take 16 := by
    rw [hEq]; exact List.take_left' hsl
  have hdrop : E.drop 16 = nonceRnd.take 12 ++
      gcm.Seal (k.deriveKey shake (saltRnd.take 16) k.config.AESKeySize)
        (nonceRnd.take 12) P := by
    rw [hEq]; exact List.drop_left' hsl
  have hlen : ¬ E.length < 16 := by
    rw [hEq, List.length_append, hsl]; omega
  have hk : validAESKeySize
      (k.deriveKey shake (saltRnd.take 16) k.config.AESKeySize).length = true := by
    rw [deriveKey_length]; exact hsize
  refine ⟨by rw [htake], ?_⟩
  simp only [KMACServiceInterface.DecryptData, stringsNewReader, hlen, if_false, htake, hdrop,
    decryptAESGCM, DecryptAESGCM_seal hg P hk hnl]

/-- Witness of C2: the model service encrypts and decrypts the four bytes of "test". -/
theorem C2_kmac_round_trip_witness :
    ∃ E, modelKMACService.EncryptData modelShake modelGCM (countingBytes 3 16)
        (countingBytes 9 12) (.ok (asciiBytes "test")) = .ok E ∧
      modelKMACService.DecryptData modelShake modelGCM (stringsNewReader E) =
        .ok (asciiBytes "test") := by
  have hg : modelGCM.Lawful := modelGCM_lawful
  have h := C2_kmac_round_trip modelKMACService modelShake modelGCM hg (by decide)
    (countingBytes 3 16) (countingBytes 9 12) (asciiBytes "test")
  obtain ⟨E, hE⟩ := h.2 (by decide) (by decide)
  exact ⟨E, hE, (h.1 E hE).2⟩


/-- C7: KMAC envelope layout.  For a KMAC service with a valid AES key size, once the random
source delivers the salt and the nonce, `EncryptData` returns salt (16 bytes), nonce
(12 bytes) and the text sealed under the key derived from that salt: the envelope has
`len(P) + 44` bytes and its first 16 bytes are the salt used for key derivation. -/
theorem C7_kmac_envelope_layout (k : KMACServiceInterface) (shake : Shake256) (gcm : GCM)
    (hg : gcm.Lawful) (hsize : validAESKeySize k.config.AESKeySize = true)
    (saltRnd nonceRnd P : Bytes) (hs : 16 ≤ saltRnd.length) (hn : 12 ≤ nonceRnd.length) :
    ∃ E, k.EncryptData shake gcm saltRnd nonceRnd (.ok P) = .ok E ∧
      E = saltRnd.take 16 ++ nonceRnd.take 12 ++
        gcm.Seal (k.deriveKey shake (saltRnd.take 16) k.config.AESKeySize)
          (nonceRnd.take 12) P ∧
      (gcm.Seal (k.deriveKey shake (saltRnd.take 16) k.config.AESKeySize)
          (nonceRnd.take 12) P).length = P.length + 16 ∧
      E.length = P.length + 44 ∧
      E.take 16 = saltRnd.take 16 := by
  have hsl : (saltRnd.take 16).length = 16 := by simp [List.length_take]; omega
  have hnl : (nonceRnd.take 12).length = 12 := by simp [List.length_take]; omega
  have hk : validAESKeySize
      (k.deriveKey shake (saltRnd.take 16) k.config.AESKeySize).length = true := by
    rw [deriveKey_length]; exact hsize
  have hseal := hg.seal_length _ _ P hk hnl
  refine ⟨_, KMAC_EncryptData_of_le k shake gcm P hsize hs hn, ?_, hseal, ?_, ?_⟩
  · simp [List.append_assoc]
  · simp only [List.length_append, hsl, hnl, hseal, gcmTagSize]; omega
  · exact List.take_left' hsl

/-- Witness of C7: with a 32-byte secret the envelope of the 4-byte plaintext "test" has
exactly 48 bytes. -/
theorem C7_kmac_envelope_layout_witness :
    ∃ E, modelKMACService.EncryptData modelShake modelGCM (countingBytes 3 16)
        (countingBytes 9 12) (.ok (asciiBytes "test")) = .ok E ∧ E.length = 48 := by
  obtain ⟨E, hE, _, _, hlen, _⟩ := C7_kmac_envelope_layout modelKMACService modelShake modelGCM
    modelGCM_lawful (by decide) (countingBytes 3 16) (countingBytes 9 12) (asciiBytes "test")
    (by decide) (by decide)
  exact ⟨E, hE, by rw [hlen]; decide⟩

/-- C8: for every blob shorter than 16 bytes (the empty blob included)
`KMACServiceInterface.DecryptData` returns no plaintext: it fails with the `InvalidFormat`
error for "kmac encrypted data". -/
theorem C8_kmac_short_blob (k : KMACServiceInterface) (shake : Shake256) (gcm : GCM)
    (blob : Bytes) (h : blob.length < 16) :
    k.DecryptData shake gcm (.ok blob) = .err (InvalidFormat "kmac encrypted data" .nil) ∧
      (InvalidFormat "kmac encrypted data" .nil).code? = some ErrorCode.ErrInvalidFormat := by
  refine ⟨?_, rfl⟩
  simp [KMACServiceInterface.DecryptData, h]

/-- Witness of C8: the empty blob. -/
theorem C8_kmac_short_blob_witness :
    modelKMACService.DecryptData modelShake modelGCM (.ok []) =
      .err (InvalidFormat "kmac encrypted data" .nil) :=
  (C8_kmac_short_blob modelKMACService modelShake modelGCM [] (by decide)).1

/-- C9: symmetric open.  For a valid AES key and any blob, `DecryptAESGCM` fails when the
blob is shorter than the 12-byte nonce and when the tag of `blob[12:]` does not verify under
the nonce `blob[:12]`; otherwise it returns the GCM opening of `blob[12:]` under that nonce.
Consequently it returns `P` on whatever `EncryptAESGCM(key, P)` returns, and
`EncryptAESGCM` does return a blob once the random source delivers the nonce. -/
theorem C9_symmetric_open (gcm : GCM) (key blob : Bytes)
    (hkey : validAESKeySize key.length = true) :
    (blob.length < 12 →
      DecryptAESGCM gcm key blob = .error (.errorString "ciphertext too short")) ∧
    (12 ≤ blob.length → gcm.Open key (blob.take 12) (blob.drop 12) = none →
      DecryptAESGCM gcm key blob = .error (.wrapError "AES-GCM decryption failed: " errOpen)) ∧
    (12 ≤ blob.length → ∀ p, gcm.Open key (blob.take 12) (blob.drop 12) = some p →
      DecryptAESGCM gcm key blob = .ok p) ∧
    (gcm.Lawful → ∀ rnd P : Bytes,
      (∀ E, EncryptAESGCM gcm rnd key P = .ok E → DecryptAESGCM gcm key E = .ok P) ∧
      (12 ≤ rnd.length → ∃ E, EncryptAESGCM gcm rnd key P = .ok E)) := by
  refine ⟨?_, ?_, ?_, ?_⟩
  · intro h
    simp [DecryptAESGCM, aesNewCipher, hkey, gcmNonceSize, h]
  · intro h ho
    have : ¬ blob.length < 12 := by omega
    simp [DecryptAESGCM, aesNewCipher, hkey, gcmNonceSize, this, ho]
  · intro h p ho
    have : ¬ blob.length < 12 := by omega
    simp [DecryptAESGCM, aesNewCipher, hkey, gcmNonceSize, this, ho]
  · intro hg rnd P
    refine ⟨?_, fun hr => ⟨_, EncryptAESGCM_of_le gcm P hkey hr⟩⟩
    intro E hE
    obtain ⟨_, hn, hEq⟩ := EncryptAESGCM_eq_ok hE
    rw [hEq]
    exact DecryptAESGCM_seal hg P hkey hn

/-- Witness of C9: a 16-byte key, the model AEAD and the plaintext "test". -/
theorem C9_symmetric_open_witness :
    ∃ E, EncryptAESGCM modelGCM (countingBytes 9 12) (countingBytes 1 16) (asciiBytes "test")
        = .ok E ∧
      DecryptAESGCM modelGCM (countingBytes 1 16) E = .ok (asciiBytes "test") := by
  have h := (C9_symmetric_open modelGCM (countingBytes 1 16) [] (by decide)).2.2.2
    modelGCM_lawful (countingBytes 9 12) (asciiBytes "test")
  obtain ⟨E, hE⟩ := h.2 (by decide)
  exact ⟨E, hE, h.1 E hE⟩

/-- C3 fails as stated: the 4-byte blob `00 00 00 01` has at least 4 bytes and its length
field `k = 1` satisfies `0 < k < len(blob)` and `k <= 1024`, yet it is not classified as
hybrid. -/
theorem C3_counterexample :
    4 ≤ ([0, 0, 0, 1] : Bytes).length ∧
    ¬ (isHybridEncrypted [0, 0, 0, 1] = true ↔
        (0 < bigEndianUint32 [0, 0, 0, 1] ∧
          bigEndianUint32 [0, 0, 0, 1] < ([0, 0, 0, 1] : Bytes).length ∧
          bigEndianUint32 [0, 0, 0, 1] ≤ 1024)) := by
  decide

/-- C3 as amended: for every blob of fewer than 2^32 bytes, `isHybridEncrypted(blob)` is true
if and only if the blob has more than 4 bytes and its first 4 bytes, read as a big-endian
unsigned integer `k`, satisfy `0 < k < len(blob)` and `k <= 1024`. -/
theorem C3_hybrid_classification (blob : Bytes) (h32 : blob.length < 2 ^ 32) :
    isHybridEncrypted blob = true ↔
      4 < blob.length ∧ 0 < bigEndianUint32 blob ∧ bigEndianUint32 blob < blob.length ∧
        bigEndianUint32 blob ≤ 1024 := by
  rw [isHybridEncrypted_iff, uint32, Nat.mod_eq_of_lt h32]

/-- Witness of C3 as amended: the 5-byte blob `00 00 00 01 09` is classified as hybrid. -/
theorem C3_hybrid_classification_witness : isHybridEncrypted [0, 0, 0, 1, 9] = true :=
  (C3_hybrid_classification [0, 0, 0, 1, 9] (by decide)).2 (by decide)


/-! ## Claims on the RSA service -/

theorem length_eq_four {α : Type} {l : List α} (h : l.length = 4) :
    ∃ a b c d, l = [a, b, c, d] := by
  match l, h with
  | [a, b, c, d], _ => exact ⟨a, b, c, d, rfl⟩

theorem putUint32_length (v : Nat) : (putUint32 v).length = 4 := rfl

theorem bigEndianUint32_putUint32 (v : Nat) (rest : Bytes) (h : v < 2 ^ 32) :
    bigEndianUint32 (putUint32 v ++ rest) = v := by
  simp only [putUint32, bigEndianUint32, List.cons_append, List.nil_append, Fin.ofNat]
  simp only [Nat.reducePow, Nat.reduceAdd] at h ⊢
  omega

theorem modelKeyPair (k : Nat) (hk : k ≤ 65536) :
    KeyPair (modelPublicKey k) (modelPrivateKey k) where
  encrypt_isSome := by
    intro random msg
    by_cases h : msg.length + oaepOverhead ≤ k <;> simp [modelPublicKey, h]
  encrypt_length := by
    intro random msg c hc
    simp only [modelPublicKey, oaepOverhead] at hc ⊢
    split at hc
    · rename_i hle
      simp only [Option.some.injEq] at hc
      subst hc
      simp [List.length_take]
      omega
    · simp at hc
  decrypt_encrypt := by
    intro random msg c hc
    have hlen : c.length = k := by
      simp only [modelPublicKey, oaepOverhead] at hc
      split at hc
      · simp only [Option.some.injEq] at hc
        subst hc
        simp [List.length_take]
        omega
      · simp at hc
    simp only [modelPublicKey, oaepOverhead] at hc
    split at hc
    · rename_i hle
      simp only [Option.some.injEq] at hc
      have h4 : ((random ++ [0, 0, 0, 0]).take 4).length = 4 := by
        simp [List.length_take]
      obtain ⟨a, b, c', d, habcd⟩ := length_eq_four h4
      rw [habcd] at hc
      have hn : (Fin.ofNat (msg.length / 256) : Byte).val * 256
          + (Fin.ofNat msg.length : Byte).val = msg.length := by
        simp only [Fin.ofNat]
        omega
      subst hc
      simp only [modelPrivateKey, oaepOverhead]
      simp only [List.cons_append, List.nil_append, List.append_assoc, List.getD_cons_succ,
        List.getD_cons_zero, List.drop_succ_cons, List.drop_zero, hn]
      have hl : (a :: b :: c' :: d :: Fin.ofNat (msg.length / 256) :: Fin.ofNat msg.length ::
          (msg ++ List.replicate (k - 6 - msg.length) 0)).length = k := by
        simp; omega
      rw [if_pos hl, if_pos hle]
      exact congrArg some (List.take_left' rfl)
    · simp at hc
  decrypt_long := by
    intro c hc
    have : ¬ c.length = k := by
      simp only [modelPublicKey] at hc; omega
    simp [modelPrivateKey, this]


/-- What `encryptLargeData` returns when it succeeds. -/
theorem encryptLargeData_eq_ok {r : RSAServiceInterface} {gcm : GCM} {rnd : RSAEntropy}
    {P E : Bytes} (h : encryptLargeData r gcm rnd P = .ok E) :
    ∃ aesKey encryptedKey,
      ioReadFull rnd.aesKey r.config.AESKeySize = some aesKey ∧
      r.publicKey.EncryptOAEP rnd.wrap aesKey = some encryptedKey ∧
      validAESKeySize aesKey.length = true ∧ (rnd.nonce.take 12).length = 12 ∧
      E = putUint32 (uint32 encryptedKey.length) ++ encryptedKey ++
        (rnd.nonce.take 12 ++ gcm.Seal aesKey (rnd.nonce.take 12) P) := by
  unfold encryptLargeData at h
  cases hk : ioReadFull rnd.aesKey r.config.AESKeySize with
  | none => simp [hk] at h
  | some aesKey =>
    simp only [hk] at h
    cases hw : r.publicKey.EncryptOAEP rnd.wrap aesKey with
    | none => simp [hw] at h
    | some encryptedKey =>
      simp only [hw] at h
      cases he : encryptAESGCM gcm rnd.nonce aesKey P with
      | error e => simp [he] at h
      | ok c =>
        simp only [he, Result.ok.injEq] at h
        obtain ⟨hv, hn, hc⟩ := EncryptAESGCM_eq_ok he
        subst hc
        exact ⟨aesKey, encryptedKey, rfl, hw, hv, hn, h.symm⟩

/-- `DecryptData` on a well-formed hybrid envelope whose key field has at most 1024 bytes:
the key is unwrapped and the rest is opened. -/
theorem DecryptData_hybrid {r : RSAServiceInterface} {priv : PrivateKey} {gcm : GCM}
    (hpriv : r.privateKey = some priv) (hg : gcm.Lawful)
    {aesKey encryptedKey nonce : Bytes} (P : Bytes)
    (hdec : priv.DecryptOAEP encryptedKey = some aesKey)
    (hv : validAESKeySize aesKey.length = true) (hn : nonce.length = 12)
    (hpos : 0 < encryptedKey.length) (hle : encryptedKey.length ≤ 1024)
    (hlen : (putUint32 (uint32 encryptedKey.length) ++ encryptedKey ++
        (nonce ++ gcm.Seal aesKey nonce P)).length < 2 ^ 32) :
    r.DecryptData gcm (.ok (putUint32 (uint32 encryptedKey.length) ++ encryptedKey ++
        (nonce ++ gcm.Seal aesKey nonce P))) = .ok P := by
  have hu : uint32 encryptedKey.length = encryptedKey.length := by
    unfold uint32; apply Nat.mod_eq_of_lt; omega
  rw [hu] at hlen ⊢
  set E := putUint32 encryptedKey.length ++ encryptedKey ++ (nonce ++ gcm.Seal aesKey nonce P)
    with hE
  have hEl : E.length = 4 + encryptedKey.length + (12 + (gcm.Seal aesKey nonce P).length) := by
    simp [hE, putUint32_length, hn]; omega
  have hkl : bigEndianUint32 E = encryptedKey.length := by
    rw [hE, List.append_assoc]
    exact bigEndianUint32_putUint32 _ _ (by omega)
  have huE : uint32 E.length = E.length := by
    unfold uint32; exact Nat.mod_eq_of_lt hlen
  have hhyb : isHybridEncrypted E = true := by
    rw [isHybridEncrypted_iff, hkl, huE]; omega
  have hhi : uint32 (4 + encryptedKey.length) = 4 + encryptedKey.length := by
    unfold uint32; apply Nat.mod_eq_of_lt; omega
  have htake : (E.take (4 + encryptedKey.length)).drop 4 = encryptedKey := by
    have h1 : E.take (4 + encryptedKey.length) = putUint32 encryptedKey.length ++ encryptedKey := by
      rw [hE]; exact List.take_left' (by simp [putUint32_length])
    rw [h1]; exact List.drop_left' (putUint32_length _)
  have hdrop : E.drop (4 + encryptedKey.length) = nonce ++ gcm.Seal aesKey nonce P := by
    rw [hE]; exact List.drop_left' (by simp [putUint32_length])
  have h4 : ¬ E.length < 4 := by omega
  have hz : ¬ (encryptedKey.length = 0 ∨ E.length ≤ encryptedKey.length) := by omega
  have hp : ¬ (4 + encryptedKey.length < 4 ∨ E.length < 4 + encryptedKey.length) := by omega
  have hD : decryptHybridData priv gcm E = .ok P := by
    unfold decryptHybridData
    simp only [h4, if_false, hkl, huE, hhi, beq_iff_eq, Bool.or_eq_true, decide_eq_true_eq,
      ge_iff_le, hz, hp, htake, hdrop, hdec, decryptAESGCM, DecryptAESGCM_seal hg P hv hn]
  simp only [RSAServiceInterface.DecryptData, hpriv, hhyb, if_true, hD]


theorem isSome_iff_exists {α : Type} {o : Option α} : o.isSome = true ↔ ∃ a, o = some a := by
  cases o <;> simp

/-- Within the direct limit `EncryptData` returns the OAEP ciphertext itself. -/
theorem EncryptData_direct {r : RSAServiceInterface} {priv : PrivateKey}
    (hK : KeyPair r.publicKey priv) (gcm : GCM) (rnd : RSAEntropy) {P : Bytes}
    (hP : P.length + oaepOverhead ≤ r.publicKey.Size) :
    ∃ E, r.publicKey.EncryptOAEP rnd.direct P = some E ∧
      r.EncryptData gcm rnd (.ok P) = .ok E ∧ E.length = r.publicKey.Size := by
  obtain ⟨E, hE⟩ := isSome_iff_exists.1 ((hK.encrypt_isSome rnd.direct P).2 hP)
  exact ⟨E, hE, by simp [RSAServiceInterface.EncryptData, hE], hK.encrypt_length _ _ _ hE⟩

/-- Beyond the direct limit `EncryptData` is `encryptLargeData`, which succeeds for a valid
AES key size that fits the modulus once the random source delivers key and nonce. -/
theorem EncryptData_hybrid {r : RSAServiceInterface} {priv : PrivateKey}
    (hK : KeyPair r.publicKey priv) (gcm : GCM) (rnd : RSAEntropy) {P : Bytes}
    (hP : r.publicKey.Size < P.length + oaepOverhead)
    (hv : validAESKeySize r.config.AESKeySize = true)
    (hfit : r.config.AESKeySize + oaepOverhead ≤ r.publicKey.Size)
    (hkey : r.config.AESKeySize ≤ rnd.aesKey.length) (hnonce : 12 ≤ rnd.nonce.length) :
    ∃ encryptedKey,
      r.publicKey.EncryptOAEP rnd.wrap (rnd.aesKey.take r.config.AESKeySize)
        = some encryptedKey ∧
      encryptedKey.length = r.publicKey.Size ∧
      r.publicKey.EncryptOAEP rnd.direct P = none ∧
      encryptLargeData r gcm rnd P = r.EncryptData gcm rnd (.ok P) ∧
      r.EncryptData gcm rnd (.ok P) =
        .ok (putUint32 (uint32 encryptedKey.length) ++ encryptedKey ++
          (rnd.nonce.take 12 ++
            gcm.Seal (rnd.aesKey.take r.config.AESKeySize) (rnd.nonce.take 12) P)) := by
  have hnone : r.publicKey.EncryptOAEP rnd.direct P = none := by
    cases h : r.publicKey.EncryptOAEP rnd.direct P with
    | none => rfl
    | some c =>
      have := (hK.encrypt_isSome rnd.direct P).1 (by simp [h])
      omega
  have hkl : (rnd.aesKey.take r.config.AESKeySize).length = r.config.AESKeySize := by
    simp [List.length_take]; omega
  obtain ⟨encryptedKey, hw⟩ := isSome_iff_exists.1
    ((hK.encrypt_isSome rnd.wrap (rnd.aesKey.take r.config.AESKeySize)).2 (by rw [hkl]; exact hfit))
  have hread : ioReadFull rnd.aesKey r.config.AESKeySize
      = some (rnd.aesKey.take r.config.AESKeySize) := ioReadFull_of_le hkey
  have hvk : validAESKeySize (rnd.aesKey.take r.config.AESKeySize).length = true := by
    rw [hkl]; exact hv
  have hlarge : encryptLargeData r gcm rnd P =
      .ok (putUint32 (uint32 encryptedKey.length) ++ encryptedKey ++
          (rnd.nonce.take 12 ++
            gcm.Seal (rnd.aesKey.take r.config.AESKeySize) (rnd.nonce.take 12) P)) := by
    simp only [encryptLargeData, hread, hw, encryptAESGCM, EncryptAESGCM_of_le gcm P hvk hnonce]
  have hEnc : r.EncryptData gcm rnd (.ok P) = encryptLargeData r gcm rnd P := by
    simp only [RSAServiceInterface.EncryptData, hnone]
  exact ⟨encryptedKey, hw, hK.encrypt_length _ _ _ hw, hnone, hEnc.symm, by rw [hEnc, hlarge]⟩

/-- A hybrid envelope made with a modulus of more than 1024 bytes is not recognised as
hybrid; the direct decryption of the whole envelope then fails. -/
theorem DecryptData_large_modulus {r : RSAServiceInterface} {priv : PrivateKey} {gcm : GCM}
    (hpriv : r.privateKey = some priv) (hK : KeyPair r.publicKey priv)
    {rnd : RSAEntropy} {P E : Bytes} (hE : encryptLargeData r gcm rnd P = .ok E)
    (hbig : 1024 < r.publicKey.Size) (h32 : r.publicKey.Size < 2 ^ 32) :
    r.DecryptData gcm (.ok E) = .err (DecryptionFailed AlgorithmRSA ErrDecryption) := by
  obtain ⟨aesKey, encryptedKey, _, hw, _, _, hEq⟩ := encryptLargeData_eq_ok hE
  have hl := hK.encrypt_length _ _ _ hw
  have hu : uint32 encryptedKey.length = r.publicKey.Size := by
    rw [hl]; unfold uint32; exact Nat.mod_eq_of_lt h32
  rw [hu] at hEq
  have hkl : bigEndianUint32 E = r.publicKey.Size := by
    rw [hEq, List.append_assoc]; exact bigEndianUint32_putUint32 _ _ h32
  have hnot : isHybridEncrypted E = false := by
    cases h : isHybridEncrypted E with
    | false => rfl
    | true =>
      have := (isHybridEncrypted_iff E).1 h
      omega
  have hlong : priv.DecryptOAEP E = none := by
    apply hK.decrypt_long
    rw [hEq]; simp [putUint32_length, hl]; omega
  simp [RSAServiceInterface.DecryptData, hpriv, hnot, hlong]

/-- C1 as amended: RSA round trip.  For a service holding a matching key pair whose modulus
has at most 1024 bytes, every plaintext `P` and every choice of randomness: if `EncryptData`
returns an envelope `E` of fewer than 2^32 bytes and, when `E` is a direct OAEP ciphertext,
its first four bytes are not read as a hybrid length prefix, then `DecryptData(E)` returns
exactly `P`. -/
theorem C1_rsa_round_trip (r : RSAServiceInterface) (priv : PrivateKey) (gcm : GCM)
    (hpriv : r.privateKey = some priv) (hK : KeyPair r.publicKey priv) (hg : gcm.Lawful)
    (rnd : RSAEntropy) (P E : Bytes)
    (hE : r.EncryptData gcm rnd (.ok P) = .ok E)
    (hsize : r.publicKey.Size ≤ 1024) (hlen : E.length < 2 ^ 32)
    (hdirect : r.publicKey.EncryptOAEP rnd.direct P = some E → isHybridEncrypted E = false) :
    r.DecryptData gcm (stringsNewReader E) = .ok P := by
  unfold RSAServiceInterface.EncryptData at hE
  cases hd : r.publicKey.EncryptOAEP rnd.direct P with
  | some c =>
    simp only [hd, Result.ok.injEq] at hE
    subst hE
    have hdec := hK.decrypt_encrypt _ _ _ hd
    simp [RSAServiceInterface.DecryptData, stringsNewReader, hpriv, hdirect hd, hdec]
  | none =>
    simp only [hd] at hE
    obtain ⟨aesKey, encryptedKey, _, hw, hv, hn, hEq⟩ := encryptLargeData_eq_ok hE
    have hl := hK.encrypt_length _ _ _ hw
    have hpos : 0 < encryptedKey.length := by
      have := (hK.encrypt_isSome rnd.wrap aesKey).1 (by simp [hw])
      simp only [oaepOverhead] at this
      omega
    subst hEq
    exact DecryptData_hybrid hpriv hg P (hK.decrypt_encrypt _ _ _ hw) hv hn hpos
      (by omega) hlen

set_option maxRecDepth 100000 in
/-- Witness of C1 as amended: the 10 bytes "hello12345" under the model key pair of 256
bytes; the ciphertext starts with `01 02 03 04`, which is not a hybrid prefix. -/
theorem C1_rsa_round_trip_witness :
    (modelRSAService 256).DecryptData modelGCM (stringsNewReader (resultBytes
        ((modelRSAService 256).EncryptData modelGCM modelEntropy
          (.ok (asciiBytes "hello12345")))))
      = .ok (asciiBytes "hello12345") :=
  C1_rsa_round_trip (modelRSAService 256) (modelPrivateKey 256) modelGCM rfl
    (modelKeyPair 256 (by decide)) modelGCM_lawful modelEntropy (asciiBytes "hello12345") _
    (by rfl) (by decide) (by decide) (fun _ => by decide)

set_option maxRecDepth 100000 in
/-- C1 fails as stated, in two ways.  (a) Under the model key pair of 256 bytes, which meets
the OAEP laws, the direct ciphertext of "hello12345" made with randomness `00 00 00 05`
starts with `00 00 00 05`; `DecryptData` reads that as a hybrid key length 5 and fails.
(b) Under the model key pair of 2048 bytes a 2000-byte plaintext gives a hybrid envelope whose
length field 2048 exceeds 1024; `DecryptData` does not recognise it and fails. -/
theorem C1_counterexample :
    (KeyPair (modelPublicKey 256) (modelPrivateKey 256) ∧ modelGCM.Lawful ∧
      ∃ E, (modelRSAService 256).EncryptData modelGCM smallPrefixEntropy
          (.ok (asciiBytes "hello12345")) = .ok E ∧
        E.length = 256 ∧ E.take 4 = [0, 0, 0, 5] ∧
        (modelRSAService 256).DecryptData modelGCM (stringsNewReader E) =
          .err (DecryptionFailed AlgorithmRSA (DecryptionFailed AlgorithmRSA ErrDecryption))) ∧
    (KeyPair (modelPublicKey 2048) (modelPrivateKey 2048) ∧
      ∃ E, (modelRSAService 2048).EncryptData modelGCM modelEntropy
          (.ok (List.replicate 2000 0)) = .ok E ∧
        (modelRSAService 2048).DecryptData modelGCM (stringsNewReader E) =
          .err (DecryptionFailed AlgorithmRSA ErrDecryption)) := by
  refine ⟨⟨modelKeyPair 256 (by decide), modelGCM_lawful, _, rfl, by decide, by decide,
    by decide⟩, modelKeyPair 2048 (by decide), ?_⟩
  have hK := modelKeyPair 2048 (by decide)
  obtain ⟨encryptedKey, _, _, _, hlarge, hEnc⟩ :=
    EncryptData_hybrid (r := modelRSAService 2048) hK modelGCM modelEntropy
      (P := List.replicate 2000 0) (by simp [modelRSAService, modelPublicKey, oaepOverhead])
      (by decide) (by decide) (by decide) (by decide)
  refine ⟨_, hEnc, ?_⟩
  rw [hEnc] at hlarge
  exact DecryptData_large_modulus (r := modelRSAService 2048) rfl hK hlarge (by decide)
    (by decide)


/-- C4: hybrid trigger.  For a key pair with a modulus of `M` bytes: a plaintext of at most
`M - 66` bytes is returned as the OAEP ciphertext itself, `M` bytes with no prefix; a longer
plaintext `P` is returned (for a valid AES key size that fits the modulus, `M < 2^32`, and a
random source delivering key and nonce) as `u32-big-endian(M)`, the `M`-byte encrypted key
and the AES-GCM envelope, so the first 4 bytes read `M` and the total length is
`4 + M + 12 + len(P) + 16`. -/
theorem C4_hybrid_trigger (r : RSAServiceInterface) (priv : PrivateKey) (gcm : GCM)
    (hK : KeyPair r.publicKey priv) (hg : gcm.Lawful) (rnd : RSAEntropy) (P : Bytes) :
    (P.length + 66 ≤ r.publicKey.Size →
      ∃ E, r.EncryptData gcm rnd (.ok P) = .ok E ∧
        r.publicKey.EncryptOAEP rnd.direct P = some E ∧ E.length = r.publicKey.Size) ∧
    (r.publicKey.Size < P.length + 66 → validAESKeySize r.config.AESKeySize = true →
      r.config.AESKeySize + 66 ≤ r.publicKey.Size → r.publicKey.Size < 2 ^ 32 →
      r.config.AESKeySize ≤ rnd.aesKey.length → 12 ≤ rnd.nonce.length →
      ∃ E encryptedKey envelope, r.EncryptData gcm rnd (.ok P) = .ok E ∧
        E = putUint32 r.publicKey.Size ++ encryptedKey ++ envelope ∧
        r.publicKey.EncryptOAEP rnd.wrap (rnd.aesKey.take r.config.AESKeySize)
          = some encryptedKey ∧
        encryptedKey.length = r.publicKey.Size ∧
        EncryptAESGCM gcm rnd.nonce (rnd.aesKey.take r.config.AESKeySize) P = .ok envelope ∧
        envelope.length = 12 + P.length + 16 ∧
        bigEndianUint32 E = r.publicKey.Size ∧
        E.length = 4 + r.publicKey.Size + 12 + P.length + 16) := by
  constructor
  · intro hP
    obtain ⟨E, hd, hE, hl⟩ := EncryptData_direct hK gcm rnd (P := P) hP
    exact ⟨E, hE, hd, hl⟩
  · intro hP hv hfit h32 hkey hnonce
    obtain ⟨encryptedKey, hw, hl, _, _, hEnc⟩ :=
      EncryptData_hybrid hK gcm rnd (P := P) hP hv hfit hkey hnonce
    have hu : uint32 encryptedKey.length = r.publicKey.Size := by
      rw [hl]; unfold uint32; exact Nat.mod_eq_of_lt h32
    rw [hu] at hEnc
    have hkl : (rnd.aesKey.take r.config.AESKeySize).length = r.config.AESKeySize := by
      simp [List.length_take]; omega
    have hvk : validAESKeySize (rnd.aesKey.take r.config.AESKeySize).length = true := by
      rw [hkl]; exact hv
    have hnl : (rnd.nonce.take 12).length = 12 := by simp [List.length_take]; omega
    have hseal := hg.seal_length _ _ P hvk hnl
    have henv : (rnd.nonce.take 12 ++
        gcm.Seal (rnd.aesKey.take r.config.AESKeySize) (rnd.nonce.take 12) P).length
          = 12 + P.length + 16 := by
      rw [List.length_append, hnl, hseal, gcmTagSize]; omega
    refine ⟨_, encryptedKey, _, hEnc, rfl, hw, hl, EncryptAESGCM_of_le gcm P hvk hnonce,
      henv, ?_, ?_⟩
    · rw [List.append_assoc]; exact bigEndianUint32_putUint32 _ _ h32
    · rw [List.length_append, List.length_append, putUint32_length, hl, henv]; omega

theorem replicate_length_lt (n m : Nat) (b : Byte) (h : m < n + 66) :
    m < (List.replicate n b).length + 66 := by
  rw [List.length_replicate]; exact h

/-- Witness of C4: under a 2048-bit model key (256 bytes) the 10-byte "hello12345" encrypts
directly to 256 bytes, and a 1 MiB plaintext gives a hybrid envelope whose first 4 bytes read
256 and whose length is `4 + 256 + 12 + 1048576 + 16`. -/
theorem C4_hybrid_trigger_witness :
    (∃ E, (modelRSAService 256).EncryptData modelGCM modelEntropy
        (.ok (asciiBytes "hello12345")) = .ok E ∧ E.length = 256) ∧
    (∃ E, (modelRSAService 256).EncryptData modelGCM modelEntropy
        (.ok (List.replicate 1048576 0)) = .ok E ∧ bigEndianUint32 E = 256 ∧
        E.length = 4 + 256 + 12 + 1048576 + 16) := by
  constructor
  · obtain ⟨E, hE, _, hl⟩ := (C4_hybrid_trigger (modelRSAService 256) (modelPrivateKey 256)
      modelGCM (modelKeyPair 256 (by decide)) modelGCM_lawful modelEntropy
      (asciiBytes "hello12345")).1 (by decide)
    exact ⟨E, hE, hl⟩
  · obtain ⟨E, _, _, hE, _, _, _, _, _, hk, hl⟩ := (C4_hybrid_trigger (modelRSAService 256)
      (modelPrivateKey 256) modelGCM (modelKeyPair 256 (by decide)) modelGCM_lawful
      modelEntropy (List.replicate 1048576 0)).2
      (replicate_length_lt 1048576 256 0 (by decide)) (by decide) (by decide) (by decide)
      (by decide) (by decide)
    rw [List.length_replicate] at hl
    exact ⟨E, hE, hk, hl⟩


/-- A blob classified as hybrid whose key field runs past the end of the blob makes
`DecryptData` panic on the slice expression `encryptedData[4+keyLen:]`. -/
theorem DecryptData_panic {r : RSAServiceInterface} {priv : PrivateKey} (gcm : GCM)
    (hpriv : r.privateKey = some priv) {blob : Bytes}
    (hhyb : isHybridEncrypted blob = true) (hover : blob.length < 4 + bigEndianUint32 blob) :
    r.DecryptData gcm (.ok blob) = .panic := by
  obtain ⟨h4, hpos, hlt, hle⟩ := (isHybridEncrypted_iff blob).1 hhyb
  have hhi : uint32 (4 + bigEndianUint32 blob) = 4 + bigEndianUint32 blob := by
    unfold uint32; apply Nat.mod_eq_of_lt; omega
  have h1 : ¬ blob.length < 4 := by omega
  have h2 : ¬ (bigEndianUint32 blob = 0 ∨ uint32 blob.length ≤ bigEndianUint32 blob) := by omega
  have h3 : 4 + bigEndianUint32 blob < 4 ∨ blob.length < 4 + bigEndianUint32 blob := Or.inr hover
  have hD : decryptHybridData priv gcm blob = .panic := by
    unfold decryptHybridData
    simp only [h1, if_false, beq_iff_eq, Bool.or_eq_true, decide_eq_true_eq, ge_iff_le, h2,
      hhi, h3, if_true]
  simp only [RSAServiceInterface.DecryptData, hpriv, hhyb, if_true, hD]

/-- C5 at its failing input, for any matching 2048-bit key pair and any AES-GCM: the hybrid
envelope `E` of a 200-byte plaintext has 488 bytes and starts `00 00 01 00`; changing its
byte 3 from `00` to `E7` makes the length field 487, and `DecryptData` of the changed
envelope neither returns an error nor a plaintext: it panics. -/
theorem C5_tampered_prefix_panics (r : RSAServiceInterface) (priv : PrivateKey) (gcm : GCM)
    (hpriv : r.privateKey = some priv) (hK : KeyPair r.publicKey priv) (hg : gcm.Lawful)
    (rnd : RSAEntropy) (P E : Bytes) (hsize : r.publicKey.Size = 256) (hP : P.length = 200)
    (hE : r.EncryptData gcm rnd (.ok P) = .ok E) :
    E.length = 488 ∧ E.take 4 = [0, 0, 1, 0] ∧
      (setByte E 3 0xE7).length = E.length ∧ hammingBytes E (setByte E 3 0xE7) = 1 ∧
      r.DecryptData gcm (stringsNewReader (setByte E 3 0xE7)) = .panic := by
  have hnone : r.publicKey.EncryptOAEP rnd.direct P = none := by
    cases h : r.publicKey.EncryptOAEP rnd.direct P with
    | none => rfl
    | some c =>
      have := (hK.encrypt_isSome rnd.direct P).1 (by simp [h])
      simp only [oaepOverhead] at this
      omega
  simp only [RSAServiceInterface.EncryptData, hnone] at hE
  obtain ⟨aesKey, encryptedKey, _, hw, hv, hn, hEq⟩ := encryptLargeData_eq_ok hE
  have hl : encryptedKey.length = 256 := by rw [hK.encrypt_length _ _ _ hw, hsize]
  have hseal := hg.seal_length aesKey (rnd.nonce.take 12) P hv hn
  have hput : putUint32 (uint32 encryptedKey.length) = [0, 0, 1, 0] := by rw [hl]; decide
  rw [hput] at hEq
  subst hEq
  have hset : setByte ([0, 0, 1, 0] ++ encryptedKey ++
      (rnd.nonce.take 12 ++ gcm.Seal aesKey (rnd.nonce.take 12) P)) 3 0xE7 =
      [0, 0, 1, 0xE7] ++ encryptedKey ++
        (rnd.nonce.take 12 ++ gcm.Seal aesKey (rnd.nonce.take 12) P) := by
    simp [setByte]
  have hlenE : ([0, 0, 1, 0] ++ encryptedKey ++
      (rnd.nonce.take 12 ++ gcm.Seal aesKey (rnd.nonce.take 12) P)).length = 488 := by
    simp only [List.length_append, hl, hn, hseal, hP, gcmTagSize, List.length_cons,
      List.length_nil]
  have hham : ∀ rest : Bytes, hammingBytes ([0, 0, 1, 0] ++ rest) ([0, 0, 1, 0xE7] ++ rest) = 1
      := by
    intro rest
    have hrefl : ∀ l : Bytes, hammingBytes l l = 0 := by
      intro l; induction l with
      | nil => rfl
      | cons a l ih => simp [hammingBytes, ih]
    simp [hammingBytes, hrefl]
  refine ⟨hlenE, by simp, ?_, ?_, ?_⟩
  · simp [setByte]
  · rw [hset, List.append_assoc, List.append_assoc]; exact hham _
  · rw [hset, stringsNewReader]
    have hlen' : ([0, 0, 1, 0xE7] ++ encryptedKey ++
        (rnd.nonce.take 12 ++ gcm.Seal aesKey (rnd.nonce.take 12) P)).length = 488 := by
      simp only [List.length_append, hl, hn, hseal, hP, gcmTagSize, List.length_cons,
        List.length_nil]
    have hk : bigEndianUint32 ([0, 0, 1, 0xE7] ++ encryptedKey ++
        (rnd.nonce.take 12 ++ gcm.Seal aesKey (rnd.nonce.take 12) P)) = 487 := by
      simp only [bigEndianUint32, List.cons_append]
      decide
    apply DecryptData_panic gcm hpriv
    · rw [isHybridEncrypted_iff, hk, hlen']; decide
    · rw [hk, hlen']; decide

set_option maxRecDepth 100000 in
/-- Witness of C5's failing input: the model service with a 256-byte key pair and the 200
bytes `00 01 ... C7`. -/
theorem C5_tampered_prefix_panics_witness :
    (modelRSAService 256).DecryptData modelGCM (stringsNewReader (setByte (resultBytes
        ((modelRSAService 256).EncryptData modelGCM modelEntropy (.ok (countingBytes 0 200))))
        3 0xE7)) = .panic :=
  (C5_tampered_prefix_panics (modelRSAService 256) (modelPrivateKey 256) modelGCM rfl
    (modelKeyPair 256 (by decide)) modelGCM_lawful modelEntropy (countingBytes 0 200) _ rfl
    (by decide) (by rfl)).2.2.2.2

/-- C6 as amended: with a private key loaded, every error `DecryptData` returns is a
`DecryptionFailed` error with the same code, the same message "decryption with rsa failed"
and the same context `method=rsa`, whichever stage failed; the error of the failing stage
is kept as its cause. -/
theorem C6_decryption_failed_shape (r : RSAServiceInterface) (priv : PrivateKey) (gcm : GCM)
    (hpriv : r.privateKey = some priv) (data : Reader) (e : GoError)
    (h : r.DecryptData gcm data = .err e) :
    e.code? = some ErrorCode.ErrDecryptionFailed ∧
      e.message? = some "decryption with rsa failed" ∧
      e.context = [("method", "rsa")] ∧
      e = DecryptionFailed AlgorithmRSA e.Unwrap := by
  have key : ∃ c, e = DecryptionFailed AlgorithmRSA c := by
    unfold RSAServiceInterface.DecryptData at h
    simp only [hpriv] at h
    cases data with
    | error e0 =>
      simp only [Result.err.injEq] at h
      exact ⟨e0, h.symm⟩
    | ok ciphertext =>
      simp only at h
      split at h
      · simp only [Result.err.injEq] at h
        exact ⟨_, h.symm⟩
      · cases h
      · cases h
  obtain ⟨c, rfl⟩ := key
  have hm : "decryption with " ++ AlgorithmRSA ++ " failed" = "decryption with rsa failed" := by
    decide
  have hf : ([] : List (String × String)).filter (fun p => p.1 != "method")
      ++ [("method", AlgorithmRSA)] = [("method", "rsa")] := by decide
  simp only [DecryptionFailed, CryptoError, WithContext, GoError.code?, GoError.message?,
    GoError.context, GoError.Unwrap, hm, hf, and_self]

/-- Witness of C6 as amended: the empty blob under the model service fails in the direct
OAEP decryption, and the returned error has the code `DECRYPTION_FAILED`. -/
theorem C6_decryption_failed_shape_witness :
    (modelRSAService 256).DecryptData modelGCM (.ok [])
        = .err (DecryptionFailed AlgorithmRSA ErrDecryption) ∧
      (DecryptionFailed AlgorithmRSA ErrDecryption).code?
        = some ErrorCode.ErrDecryptionFailed :=
  ⟨by decide, (C6_decryption_failed_shape (modelRSAService 256) (modelPrivateKey 256) modelGCM
    rfl (.ok []) (DecryptionFailed AlgorithmRSA ErrDecryption) (by decide)).1⟩

set_option maxRecDepth 100000 in
/-- C6 fails as stated: under the model service the empty blob fails in the direct OAEP
decryption and the blob `00 00 00 01 09 09` fails in the hybrid key unwrap; both errors are
`DecryptionFailed`, but they are not the same error: their causes differ and so does the
text `Error()` returns. -/
theorem C6_counterexample :
    ∃ e1 e2, (modelRSAService 256).DecryptData modelGCM (.ok []) = .err e1 ∧
      (modelRSAService 256).DecryptData modelGCM (.ok [0, 0, 0, 1, 9, 9]) = .err e2 ∧
      e1.Unwrap = ErrDecryption ∧
      e2.Unwrap = DecryptionFailed AlgorithmRSA ErrDecryption ∧
      e1 ≠ e2 ∧ e1.Error ≠ e2.Error ∧
      e1.Error = "[DECRYPTION_FAILED] decryption with rsa failed caused by: crypto/rsa: decryption error context: \x7bmethod=rsa\x7d" :=
  ⟨_, _, rfl, rfl, rfl, rfl, by decide, by decide, by decide⟩

/-! ## Claims on the naming strategy -/


theorem length_eq_six {α : Type} {l : List α} (h : l.length = 6) :
    ∃ a b c d e f, l = [a, b, c, d, e, f] := by
  match l, h with
  | [a, b, c, d, e, f], _ => exact ⟨a, b, c, d, e, f, rfl⟩

theorem length_eq_eight {α : Type} {l : List α} (h : l.length = 8) :
    ∃ a b c d e f g i, l = [a, b, c, d, e, f, g, i] := by
  match l, h with
  | [a, b, c, d, e, f, g, i], _ => exact ⟨a, b, c, d, e, f, g, i, rfl⟩

theorem charset_isLowerAlnum (i : Fin 36) : isLowerAlnum (charset.getD i.val 'a') = true := by
  revert i; decide

theorem generateRandomHash_length (draw : Nat → Fin 36) (n : Nat) :
    (generateRandomHash draw n).length = n := by
  simp [generateRandomHash]

theorem generateRandomHash_all (draw : Nat → Fin 36) (n : Nat) :
    (generateRandomHash draw n).all isLowerAlnum = true := by
  simp only [generateRandomHash, List.all_eq_true, List.mem_map]
  rintro c ⟨i, _, rfl⟩
  exact charset_isLowerAlnum (draw i)

theorem stringsHasSuffix_append (s suffix : GoString) :
    stringsHasSuffix (s ++ suffix) suffix = true := by
  have h : (s ++ suffix).drop ((s ++ suffix).length - suffix.length) = suffix := by
    rw [List.length_append, Nat.add_sub_cancel]; exact List.drop_left' rfl
  simp [stringsHasSuffix, h]

theorem stringsTrimSuffix_append (s suffix : GoString) :
    stringsTrimSuffix (s ++ suffix) suffix = s := by
  have h : (s ++ suffix).take ((s ++ suffix).length - suffix.length) = s := by
    rw [List.length_append, Nat.add_sub_cancel]; exact List.take_left' rfl
  simp [stringsTrimSuffix, stringsHasSuffix_append, h]

theorem stringsHasSuffix_eq_true {s suffix : GoString}
    (h : stringsHasSuffix s suffix = true) : ∃ p, s = p ++ suffix := by
  simp only [stringsHasSuffix, Bool.and_eq_true, decide_eq_true_eq, beq_iff_eq] at h
  refine ⟨s.take (s.length - suffix.length), ?_⟩
  conv_lhs => rw [← List.take_append_drop (s.length - suffix.length) s]
  rw [h.2]

/-- A name that ends with the last character `c` of a method does not end with
`".zip" ++ ext`. -/
theorem not_zip_suffix (body ext : GoString) (c : Char) (hc : c ≠ 'p') :
    stringsHasSuffix (body ++ [c] ++ ext) (dotZip ++ ext) = false := by
  cases h : stringsHasSuffix (body ++ [c] ++ ext) (dotZip ++ ext) with
  | false => rfl
  | true =>
    obtain ⟨p, hp⟩ := stringsHasSuffix_eq_true h
    rw [← List.append_assoc] at hp
    have h2 := List.append_cancel_right hp
    have h3 := congrArg List.getLast? h2
    simp [dotZip] at h3
    exact absurd h3 hc


/-- The pattern matches a stem built as name, `-`, hash, `-`, date, `-`, method, and its
groups are these four parts. -/
theorem matchWithMethod_stem (m name hash date : GoString) (hne : name ≠ [])
    (hnl : name.all (fun c => c != '\n') = true)
    (hh : hash.length = 6) (hha : hash.all isLowerAlnum = true)
    (hd : date.length = 8) (hda : date.all isDigit = true) :
    matchWithMethod m (name ++ ['-'] ++ hash ++ ['-'] ++ date ++ ['-'] ++ m)
      = some (name, hash, date, m) := by
  obtain ⟨h0, h1, h2, h3, h4, h5, rfl⟩ := length_eq_six hh
  obtain ⟨d0, d1, d2, d3, d4, d5, d6, d7, rfl⟩ := length_eq_eight hd
  have hpos : 0 < name.length := List.length_pos.2 hne
  have hs : name ++ ['-'] ++ [h0, h1, h2, h3, h4, h5] ++ ['-']
      ++ [d0, d1, d2, d3, d4, d5, d6, d7] ++ ['-'] ++ m
      = name ++ ('-' :: h0 :: h1 :: h2 :: h3 :: h4 :: h5 :: '-' :: d0 :: d1 :: d2 :: d3 :: d4
          :: d5 :: d6 :: d7 :: '-' :: m) := by simp
  rw [hs]
  have hlen : (name ++ ('-' :: h0 :: h1 :: h2 :: h3 :: h4 :: h5 :: '-' :: d0 :: d1 :: d2 :: d3
      :: d4 :: d5 :: d6 :: d7 :: '-' :: m)).length - (1 + 6 + 1 + 8 + 1 + m.length)
      = name.length := by
    simp only [List.length_append, List.length_cons]; omega
  have hlt : ¬ (name ++ ('-' :: h0 :: h1 :: h2 :: h3 :: h4 :: h5 :: '-' :: d0 :: d1 :: d2 :: d3
      :: d4 :: d5 :: d6 :: d7 :: '-' :: m)).length < 1 + 6 + 1 + 8 + 1 + m.length + 1 := by
    simp only [List.length_append, List.length_cons]; omega
  unfold matchWithMethod
  simp only [hlt, if_false, hlen, List.take_left' rfl, List.drop_left' rfl]
  simp only [List.all_cons, List.all_nil, Bool.and_true, Bool.and_eq_true] at hha hda
  simp [hha, hda, hnl]

/-- A string that ends with `kmac` does not match the alternative `rsa`. -/
theorem matchWithMethod_rsa_kmac (x : GoString) :
    matchWithMethod nameRSA (x ++ nameKMAC) = none := by
  unfold matchWithMethod
  by_cases hlt : (x ++ nameKMAC).length < 1 + 6 + 1 + 8 + 1 + nameRSA.length + 1
  · simp only [hlt, if_true]
  · simp only [hlt, if_false]
    have hx : 17 ≤ x.length := by
      simp only [List.length_append, nameKMAC, nameRSA, List.length_cons, List.length_nil] at hlt
      omega
    have hdrop : ((x ++ nameKMAC).drop ((x ++ nameKMAC).length - (1 + 6 + 1 + 8 + 1
        + nameRSA.length))).drop 17 = ['m', 'a', 'c'] := by
      rw [List.drop_drop]
      have h1 : (x ++ nameKMAC).length - (1 + 6 + 1 + 8 + 1 + nameRSA.length) + 17
          = (x ++ ['k']).length := by
        simp only [List.length_append, nameKMAC, nameRSA, List.length_cons, List.length_nil]
        omega
      have h2 : x ++ nameKMAC = (x ++ ['k']) ++ ['m', 'a', 'c'] := by simp [nameKMAC]
      rw [h1]
      conv_lhs => rw [h2]
      exact List.drop_left' rfl
    have hne : (['m', 'a', 'c'] == nameRSA) = false := by decide
    simp only [hdrop, hne, Bool.and_false, Bool.false_and, Bool.false_eq_true, if_false]

/-- `findStringSubmatch` on a stem built with the method `rsa` or `kmac`. -/
theorem findStringSubmatch_stem (m name hash date : GoString)
    (hm : m = nameRSA ∨ m = nameKMAC) (hne : name ≠ [])
    (hnl : name.all (fun c => c != '\n') = true)
    (hh : hash.length = 6) (hha : hash.all isLowerAlnum = true)
    (hd : date.length = 8) (hda : date.all isDigit = true) :
    findStringSubmatch (name ++ ['-'] ++ hash ++ ['-'] ++ date ++ ['-'] ++ m)
      = some (name, hash, date, m) := by
  unfold findStringSubmatch
  rcases hm with rfl | rfl
  · rw [matchWithMethod_stem nameRSA name hash date hne hnl hh hha hd hda]
  · rw [matchWithMethod_rsa_kmac, matchWithMethod_stem nameKMAC name hash date hne hnl hh hha hd hda]

/-- `ParseEncryptedName` on a file name built as stem followed by the extension, where the
stem is name, `-`, hash, `-`, date, `-`, method. -/
theorem ParseEncryptedName_file (s : DefaultStrategyInterface) (m name hash date : GoString)
    (hm : m = nameRSA ∨ m = nameKMAC) (hne : name ≠ [])
    (hnl : name.all (fun c => c != '\n') = true)
    (hh : hash.length = 6) (hha : hash.all isLowerAlnum = true)
    (hd : date.length = 8) (hda : date.all isDigit = true) :
    s.ParseEncryptedName (sprintfName name hash date m s.extension)
      = (if goLen name == 8 && isAllAlphaNum name then textContentName else name,
          m, date, false) := by
  have hzip : stringsHasSuffix (sprintfName name hash date m s.extension)
      (dotZip ++ s.extension) = false := by
    rcases hm with rfl | rfl
    · have := not_zip_suffix (name ++ ['-'] ++ hash ++ ['-'] ++ date ++ ['-'] ++ ['r', 's'])
        s.extension 'a' (by decide)
      simpa [sprintfName, nameRSA] using this
    · have := not_zip_suffix (name ++ ['-'] ++ hash ++ ['-'] ++ date ++ ['-'] ++ ['k', 'm', 'a'])
        s.extension 'c' (by decide)
      simpa [sprintfName, nameKMAC] using this
  have hsuf : stringsHasSuffix (sprintfName name hash date m s.extension) s.extension = true :=
    stringsHasSuffix_append _ _
  have htrim : stringsTrimSuffix (sprintfName name hash date m s.extension) s.extension
      = name ++ ['-'] ++ hash ++ ['-'] ++ date ++ ['-'] ++ m := stringsTrimSuffix_append _ _
  unfold DefaultStrategyInterface.ParseEncryptedName
  simp only [hsuf, Bool.not_true, Bool.false_eq_true, if_false, hzip, htrim,
    findStringSubmatch_stem m name hash date hm hne hnl hh hha hd hda]
  split <;> rfl

/-- C10 as amended: naming round trip for files.  For every non-empty original name that
carries no temp marker and contains no newline, every algorithm in {rsa, kmac}, every random
6-character hash and every 8-digit date, `ParseEncryptedName(GenerateEncryptedName(name,
algorithm))` of the default strategy returns (name, algorithm, the date used at generation,
isDirectory = false), except when name is itself 8 characters of `[a-z0-9]`, in which case
the recovered name is the literal "text-content.txt". -/
theorem C10_naming_round_trip_files (s : DefaultStrategyInterface)
    (name method date : GoString) (hashDraw tokenDraw : Nat → Fin 36)
    (hne : name ≠ []) (hnl : '\n' ∉ name) (htmp : isTemporaryFile name = false)
    (hm : method = nameRSA ∨ method = nameKMAC)
    (hd : date.length = 8) (hda : date.all isDigit = true) :
    s.ParseEncryptedName (s.GenerateEncryptedName date hashDraw tokenDraw name method)
      = (if goLen name == 8 && isAllAlphaNum name then textContentName else name,
          method, date, false) := by
  have hnl' : name.all (fun c => c != '\n') = true := by
    simp only [List.all_eq_true, bne_iff_ne, ne_eq]
    intro c hc heq
    exact hnl (heq ▸ hc)
  simp only [DefaultStrategyInterface.GenerateEncryptedName, htmp, Bool.false_eq_true, if_false]
  exact ParseEncryptedName_file s method name _ date hm hne hnl'
    (generateRandomHash_length _ _) (generateRandomHash_all _ _) hd hda


/-- Witness of C10 as amended: "report.pdf" with "rsa" on 2025-01-01 and the extension
".hycrypt" parses back to ("report.pdf", "rsa", "20250101", false). -/
theorem C10_naming_round_trip_files_witness :
    (DefaultStrategy ".hycrypt".toList).ParseEncryptedName
      ((DefaultStrategy ".hycrypt".toList).GenerateEncryptedName "20250101".toList
        (fun i => Fin.ofNat i) (fun i => Fin.ofNat i) "report.pdf".toList nameRSA)
      = ("report.pdf".toList, nameRSA, "20250101".toList, false) :=
  (C10_naming_round_trip_files (DefaultStrategy ".hycrypt".toList) "report.pdf".toList nameRSA
    "20250101".toList (fun i => Fin.ofNat i) (fun i => Fin.ofNat i) (by decide) (by decide)
    (by decide) (Or.inl rfl) (by decide) (by decide)).trans (by decide)

/-- C10 fails as stated: the non-empty name "a\nb" (a, newline, b) carries no temp marker and
is not an 8-character token, yet the generated name `a\nb-abcdef-20250101-rsa.hycrypt` does
not parse back to it: `.` in the pattern does not match the newline, so the whole stem is
returned as the original name with empty algorithm and date. -/
theorem C10_counterexample :
    "a\nb".toList ≠ [] ∧ isTemporaryFile "a\nb".toList = false ∧
    (goLen "a\nb".toList == 8 && isAllAlphaNum "a\nb".toList) = false ∧
    (DefaultStrategy ".hycrypt".toList).GenerateEncryptedName "20250101".toList
        (fun i => Fin.ofNat i) (fun i => Fin.ofNat i) "a\nb".toList nameRSA
      = "a\nb-abcdef-20250101-rsa.hycrypt".toList ∧
    (DefaultStrategy ".hycrypt".toList).ParseEncryptedName
      ((DefaultStrategy ".hycrypt".toList).GenerateEncryptedName "20250101".toList
        (fun i => Fin.ofNat i) (fun i => Fin.ofNat i) "a\nb".toList nameRSA)
      = ("a\nb-abcdef-20250101-rsa".toList, [], [], false) ∧
    (DefaultStrategy ".hycrypt".toList).ParseEncryptedName
      ((DefaultStrategy ".hycrypt".toList).GenerateEncryptedName "20250101".toList
        (fun i => Fin.ofNat i) (fun i => Fin.ofNat i) "a\nb".toList nameRSA)
      ≠ ("a\nb".toList, nameRSA, "20250101".toList, false) := by
  decide


theorem stringsHasPrefix_iff (s pre : GoString) :
    stringsHasPrefix s pre = true ↔ pre <+: s := by
  simp only [stringsHasPrefix, beq_iff_eq]
  rw [List.prefix_iff_eq_take]
  exact eq_comm

theorem stringsContains_iff (s sub : GoString) :
    stringsContains s sub = true ↔ sub <:+: s := by
  induction s with
  | nil =>
    simp only [stringsContains, List.isEmpty_iff, List.infix_nil]
  | cons c cs ih =>
    simp only [stringsContains, Bool.or_eq_true, stringsHasPrefix_iff, ih, List.infix_cons_iff]

theorem stringsHasSuffix_iff (s suffix : GoString) :
    stringsHasSuffix s suffix = true ↔ ∃ p, s = p ++ suffix := by
  constructor
  · exact stringsHasSuffix_eq_true
  · rintro ⟨p, rfl⟩
    exact stringsHasSuffix_append p suffix

/-- C16: `IsEncryptedFile(name)` is true if and only if `name` ends with the configured
extension and either the stem (`name` without the extension) contains `"-rsa-"` or `"-kmac-"`,
or `name` itself contains `".rsa."` or `".kmac."`. -/
theorem C16_IsEncryptedFile_iff (s : DefaultStrategyInterface) (name : GoString) :
    s.IsEncryptedFile name = true ↔
      ∃ stem, name = stem ++ s.extension ∧
        ((∃ a b, stem = a ++ markerDashRSA ++ b) ∨ (∃ a b, stem = a ++ markerDashKMAC ++ b) ∨
          (∃ a b, name = a ++ markerDotRSA ++ b) ∨ (∃ a b, name = a ++ markerDotKMAC ++ b)) := by
  have hinfix : ∀ t sub : GoString, stringsContains t sub = true ↔ ∃ a b, t = a ++ sub ++ b := by
    intro t sub
    rw [stringsContains_iff]
    constructor
    · rintro ⟨a, b, h⟩; exact ⟨a, b, h.symm⟩
    · rintro ⟨a, b, h⟩; exact ⟨a, b, h.symm⟩
  unfold DefaultStrategyInterface.IsEncryptedFile
  by_cases hs : stringsHasSuffix name s.extension = true
  · obtain ⟨p, rfl⟩ := stringsHasSuffix_eq_true hs
    simp only [hs, Bool.not_true, Bool.false_eq_true, if_false, stringsTrimSuffix_append,
      Bool.or_eq_true, hinfix, or_assoc]
    constructor
    · intro h
      exact ⟨p, rfl, h⟩
    · rintro ⟨stem, hst, h⟩
      have : stem = p := (List.append_cancel_right hst).symm
      subst this
      exact h
  · simp only [hs, Bool.not_false, if_true, Bool.false_eq_true, false_iff]
    rintro ⟨stem, hst, _⟩
    exact hs ((stringsHasSuffix_iff _ _).2 ⟨stem, hst⟩)


theorem split_tail (rest : GoString) :
    rest = rest.take 1 ++ ((rest.drop 1).take 6 ++ ((rest.drop 7).take 1 ++
      ((rest.drop 8).take 8 ++ ((rest.drop 16).take 1 ++ rest.drop 17)))) := by
  have e2 : (rest.drop 1).take 6 ++ rest.drop 7 = rest.drop 1 := by
    have := List.take_append_drop 6 (rest.drop 1)
    rwa [List.drop_drop] at this
  have e3 : (rest.drop 7).take 1 ++ rest.drop 8 = rest.drop 7 := by
    have := List.take_append_drop 1 (rest.drop 7)
    rwa [List.drop_drop] at this
  have e4 : (rest.drop 8).take 8 ++ rest.drop 16 = rest.drop 8 := by
    have := List.take_append_drop 8 (rest.drop 8)
    rwa [List.drop_drop] at this
  have e5 : (rest.drop 16).take 1 ++ rest.drop 17 = rest.drop 16 := by
    have := List.take_append_drop 1 (rest.drop 16)
    rwa [List.drop_drop] at this
  rw [e5, e4, e3, e2, List.take_append_drop]

/-- A successful match of one alternative splits the string into its four groups. -/
theorem matchWithMethod_eq_some {m str n h d m' : GoString}
    (hm : matchWithMethod m str = some (n, h, d, m')) :
    m' = m ∧ str = n ++ ['-'] ++ h ++ ['-'] ++ d ++ ['-'] ++ m ∧ n ≠ [] ∧
      h.length = 6 ∧ h.all isLowerAlnum = true ∧ d.length = 8 ∧ d.all isDigit = true ∧
      n.all (fun c => c != '\n') = true := by
  unfold matchWithMethod at hm
  simp only at hm
  split at hm
  · cases hm
  · rename_i hlen
    split at hm
    · rename_i hc
      simp only [Option.some.injEq, Prod.mk.injEq] at hm
      obtain ⟨hn, hh, hd, hm'⟩ := hm
      simp only [Bool.and_eq_true, beq_iff_eq] at hc
      obtain ⟨⟨⟨⟨⟨⟨c1, c2⟩, c3⟩, c4⟩, c5⟩, c6⟩, c7⟩ := hc
      have hrl : (str.drop (str.length - (1 + 6 + 1 + 8 + 1 + m.length))).length
          = 1 + 6 + 1 + 8 + 1 + m.length := by
        simp only [List.length_drop]; omega
      have e0 := (List.take_append_drop (str.length - (1 + 6 + 1 + 8 + 1 + m.length)) str).symm
      have e1 := split_tail (str.drop (str.length - (1 + 6 + 1 + 8 + 1 + m.length)))
      rw [c1, c3, c5, c6, hh, hd] at e1
      rw [hn] at e0 c7
      have hnl : 0 < n.length := by
        rw [← hn]; simp only [List.length_take]; omega
      refine ⟨hm'.symm, ?_, List.length_pos.1 hnl, ?_, ?_, ?_, ?_, c7⟩
      · conv_lhs => rw [e0, e1]
        simp [List.append_assoc]
      · rw [← hh]; simp only [List.length_take, List.length_drop]; omega
      · rw [← hh]; exact c2
      · rw [← hd]; simp only [List.length_take, List.length_drop]; omega
      · rw [← hd]; exact c4
    · cases hm

/-- A successful match of the pattern of `ParseEncryptedName` splits the string into name,
hash, date and a method that is `rsa` or `kmac`. -/
theorem findStringSubmatch_eq_some {str n h d m : GoString}
    (hm : findStringSubmatch str = some (n, h, d, m)) :
    (m = nameRSA ∨ m = nameKMAC) ∧ str = n ++ ['-'] ++ h ++ ['-'] ++ d ++ ['-'] ++ m ∧ n ≠ [] ∧
      h.length = 6 ∧ h.all isLowerAlnum = true ∧ d.length = 8 ∧ d.all isDigit = true ∧
      n.all (fun c => c != '\n') = true := by
  unfold findStringSubmatch at hm
  cases h1 : matchWithMethod nameRSA str with
  | some r =>
    simp only [h1, Option.some.injEq] at hm
    subst hm
    obtain ⟨e, rest⟩ := matchWithMethod_eq_some h1
    exact ⟨Or.inl e, e ▸ rest⟩
  | none =>
    simp only [h1] at hm
    obtain ⟨e, rest⟩ := matchWithMethod_eq_some hm
    exact ⟨Or.inr e, e ▸ rest⟩


/-- C15: parse failure.  A name that does not end with the configured extension is returned
unchanged with empty algorithm, empty date and `isDirectory = false`.  A name that ends with
the extension, whose stem (the name without the extension, and without `.zip` before it when
present) is not of the form name, `-`, six `[a-z0-9]`, `-`, eight digits, `-`, `rsa` or
`kmac`, is parsed to that stem with empty algorithm and empty date. -/
theorem C15_parse_failure (s : DefaultStrategyInterface) (name : GoString) :
    ((¬ ∃ p, name = p ++ s.extension) → s.ParseEncryptedName name = (name, [], [], false)) ∧
    (∀ stem, name = stem ++ dotZip ++ s.extension →
      (¬ ∃ n h d m, n ≠ [] ∧ h.length = 6 ∧ h.all isLowerAlnum = true ∧ d.length = 8 ∧
        d.all isDigit = true ∧ (m = nameRSA ∨ m = nameKMAC) ∧
        stem = n ++ ['-'] ++ h ++ ['-'] ++ d ++ ['-'] ++ m) →
      s.ParseEncryptedName name = (stem, [], [], true)) ∧
    (∀ stem, name = stem ++ s.extension → (¬ ∃ p, stem = p ++ dotZip) →
      (¬ ∃ n h d m, n ≠ [] ∧ h.length = 6 ∧ h.all isLowerAlnum = true ∧ d.length = 8 ∧
        d.all isDigit = true ∧ (m = nameRSA ∨ m = nameKMAC) ∧
        stem = n ++ ['-'] ++ h ++ ['-'] ++ d ++ ['-'] ++ m) →
      s.ParseEncryptedName name = (stem, [], [], false)) := by
  have hnone : ∀ stem : GoString,
      (¬ ∃ n h d m, n ≠ [] ∧ h.length = 6 ∧ h.all isLowerAlnum = true ∧ d.length = 8 ∧
        d.all isDigit = true ∧ (m = nameRSA ∨ m = nameKMAC) ∧
        stem = n ++ ['-'] ++ h ++ ['-'] ++ d ++ ['-'] ++ m) →
      findStringSubmatch stem = none := by
    intro stem hno
    cases hf : findStringSubmatch stem with
    | none => rfl
    | some r =>
      obtain ⟨n, h, d, m⟩ := r
      obtain ⟨hm, hs, hn, hh, hha, hd, hda, _⟩ := findStringSubmatch_eq_some hf
      exact absurd ⟨n, h, d, m, hn, hh, hha, hd, hda, hm, hs⟩ hno
  refine ⟨?_, ?_, ?_⟩
  · intro hno
    have hs : stringsHasSuffix name s.extension = false := by
      cases h : stringsHasSuffix name s.extension with
      | false => rfl
      | true => exact absurd (stringsHasSuffix_eq_true h) hno
    simp [DefaultStrategyInterface.ParseEncryptedName, hs]
  · intro stem hname hno
    have h1 : stringsHasSuffix name s.extension = true := by
      rw [hname]; exact stringsHasSuffix_append _ _
    have h2 : stringsHasSuffix name (dotZip ++ s.extension) = true := by
      rw [hname, List.append_assoc]; exact stringsHasSuffix_append _ _
    have h3 : stringsTrimSuffix name (dotZip ++ s.extension) = stem := by
      rw [hname, List.append_assoc]; exact stringsTrimSuffix_append _ _
    simp only [DefaultStrategyInterface.ParseEncryptedName, h1, h2, h3, hnone stem hno,
      Bool.not_true, Bool.false_eq_true, if_false, if_true]
  · intro stem hname hnz hno
    have h1 : stringsHasSuffix name s.extension = true := by
      rw [hname]; exact stringsHasSuffix_append _ _
    have h2 : stringsHasSuffix name (dotZip ++ s.extension) = false := by
      cases h : stringsHasSuffix name (dotZip ++ s.extension) with
      | false => rfl
      | true =>
        obtain ⟨p, hp⟩ := stringsHasSuffix_eq_true h
        rw [hname, ← List.append_assoc] at hp
        exact absurd ⟨p, List.append_cancel_right hp⟩ hnz
    have h3 : stringsTrimSuffix name s.extension = stem := by
      rw [hname]; exact stringsTrimSuffix_append _ _
    simp only [DefaultStrategyInterface.ParseEncryptedName, h1, h2, h3, hnone stem hno,
      Bool.not_true, Bool.false_eq_true, if_false]

/-- Witness of C15: with the extension ".encrypted" the old-format name
"document-rsa.encrypted" parses to the stem "document-rsa" with empty algorithm and date. -/
theorem C15_parse_failure_witness :
    (DefaultStrategy ".encrypted".toList).ParseEncryptedName "document-rsa.encrypted".toList
      = ("document-rsa".toList, [], [], false) :=
  (C15_parse_failure (DefaultStrategy ".encrypted".toList)
    "document-rsa.encrypted".toList).2.2 "document-rsa".toList (by decide)
    (by
      rintro ⟨p, hp⟩
      have h := congrArg List.getLast? hp
      simp [dotZip] at h)
    (by
      rintro ⟨n, h, d, m, _, hh, _, hd, _, _, heq⟩
      have hl := congrArg List.length heq
      simp [hh, hd] at hl
      omega)


/-- `ParseEncryptedName` on a directory archive name: the stem followed by `.zip` and the
extension, where the stem is name, `-`, hash, `-`, date, `-`, method. -/
theorem ParseEncryptedName_directory (s : DefaultStrategyInterface)
    (m name hash date : GoString)
    (hm : m = nameRSA ∨ m = nameKMAC) (hne : name ≠ [])
    (hnl : name.all (fun c => c != '\n') = true)
    (hh : hash.length = 6) (hha : hash.all isLowerAlnum = true)
    (hd : date.length = 8) (hda : date.all isDigit = true) :
    s.ParseEncryptedName
        (name ++ ['-'] ++ hash ++ ['-'] ++ date ++ ['-'] ++ m ++ dotZip ++ s.extension)
      = (if goLen name == 8 && isAllAlphaNum name then textContentName else name,
          m, date, true) := by
  have h1 : stringsHasSuffix
      (name ++ ['-'] ++ hash ++ ['-'] ++ date ++ ['-'] ++ m ++ dotZip ++ s.extension)
      s.extension = true := stringsHasSuffix_append _ _
  have h2 : stringsHasSuffix
      (name ++ ['-'] ++ hash ++ ['-'] ++ date ++ ['-'] ++ m ++ dotZip ++ s.extension)
      (dotZip ++ s.extension) = true := by
    rw [List.append_assoc _ dotZip]; exact stringsHasSuffix_append _ _
  have h3 : stringsTrimSuffix
      (name ++ ['-'] ++ hash ++ ['-'] ++ date ++ ['-'] ++ m ++ dotZip ++ s.extension)
      (dotZip ++ s.extension) = name ++ ['-'] ++ hash ++ ['-'] ++ date ++ ['-'] ++ m := by
    rw [List.append_assoc _ dotZip]; exact stringsTrimSuffix_append _ _
  unfold DefaultStrategyInterface.ParseEncryptedName
  simp only [h1, h2, h3, Bool.not_true, Bool.false_eq_true, if_false, if_true,
    findStringSubmatch_stem m name hash date hm hne hnl hh hha hd hda]
  split <;> rfl

/-- C11 as amended: naming round trip for directories.  For every non-empty directory name
that contains no newline, every algorithm in {rsa, kmac}, every random hash and every 8-digit
date, `DirectoryStrategy.GenerateEncryptedName(name, algorithm)` is name, `-`, six characters
of `[a-z0-9]`, `-`, the date, `-`, the algorithm, `.zip`, the extension, and
`ParseEncryptedName` of that string returns `isDirectory = true` with the same algorithm and
date, and the same name unless it is 8 characters of `[a-z0-9]` (then "text-content.txt"). -/
theorem C11_naming_round_trip_directories (d : DirectoryStrategy)
    (name method date : GoString) (hashDraw : Nat → Fin 36)
    (hne : name ≠ []) (hnl : '\n' ∉ name)
    (hm : method = nameRSA ∨ method = nameKMAC)
    (hd : date.length = 8) (hda : date.all isDigit = true) :
    ∃ hash, hash.length = 6 ∧ hash.all isLowerAlnum = true ∧
      d.GenerateEncryptedName date hashDraw name method
        = name ++ ['-'] ++ hash ++ ['-'] ++ date ++ ['-'] ++ method ++ dotZip
            ++ d.base.extension ∧
      d.base.ParseEncryptedName (d.GenerateEncryptedName date hashDraw name method)
        = (if goLen name == 8 && isAllAlphaNum name then textContentName else name,
            method, date, true) := by
  have hnl' : name.all (fun c => c != '\n') = true := by
    simp only [List.all_eq_true, bne_iff_ne, ne_eq]
    intro c hc heq
    exact hnl (heq ▸ hc)
  refine ⟨generateRandomHash hashDraw 6, generateRandomHash_length _ _,
    generateRandomHash_all _ _, rfl, ?_⟩
  exact ParseEncryptedName_directory d.base method name _ date hm hne hnl'
    (generateRandomHash_length _ _) (generateRandomHash_all _ _) hd hda

/-- Witness of C11 as amended: the directory "photos" with "rsa" on 2025-01-01 becomes
`photos-abcdef-20250101-rsa.zip.hycrypt` and parses with `isDirectory = true`. -/
theorem C11_naming_round_trip_directories_witness :
    (CreateDirectoryStrategy ".hycrypt".toList).GenerateEncryptedName "20250101".toList
        (fun i => Fin.ofNat i) "photos".toList nameRSA
      = "photos-abcdef-20250101-rsa.zip.hycrypt".toList ∧
    (CreateDirectoryStrategy ".hycrypt".toList).base.ParseEncryptedName
        ((CreateDirectoryStrategy ".hycrypt".toList).GenerateEncryptedName "20250101".toList
          (fun i => Fin.ofNat i) "photos".toList nameRSA)
      = ("photos".toList, nameRSA, "20250101".toList, true) := by
  obtain ⟨_, _, _, _, hp⟩ := C11_naming_round_trip_directories
    (CreateDirectoryStrategy ".hycrypt".toList) "photos".toList nameRSA "20250101".toList
    (fun i => Fin.ofNat i) (by decide) (by decide) (Or.inl rfl) (by decide) (by decide)
  exact ⟨by decide, hp.trans (by decide)⟩

/-- C11 fails as stated: for the non-empty directory name "a\nb" (a, newline, b) the
generated name `a\nb-abcdef-20250101-rsa.zip.hycrypt` parses with `isDirectory = true` but
with empty algorithm and empty date, and with the whole stem as the name. -/
theorem C11_counterexample :
    "a\nb".toList ≠ [] ∧
    (CreateDirectoryStrategy ".hycrypt".toList).GenerateEncryptedName "20250101".toList
        (fun i => Fin.ofNat i) "a\nb".toList nameRSA
      = "a\nb-abcdef-20250101-rsa.zip.hycrypt".toList ∧
    (CreateDirectoryStrategy ".hycrypt".toList).base.ParseEncryptedName
        ((CreateDirectoryStrategy ".hycrypt".toList).GenerateEncryptedName "20250101".toList
          (fun i => Fin.ofNat i) "a\nb".toList nameRSA)
      = ("a\nb-abcdef-20250101-rsa".toList, [], [], true) := by
  decide

/-- C14 as amended: placeholder rule.  For every encrypted name N, `-`, hash, `-`, date, `-`,
`rsa` or `kmac`, extension, whose name field N is non-empty and contains no newline:
`ParseEncryptedName` returns "text-content.txt" when N is exactly 8 bytes long and made of
`[a-z0-9]` only, and N itself otherwise (with the algorithm, the date and
`isDirectory = false`). -/
theorem C14_placeholder_rule (s : DefaultStrategyInterface) (N hash date m : GoString)
    (hne : N ≠ []) (hnl : '\n' ∉ N)
    (hh : hash.length = 6) (hha : hash.all isLowerAlnum = true)
    (hd : date.length = 8) (hda : date.all isDigit = true)
    (hm : m = nameRSA ∨ m = nameKMAC) :
    ((goLen N = 8 ∧ isAllAlphaNum N = true) →
      s.ParseEncryptedName (N ++ ['-'] ++ hash ++ ['-'] ++ date ++ ['-'] ++ m ++ s.extension)
        = (textContentName, m, date, false)) ∧
    (¬ (goLen N = 8 ∧ isAllAlphaNum N = true) →
      s.ParseEncryptedName (N ++ ['-'] ++ hash ++ ['-'] ++ date ++ ['-'] ++ m ++ s.extension)
        = (N, m, date, false)) := by
  have hnl' : N.all (fun c => c != '\n') = true := by
    simp only [List.all_eq_true, bne_iff_ne, ne_eq]
    intro c hc heq
    exact hnl (heq ▸ hc)
  have hp := ParseEncryptedName_file s m N hash date hm hne hnl' hh hha hd hda
  simp only [sprintfName] at hp
  constructor
  · rintro ⟨h8, ha⟩
    rw [hp]; simp [h8, ha]
  · intro hno
    rw [hp]
    have : (goLen N == 8 && isAllAlphaNum N) = false := by
      cases h1 : (goLen N == 8 && isAllAlphaNum N) with
      | false => rfl
      | true =>
        simp only [Bool.and_eq_true, beq_iff_eq] at h1
        exact absurd h1 hno
    simp [this]

/-- Witness of C14 as amended: the token "abcd1234" parses to "text-content.txt", the name
"report.pdf" to itself. -/
theorem C14_placeholder_rule_witness :
    (DefaultStrategy ".hycrypt".toList).ParseEncryptedName
        "abcd1234-abcdef-20250101-kmac.hycrypt".toList
      = (textContentName, nameKMAC, "20250101".toList, false) ∧
    (DefaultStrategy ".hycrypt".toList).ParseEncryptedName
        "report.pdf-abcdef-20250101-rsa.hycrypt".toList
      = ("report.pdf".toList, nameRSA, "20250101".toList, false) :=
  ⟨(C14_placeholder_rule (DefaultStrategy ".hycrypt".toList) "abcd1234".toList
      "abcdef".toList "20250101".toList nameKMAC (by decide) (by decide) (by decide)
      (by decide) (by decide) (by decide) (Or.inr rfl)).1 (by decide),
   (C14_placeholder_rule (DefaultStrategy ".hycrypt".toList) "report.pdf".toList
      "abcdef".toList "20250101".toList nameRSA (by decide) (by decide) (by decide)
      (by decide) (by decide) (by decide) (Or.inl rfl)).2 (by decide)⟩

/-- C14 fails as stated, in three ways.  The name field "ABCD1234" is exactly 8 alphanumeric
characters, yet it is returned itself, not "text-content.txt": the test accepts lower-case
letters and digits only.  The name fields "a\nb" (with a newline) and "" (empty) are not
8-character tokens, yet the parser does not return them: the pattern fails and the whole
stem comes back with empty algorithm and date. -/
theorem C14_counterexample :
    ("ABCD1234".toList.length = 8 ∧ "ABCD1234".toList.all Char.isAlphanum = true ∧
      (DefaultStrategy ".hycrypt".toList).ParseEncryptedName
          "ABCD1234-abcdef-20250101-rsa.hycrypt".toList
        = ("ABCD1234".toList, nameRSA, "20250101".toList, false)) ∧
    (DefaultStrategy ".hycrypt".toList).ParseEncryptedName
        "a\nb-abcdef-20250101-rsa.hycrypt".toList
      = ("a\nb-abcdef-20250101-rsa".toList, [], [], false) ∧
    (DefaultStrategy ".hycrypt".toList).ParseEncryptedName
        "-abcdef-20250101-rsa.hycrypt".toList
      = ("-abcdef-20250101-rsa".toList, [], [], false) := by
  decide


theorem isDigit_digitChar (n : Nat) : isDigit (digitChar n) = true := by
  have h : n % 10 < 10 := Nat.mod_lt _ (by decide)
  unfold digitChar
  generalize n % 10 = k at h
  interval_cases k <;> decide

theorem appendInt_length {x width : Nat} (h : x < 10 ^ width) :
    (appendInt x width).length = width := by
  simp [appendInt, h]

theorem appendInt_all_isDigit {x width : Nat} (h : x < 10 ^ width) :
    (appendInt x width).all isDigit = true := by
  simp only [appendInt, h, if_true, List.all_eq_true, List.mem_map]
  rintro c ⟨i, _, rfl⟩
  exact isDigit_digitChar _

/-- For a year of at most four digits `Format("20060102")` gives eight digits. -/
theorem formatDate_digits (t : Date) (hy : t.year ≤ 9999) (hm : t.month ≤ 12)
    (hd : t.day ≤ 31) : (formatDate t).length = 8 ∧ (formatDate t).all isDigit = true := by
  have h1 : t.year < 10 ^ 4 := by norm_num; omega
  have h2 : t.month < 10 ^ 2 := by norm_num; omega
  have h3 : t.day < 10 ^ 2 := by norm_num; omega
  constructor
  · simp only [formatDate, List.length_append, appendInt_length h1, appendInt_length h2,
      appendInt_length h3]
  · simp only [formatDate, List.all_append, appendInt_all_isDigit h1, appendInt_all_isDigit h2,
      appendInt_all_isDigit h3, Bool.and_self]

/-- C12: filename convention.  For every original name without a temp marker and every
algorithm, `GenerateEncryptedName(name, algorithm)` of the default strategy is exactly
name, `-`, h, `-`, d, `-`, algorithm, ext, where h is 6 characters each drawn from
`[a-z0-9]`, d is the current date (year up to 9999) formatted as the 8 digits YYYYMMDD and
ext is the configured extension. -/
theorem C12_filename_convention (s : DefaultStrategyInterface) (now : Date)
    (hashDraw tokenDraw : Nat → Fin 36) (name method : GoString)
    (htmp : isTemporaryFile name = false)
    (hy : now.year ≤ 9999) (hmo : now.month ≤ 12) (hday : now.day ≤ 31) :
    ∃ h d, s.GenerateEncryptedName (formatDate now) hashDraw tokenDraw name method
        = name ++ ['-'] ++ h ++ ['-'] ++ d ++ ['-'] ++ method ++ s.extension ∧
      h.length = 6 ∧ h.all isLowerAlnum = true ∧
      d = appendInt now.year 4 ++ appendInt now.month 2 ++ appendInt now.day 2 ∧
      d.length = 8 ∧ d.all isDigit = true := by
  obtain ⟨hl, hd⟩ := formatDate_digits now hy hmo hday
  refine ⟨generateRandomHash hashDraw 6, formatDate now, ?_, generateRandomHash_length _ _,
    generateRandomHash_all _ _, rfl, hl, hd⟩
  simp only [DefaultStrategyInterface.GenerateEncryptedName, htmp, Bool.false_eq_true,
    if_false, sprintfName]

/-- Witness of C12: `generate("report.pdf", "rsa")` on 2025-01-01 with the extension
".hycrypt" and the hash draws `a b c d e f` is `report.pdf-abcdef-20250101-rsa.hycrypt`. -/
theorem C12_filename_convention_witness :
    (DefaultStrategy ".hycrypt".toList).GenerateEncryptedName
        (formatDate { year := 2025, month := 1, day := 1 })
        (fun i => Fin.ofNat i) (fun i => Fin.ofNat i) "report.pdf".toList nameRSA
      = "report.pdf-abcdef-20250101-rsa.hycrypt".toList := by
  obtain ⟨h, d, hgen, _, _, _, _, _⟩ := C12_filename_convention
    (DefaultStrategy ".hycrypt".toList) { year := 2025, month := 1, day := 1 }
    (fun i => Fin.ofNat i) (fun i => Fin.ofNat i) "report.pdf".toList nameRSA
    (by decide) (by decide) (by decide) (by decide)
  decide

theorem charset_utf8Size (i : Fin 36) : (charset.getD i.val 'a').utf8Size = 1 := by
  revert i; decide

theorem charset_ne_newline (i : Fin 36) : (charset.getD i.val 'a' != '\n') = true := by
  revert i; decide

theorem generateRandomString_length (draw : Nat → Fin 36) (n : Nat) :
    (generateRandomString draw n).length = n := by
  simp [generateRandomString]

theorem generateRandomString_all (draw : Nat → Fin 36) (n : Nat) :
    (generateRandomString draw n).all isLowerAlnum = true := by
  simp only [generateRandomString, List.all_eq_true, List.mem_map]
  rintro c ⟨i, _, rfl⟩
  exact charset_isLowerAlnum (draw i)

theorem generateRandomString_no_newline (draw : Nat → Fin 36) (n : Nat) :
    (generateRandomString draw n).all (fun c => c != '\n') = true := by
  simp only [generateRandomString, List.all_eq_true, List.mem_map]
  rintro c ⟨i, _, rfl⟩
  exact charset_ne_newline (draw i)

theorem generateRandomString_goLen (draw : Nat → Fin 36) (n : Nat) :
    goLen (generateRandomString draw n) = n := by
  have h : ∀ l : List Nat, ((l.map (fun i => charset.getD (draw i).val 'a')).map
      Char.utf8Size).sum = l.length := by
    intro l
    induction l with
    | nil => rfl
    | cons a l ih =>
      simp only [List.map_cons, List.sum_cons, List.length_cons, ih, charset_utf8Size]
      omega
  simp only [goLen, generateRandomString, h, List.length_range]

/-- A string made of `[a-z0-9]` only carries no temp marker. -/
theorem not_isTemporaryFile_of_alnum {t : GoString} (h : t.all isLowerAlnum = true) :
    isTemporaryFile t = false := by
  cases hc : isTemporaryFile t with
  | false => rfl
  | true =>
    simp only [isTemporaryFile, Bool.or_eq_true, stringsContains_iff] at hc
    rw [List.all_eq_true] at h
    rcases hc with hc | hc
    · have := h '-' (hc.subset (by simp [markerCryptoText]))
      exact absurd this (by decide)
    · have := h '.' (hc.subset (by simp [markerTmp]))
      exact absurd this (by decide)

/-- C13: temp-name privacy.  For every original name that contains a temp marker and every
algorithm in {rsa, kmac}, `GenerateEncryptedName` puts an 8-character random token over
`[a-z0-9]` in the place of the name, the token differs from the original name, and
`ParseEncryptedName` of the generated name returns the original name "text-content.txt"
with the same algorithm and date. -/
theorem C13_temp_name_privacy (s : DefaultStrategyInterface)
    (name method date : GoString) (hashDraw tokenDraw : Nat → Fin 36)
    (htmp : isTemporaryFile name = true)
    (hm : method = nameRSA ∨ method = nameKMAC)
    (hd : date.length = 8) (hda : date.all isDigit = true) :
    ∃ token hash, token.length = 8 ∧ token.all isLowerAlnum = true ∧ token ≠ name ∧
      hash.length = 6 ∧ hash.all isLowerAlnum = true ∧
      s.GenerateEncryptedName date hashDraw tokenDraw name method
        = token ++ ['-'] ++ hash ++ ['-'] ++ date ++ ['-'] ++ method ++ s.extension ∧
      s.ParseEncryptedName (s.GenerateEncryptedName date hashDraw tokenDraw name method)
        = (textContentName, method, date, false) := by
  have hgen : s.GenerateEncryptedName date hashDraw tokenDraw name method
      = sprintfName (generateRandomString tokenDraw 8) (generateRandomHash hashDraw 6) date
          method s.extension := by
    simp only [DefaultStrategyInterface.GenerateEncryptedName, htmp, if_true]
  have hne : generateRandomString tokenDraw 8 ≠ [] := by
    intro h
    have := congrArg List.length h
    rw [generateRandomString_length] at this
    cases this
  refine ⟨generateRandomString tokenDraw 8, generateRandomHash hashDraw 6,
    generateRandomString_length _ _, generateRandomString_all _ _, ?_,
    generateRandomHash_length _ _, generateRandomHash_all _ _, by rw [hgen]; rfl, ?_⟩
  · intro heq
    have := not_isTemporaryFile_of_alnum (generateRandomString_all tokenDraw 8)
    rw [heq, htmp] at this
    cases this
  · rw [hgen, ParseEncryptedName_file s method _ _ date hm hne
      (generateRandomString_no_newline _ _) (generateRandomHash_length _ _)
      (generateRandomHash_all _ _) hd hda]
    have h8 : (goLen (generateRandomString tokenDraw 8) == 8) = true := by
      rw [generateRandomString_goLen]; rfl
    have ha : isAllAlphaNum (generateRandomString tokenDraw 8) = true :=
      generateRandomString_all tokenDraw 8
    simp [h8, ha]

/-- Witness of C13: the temp file name "crypto-text-123.tmp" with "kmac". -/
theorem C13_temp_name_privacy_witness :
    (DefaultStrategy ".hycrypt".toList).GenerateEncryptedName "20250101".toList
        (fun i => Fin.ofNat i) (fun i => Fin.ofNat (i + 26)) "crypto-text-123.tmp".toList
        nameKMAC
      = "01234567-abcdef-20250101-kmac.hycrypt".toList ∧
    (DefaultStrategy ".hycrypt".toList).ParseEncryptedName
        ((DefaultStrategy ".hycrypt".toList).GenerateEncryptedName "20250101".toList
          (fun i => Fin.ofNat i) (fun i => Fin.ofNat (i + 26)) "crypto-text-123.tmp".toList
          nameKMAC)
      = (textContentName, nameKMAC, "20250101".toList, false) := by
  obtain ⟨_, _, _, _, _, _, _, _, hp⟩ := C13_temp_name_privacy
    (DefaultStrategy ".hycrypt".toList) "crypto-text-123.tmp".toList nameKMAC
    "20250101".toList (fun i => Fin.ofNat i) (fun i => Fin.ofNat (i + 26)) (by decide)
    (Or.inr rfl) (by decide) (by decide)
  exact ⟨by decide, hp⟩

/-! ## Claims on the processor -/


theorem detectEncryptionMethod_of_not_encrypted (p : UnifiedProcessor) (fileName : GoString)
    (h : p.strategy.IsEncryptedFile fileName = false) :
    p.detectEncryptionMethod fileName = [] := by
  simp only [UnifiedProcessor.detectEncryptionMethod, h, Bool.not_false, if_true]

/-- With no algorithm in the options and none detected from the source's name `Decrypt`
fails before it touches source or sink. -/
theorem Decrypt_undetected (p : UnifiedProcessor) (env : CryptoEnv) (elapsed : Int)
    (source : DataSource) (sink : DataSink) (opts : CryptoOptions)
    (hopt : opts.Method = []) (hdet : p.detectEncryptionMethod source.Name = []) :
    p.Decrypt env elapsed source sink opts
      = (.err (DecryptionFailed "unknown" (.errorString "cannot detect encryption method")),
          []) := by
  simp only [UnifiedProcessor.Decrypt, hopt, hdet, if_true]

/-- C17 at its failing inputs: `report.pdf-abcdef-20250101-rsa.hycrypt` and
`photos-abcdef-20250101-kmac.zip.hycrypt` are what the default and the directory strategy
generate, and `ParseEncryptedName` finds their algorithm; but `IsEncryptedFile` is false for
them (neither stem contains `-rsa-` or `-kmac-`), so `detectEncryptionMethod` returns the
empty string and `Decrypt` with no algorithm specified fails with "cannot detect encryption
method" before the source is read. -/
theorem C17_autodetect_fails :
    (DefaultStrategy ".hycrypt".toList).GenerateEncryptedName "20250101".toList
        (fun i => Fin.ofNat i) (fun i => Fin.ofNat i) "report.pdf".toList nameRSA
      = "report.pdf-abcdef-20250101-rsa.hycrypt".toList ∧
    (CreateDirectoryStrategy ".hycrypt".toList).GenerateEncryptedName "20250101".toList
        (fun i => Fin.ofNat i) "photos".toList nameKMAC
      = "photos-abcdef-20250101-kmac.zip.hycrypt".toList ∧
    (modelProcessor.strategy.ParseEncryptedName
        "report.pdf-abcdef-20250101-rsa.hycrypt".toList).2.1 = nameRSA ∧
    (modelProcessor.strategy.ParseEncryptedName
        "photos-abcdef-20250101-kmac.zip.hycrypt".toList).2.1 = nameKMAC ∧
    modelProcessor.strategy.IsEncryptedFile
        "report.pdf-abcdef-20250101-rsa.hycrypt".toList = false ∧
    modelProcessor.strategy.IsEncryptedFile
        "photos-abcdef-20250101-kmac.zip.hycrypt".toList = false ∧
    modelProcessor.detectEncryptionMethod "report.pdf-abcdef-20250101-rsa.hycrypt".toList
      = [] ∧
    modelProcessor.detectEncryptionMethod "photos-abcdef-20250101-kmac.zip.hycrypt".toList
      = [] ∧
    modelProcessor.Decrypt modelEnv 0
        (fileSourceNamed "report.pdf-abcdef-20250101-rsa.hycrypt".toList [1, 2, 3])
        (modelSink "report.pdf".toList) (optionsFor [])
      = (.err (DecryptionFailed "unknown" (.errorString "cannot detect encryption method")),
          []) ∧
    modelProcessor.Decrypt modelEnv 0
        (fileSourceNamed "photos-abcdef-20250101-kmac.zip.hycrypt".toList [1, 2, 3])
        (modelSink "photos".toList) (optionsFor [])
      = (.err (DecryptionFailed "unknown" (.errorString "cannot detect encryption method")),
          []) := by
  have h1 : modelProcessor.strategy.IsEncryptedFile
      "report.pdf-abcdef-20250101-rsa.hycrypt".toList = false := by decide
  have h2 : modelProcessor.strategy.IsEncryptedFile
      "photos-abcdef-20250101-kmac.zip.hycrypt".toList = false := by decide
  have d1 := detectEncryptionMethod_of_not_encrypted modelProcessor _ h1
  have d2 := detectEncryptionMethod_of_not_encrypted modelProcessor _ h2
  exact ⟨by decide, by decide, by decide, by decide, h1, h2, d1, d2,
    Decrypt_undetected modelProcessor modelEnv 0 (fileSourceNamed _ _) _ (optionsFor []) rfl d1,
    Decrypt_undetected modelProcessor modelEnv 0 (fileSourceNamed _ _) _ (optionsFor []) rfl d2⟩

/-- C20: service resolution.  When the algorithm of the options is "rsa" or "kmac" and that
service was never constructed, or is any identifier other than "rsa" and "kmac",
`Encrypt` fails with an `InvalidConfig` error and has done nothing to its collaborators:
the source was not read and nothing was written to the sink. -/
theorem C20_service_resolution (p : UnifiedProcessor) (env : CryptoEnv) (elapsed : Int)
    (source : DataSource) (sink : DataSink) (opts : CryptoOptions)
    (h : (opts.Method = nameRSA ∧ p.rsaService = none) ∨
      (opts.Method = nameKMAC ∧ p.kmacService = none) ∨
      (opts.Method ≠ nameRSA ∧ opts.Method ≠ nameKMAC)) :
    ∃ e, p.Encrypt env elapsed source sink opts = (.err e, []) ∧
      e.code? = some ErrorCode.ErrInvalidConfig ∧
      (e = InvalidConfig "RSA service not available" .nil ∨
        e = InvalidConfig "KMAC service not available" .nil ∨
        e = InvalidConfig ("unsupported method: " ++ String.mk opts.Method) .nil) := by
  rcases h with ⟨hm, hs⟩ | ⟨hm, hs⟩ | ⟨h1, h2⟩
  · refine ⟨InvalidConfig "RSA service not available" .nil, ?_, rfl, Or.inl rfl⟩
    simp only [UnifiedProcessor.Encrypt, UnifiedProcessor.getCryptoService, hm, hs, if_true]
  · refine ⟨InvalidConfig "KMAC service not available" .nil, ?_, rfl, Or.inr (Or.inl rfl)⟩
    have hne : nameKMAC ≠ nameRSA := by decide
    simp only [UnifiedProcessor.Encrypt, UnifiedProcessor.getCryptoService, hm, hs, hne,
      if_true, if_false]
  · refine ⟨InvalidConfig ("unsupported method: " ++ String.mk opts.Method) .nil, ?_, rfl,
      Or.inr (Or.inr rfl)⟩
    simp only [UnifiedProcessor.Encrypt, UnifiedProcessor.getCryptoService, h1, h2, if_false]

/-- Witness of C20: a processor with the RSA service only, asked for "kmac", and asked for
the unknown identifier "aes"; in both cases nothing is read and nothing is written. -/
theorem C20_service_resolution_witness :
    rsaOnlyProcessor.Encrypt modelEnv 0 (fileSourceNamed "a.txt".toList [1, 2, 3])
        (modelSink "out".toList) (optionsFor nameKMAC)
      = (.err (InvalidConfig "KMAC service not available" .nil), []) ∧
    rsaOnlyProcessor.Encrypt modelEnv 0 (fileSourceNamed "a.txt".toList [1, 2, 3])
        (modelSink "out".toList) (optionsFor "aes".toList)
      = (.err (InvalidConfig "unsupported method: aes" .nil), []) := by
  obtain ⟨e1, h1, _, hc1⟩ := C20_service_resolution rsaOnlyProcessor modelEnv 0
    (fileSourceNamed "a.txt".toList [1, 2, 3]) (modelSink "out".toList) (optionsFor nameKMAC)
    (Or.inr (Or.inl ⟨rfl, rfl⟩))
  obtain ⟨e2, h2, _, hc2⟩ := C20_service_resolution rsaOnlyProcessor modelEnv 0
    (fileSourceNamed "a.txt".toList [1, 2, 3]) (modelSink "out".toList)
    (optionsFor "aes".toList) (Or.inr (Or.inr ⟨by decide, by decide⟩))
  constructor
  · rw [h1]
    rcases hc1 with rfl | rfl | rfl
    · exact absurd h1 (by decide)
    · rfl
    · exact absurd h1 (by decide)
  · rw [h2]
    rcases hc2 with rfl | rfl | rfl
    · exact absurd h2 (by decide)
    · exact absurd h2 (by decide)
    · decide

/-! ## Claims on the algorithm detector -/


/-- The fixed middle part of the detector patterns as text: `-`, hash, `-`, date, `-`. -/
theorem hashDate_length (h d : GoString) (hh : h.length = 6) (hd : d.length = 8) :
    (['-'] ++ h ++ ['-'] ++ d ++ ['-']).length = 17 := by
  simp [hh, hd]

theorem greedyStar_eq_some {β : Type} {f : Nat → Option β} {n : Nat} {b : β}
    (h : greedyStar f n = some b) :
    ∃ k, k ≤ n ∧ f k = some b ∧ ∀ j, k < j → j ≤ n → f j = none := by
  induction n with
  | zero =>
    exact ⟨0, le_refl 0, h, fun j h1 h2 => absurd h1 (by omega)⟩
  | succ n ih =>
    unfold greedyStar at h
    cases hf : f (n + 1) with
    | some b' =>
      simp only [hf, Option.some.injEq] at h
      subst h
      exact ⟨n + 1, le_refl _, hf, fun j h1 h2 => absurd h1 (by omega)⟩
    | none =>
      simp only [hf] at h
      obtain ⟨k, hk, hfk, hall⟩ := ih h
      refine ⟨k, by omega, hfk, ?_⟩
      intro j h1 h2
      by_cases hj : j = n + 1
      · rw [hj]; exact hf
      · exact hall j h1 (by omega)

theorem greedyStar_eq_none {β : Type} {f : Nat → Option β} {n : Nat}
    (h : greedyStar f n = none) : ∀ k, k ≤ n → f k = none := by
  induction n with
  | zero =>
    intro k hk
    have : k = 0 := by omega
    subst this
    exact h
  | succ n ih =>
    unfold greedyStar at h
    cases hf : f (n + 1) with
    | some b' => simp [hf] at h
    | none =>
      simp only [hf] at h
      intro k hk
      by_cases hj : k = n + 1
      · rw [hj]; exact hf
      · exact ih h k (by omega)

/-- A successful match of the fixed middle part: the text starts with `-`, six `[a-z0-9]`,
`-`, eight digits, `-`. -/
theorem stripHashDate_eq_some {t rest : GoString} (h : stripHashDate t = some rest) :
    ∃ hash date, hash.length = 6 ∧ hash.all isLowerAlnum = true ∧ date.length = 8 ∧
      date.all isDigit = true ∧ t = ['-'] ++ hash ++ ['-'] ++ date ++ ['-'] ++ rest := by
  unfold stripHashDate at h
  simp only at h
  split at h
  · rename_i hc
    simp only [Option.some.injEq] at h
    simp only [Bool.and_eq_true, beq_iff_eq] at hc
    obtain ⟨⟨⟨⟨⟨⟨c1, c2⟩, c3⟩, c4⟩, c5⟩, c6⟩, c7⟩ := hc
    refine ⟨(t.drop 1).take 6, (t.drop 8).take 8, c2, c3, c5, c6, ?_⟩
    have e := split_tail t
    rw [c1, c4, c7, h] at e
    conv_lhs => rw [e]
    simp [List.append_assoc]
  · cases h

theorem stripHashDate_append (hash date rest : GoString)
    (hh : hash.length = 6) (hha : hash.all isLowerAlnum = true)
    (hd : date.length = 8) (hda : date.all isDigit = true) :
    stripHashDate (['-'] ++ hash ++ ['-'] ++ date ++ ['-'] ++ rest) = some rest := by
  obtain ⟨h0, h1, h2, h3, h4, h5, rfl⟩ := length_eq_six hh
  obtain ⟨d0, d1, d2, d3, d4, d5, d6, d7, rfl⟩ := length_eq_eight hd
  simp only [List.all_cons, List.all_nil, Bool.and_true, Bool.and_eq_true] at hha hda
  simp [stripHashDate, hha, hda]

/-- A successful match of the tail of a detector pattern: group 1 is a listed identifier and
the text is the middle part, the identifier and the suffix. -/
theorem matchTail_eq_some {algs : List GoString} {suffix t a : GoString}
    (h : matchTail algs suffix t = some a) :
    a ∈ algs ∧ ∃ hash date, hash.length = 6 ∧ hash.all isLowerAlnum = true ∧
      date.length = 8 ∧ date.all isDigit = true ∧
      t = ['-'] ++ hash ++ ['-'] ++ date ++ ['-'] ++ a ++ suffix := by
  unfold matchTail at h
  cases hs : stripHashDate t with
  | none => simp [hs] at h
  | some rest =>
    simp only [hs] at h
    have hmem := List.mem_of_find?_eq_some h
    have hp := List.find?_some h
    simp only [beq_iff_eq] at hp
    obtain ⟨hash, date, hh, hha, hd, hda, ht⟩ := stripHashDate_eq_some hs
    refine ⟨hmem, hash, date, hh, hha, hd, hda, ?_⟩
    rw [ht, hp]; simp [List.append_assoc]

theorem matchTail_append (algs : List GoString) (suffix hash date A : GoString)
    (hA : A ∈ algs)
    (hh : hash.length = 6) (hha : hash.all isLowerAlnum = true)
    (hd : date.length = 8) (hda : date.all isDigit = true) :
    matchTail algs suffix (['-'] ++ hash ++ ['-'] ++ date ++ ['-'] ++ A ++ suffix) = some A := by
  have hs : stripHashDate (['-'] ++ hash ++ ['-'] ++ date ++ ['-'] ++ A ++ suffix)
      = some (A ++ suffix) := by
    have := stripHashDate_append hash date (A ++ suffix) hh hha hd hda
    simpa [List.append_assoc] using this
  unfold matchTail
  simp only [hs]
  cases hf : algs.find? (fun a => A ++ suffix == a ++ suffix) with
  | none =>
    rw [List.find?_eq_none] at hf
    exact absurd (by simp) (hf A hA)
  | some a =>
    have hp := List.find?_some hf
    simp only [beq_iff_eq] at hp
    rw [List.append_cancel_right hp]

/-- Soundness of the detector match: group 1 is a listed identifier and the text ends with
the middle part, that identifier and the suffix. -/
theorem detectorSubmatch_eq_some {algs : List GoString} {suffix str a : GoString}
    (h : detectorSubmatch algs suffix str = some a) :
    a ∈ algs ∧ ∃ x hash date, hash.length = 6 ∧ hash.all isLowerAlnum = true ∧
      date.length = 8 ∧ date.all isDigit = true ∧
      str = x ++ ['-'] ++ hash ++ ['-'] ++ date ++ ['-'] ++ a ++ suffix := by
  unfold detectorSubmatch at h
  obtain ⟨i, _, hi⟩ := List.exists_of_findSome?_eq_some h
  obtain ⟨k, _, hk, _⟩ := greedyStar_eq_some hi
  obtain ⟨hmem, hash, date, hh, hha, hd, hda, ht⟩ := matchTail_eq_some hk
  refine ⟨hmem, str.take (i + k), hash, date, hh, hha, hd, hda, ?_⟩
  rw [List.drop_drop] at ht
  conv_lhs => rw [← List.take_append_drop (i + k) str, ht]
  simp [List.append_assoc]


theorem takeWhile_length_ge {α : Type} (p : α → Bool) (l : List α) (j : Nat)
    (hj : j ≤ l.length) (h : ∀ c ∈ l.take j, p c = true) :
    j ≤ (l.takeWhile p).length := by
  induction l generalizing j with
  | nil => simpa using hj
  | cons a l ih =>
    cases j with
    | zero => exact Nat.zero_le _
    | succ j =>
      have ha : p a = true := h a (by simp)
      rw [List.takeWhile_cons_of_pos ha, List.length_cons]
      have := ih j (by simpa using hj) (fun c hc => h c (by simp [hc]))
      omega

theorem mem_take_of_le_takeWhile {α : Type} (p : α → Bool) (l : List α) (k : Nat)
    (hk : k ≤ (l.takeWhile p).length) : ∀ c ∈ l.take k, p c = true := by
  induction l generalizing k with
  | nil => intro c hc; simp at hc
  | cons a l ih =>
    cases k with
    | zero => intro c hc; simp at hc
    | succ k =>
      by_cases ha : p a = true
      · rw [List.takeWhile_cons_of_pos ha, List.length_cons] at hk
        intro c hc
        simp only [List.take_succ_cons, List.mem_cons] at hc
        rcases hc with rfl | hc
        · exact ha
        · exact ih k (by omega) c hc
      · rw [List.takeWhile_cons_of_neg ha] at hk
        simp at hk

theorem count_dash_eq_zero_of_alnum {h : GoString} (hh : h.all isLowerAlnum = true) :
    h.count '-' = 0 := by
  rw [List.count_eq_zero]
  intro hmem
  rw [List.all_eq_true] at hh
  exact absurd (hh '-' hmem) (by decide)

theorem count_dash_eq_zero_of_digits {d : GoString} (hd : d.all isDigit = true) :
    d.count '-' = 0 := by
  rw [List.count_eq_zero]
  intro hmem
  rw [List.all_eq_true] at hd
  exact absurd (hd '-' hmem) (by decide)

theorem no_newline_of_alnum {h : GoString} (hh : h.all isLowerAlnum = true) :
    ∀ c ∈ h, (c != '\n') = true := by
  intro c hc
  rw [List.all_eq_true] at hh
  have := hh c hc
  simp only [bne_iff_ne, ne_eq]
  rintro rfl
  exact absurd this (by decide)

theorem no_newline_of_digits {d : GoString} (hd : d.all isDigit = true) :
    ∀ c ∈ d, (c != '\n') = true := by
  intro c hc
  rw [List.all_eq_true] at hd
  have := hd c hc
  simp only [bne_iff_ne, ne_eq]
  rintro rfl
  exact absurd this (by decide)

/-- The middle part cannot start again inside `-`, hash, `-`, date, `-`, A when A holds no
dash: there are only three dashes. -/
theorem no_later_tail {h d A pre h' d' a : GoString}
    (hha : h.all isLowerAlnum = true) (hda : d.all isDigit = true) (hA : '-' ∉ A)
    (heq : ['-'] ++ h ++ ['-'] ++ d ++ ['-'] ++ A
      = pre ++ (['-'] ++ h' ++ ['-'] ++ d' ++ ['-'] ++ a)) :
    pre = [] := by
  cases pre with
  | nil => rfl
  | cons c pre =>
    have hc : c = '-' := by
      have := congrArg List.head? heq
      simpa using this.symm
    have h1 := congrArg (List.count '-') heq
    simp only [List.count_append, List.count_cons_self, List.count_nil,
      count_dash_eq_zero_of_alnum hha, count_dash_eq_zero_of_digits hda,
      List.count_eq_zero.2 hA, hc, List.cons_append, List.nil_append, List.count_cons] at h1
    simp at h1
    omega


theorem middle_no_newline {h d a : GoString}
    (hha : h.all isLowerAlnum = true) (hda : d.all isDigit = true) (ha : '\n' ∉ a) :
    ∀ c ∈ ['-'] ++ h ++ ['-'] ++ d ++ ['-'] ++ a, (c != '\n') = true := by
  intro c hc
  simp only [List.mem_append, List.mem_singleton] at hc
  rcases hc with ((((rfl | hc) | rfl) | hc) | rfl) | hc
  · decide
  · exact no_newline_of_alnum hha c hc
  · decide
  · exact no_newline_of_digits hda c hc
  · decide
  · simp only [bne_iff_ne, ne_eq]
    rintro rfl
    exact ha hc

/-- Completeness of the detector match: on a text that ends with the middle part, a listed
identifier without a dash and the suffix, group 1 is that identifier. -/
theorem detectorSubmatch_append (algs : List GoString) (suffix name h d A : GoString)
    (hA : A ∈ algs) (hdash : '-' ∉ A) (hnl : ∀ a ∈ algs, '\n' ∉ a)
    (hh : h.length = 6) (hha : h.all isLowerAlnum = true)
    (hd : d.length = 8) (hda : d.all isDigit = true) :
    detectorSubmatch algs suffix (name ++ ['-'] ++ h ++ ['-'] ++ d ++ ['-'] ++ A ++ suffix)
      = some A := by
  have hT : matchTail algs suffix (['-'] ++ h ++ ['-'] ++ d ++ ['-'] ++ A ++ suffix) = some A :=
    matchTail_append algs suffix h d A hA hh hha hd hda
  have hstr : name ++ ['-'] ++ h ++ ['-'] ++ d ++ ['-'] ++ A ++ suffix
      = name ++ (['-'] ++ h ++ ['-'] ++ d ++ ['-'] ++ A ++ suffix) := by
    simp [List.append_assoc]
  rw [hstr]
  generalize hTdef : ['-'] ++ h ++ ['-'] ++ d ++ ['-'] ++ A ++ suffix = T at hT
  cases hres : detectorSubmatch algs suffix (name ++ T) with
  | none =>
    exfalso
    unfold detectorSubmatch at hres
    rw [List.findSome?_eq_none_iff] at hres
    have h1 := hres name.length (by simp only [List.mem_range, List.length_append]; omega)
    simp only at h1
    have h2 := greedyStar_eq_none h1 0 (Nat.zero_le _)
    simp only [List.drop_left, List.drop_zero] at h2
    rw [hT] at h2
    cases h2
  | some a0 =>
    unfold detectorSubmatch at hres
    obtain ⟨i, _, hi⟩ := List.exists_of_findSome?_eq_some hres
    simp only at hi
    obtain ⟨k, hk, hfk, hall⟩ := greedyStar_eq_some hi
    obtain ⟨ha0, h', d', hh', hha', hd', hda', ht⟩ := matchTail_eq_some hfk
    -- the text from `i`
    generalize hs0 : (name ++ T).drop i = s0 at hk hfk hall ht
    have hkle : k ≤ s0.length :=
      le_trans hk (List.Sublist.length_le (List.takeWhile_sublist _))
    have hsplit : name ++ T = (name ++ T).take i ++ s0.take k
        ++ (['-'] ++ h' ++ ['-'] ++ d' ++ ['-'] ++ a0) ++ suffix := by
      conv_lhs => rw [← List.take_append_drop i (name ++ T), hs0,
        ← List.take_append_drop k s0, ht]
      simp [List.append_assoc]
    have hcancel : name ++ (['-'] ++ h ++ ['-'] ++ d ++ ['-'] ++ A)
        = ((name ++ T).take i ++ s0.take k) ++ (['-'] ++ h' ++ ['-'] ++ d' ++ ['-'] ++ a0) := by
      refine @List.append_cancel_right _ _ suffix _ ?_
      rw [← hsplit, ← hTdef]
      simp [List.append_assoc]
    have hsame : ∀ {x y : GoString},
        ['-'] ++ h ++ ['-'] ++ d ++ ['-'] ++ x = ['-'] ++ h' ++ ['-'] ++ d' ++ ['-'] ++ y →
        x = y := by
      intro x y e
      have hl : (['-'] ++ h ++ ['-'] ++ d ++ ['-']).length
          = (['-'] ++ h' ++ ['-'] ++ d' ++ ['-']).length := by
        rw [hashDate_length h d hh hd, hashDate_length h' d' hh' hd']
      exact (List.append_inj e hl).2
    rcases List.append_eq_append_iff.1 hcancel with ⟨a', _, ha'⟩ | ⟨c', _, hc'⟩
    · have hnil := no_later_tail hha hda hdash ha'
      subst hnil
      rw [List.nil_append] at ha'
      rw [hsame ha']
    · cases c' with
      | nil =>
        rw [List.nil_append] at hc'
        rw [hsame hc'.symm]
      | cons c0 cs =>
        exfalso
        -- the attempt that takes the characters of `c0 :: cs` as well
        have hs0eq : s0 = (s0.take k ++ (c0 :: cs)) ++ T := by
          conv_lhs => rw [← List.take_append_drop k s0, ht]
          rw [← hTdef]
          have e2 : ['-'] ++ h' ++ ['-'] ++ d' ++ ['-'] ++ a0 ++ suffix
              = (c0 :: cs) ++ (['-'] ++ h ++ ['-'] ++ d ++ ['-'] ++ A) ++ suffix := by
            rw [hc']
          rw [e2]
          simp [List.append_assoc]
        have hlen : (s0.take k ++ (c0 :: cs)).length = k + (cs.length + 1) := by
          simp [List.length_take, Nat.min_eq_left hkle]
        have hdrop : s0.drop (k + (cs.length + 1)) = T := by
          conv_lhs => rw [hs0eq]
          exact List.drop_left' hlen
        have htake : s0.take (k + (cs.length + 1)) = s0.take k ++ (c0 :: cs) := by
          conv_lhs => rw [hs0eq]
          exact List.take_left' hlen
        have hjle : k + (cs.length + 1) ≤ s0.length := by
          conv_rhs => rw [hs0eq]
          simp only [List.length_append, hlen]
          omega
        have hrun : k + (cs.length + 1) ≤ (s0.takeWhile (fun c => c != '\n')).length := by
          apply takeWhile_length_ge _ _ _ hjle
          intro c hc
          rw [htake, List.mem_append] at hc
          rcases hc with hc | hc
          · exact mem_take_of_le_takeWhile _ s0 k hk c hc
          · apply middle_no_newline hha' hda' (hnl a0 ha0) c
            rw [hc']
            exact List.mem_append_left _ hc
        have hnone := hall (k + (cs.length + 1)) (by omega) hrun
        rw [hdrop, hT] at hnone
        cases hnone


/-- The base name of a path that ends with a non-empty text without a separator: what
follows the last separator before that text, and the text. -/
theorem filepathBase_append (p q : GoString) (hq : q ≠ []) (hs : '/' ∉ q) :
    filepathBase (p ++ q) = (p.reverse.takeWhile (fun c => c != '/')).reverse ++ q := by
  have hne : p ++ q ≠ [] := by
    intro h
    exact hq (List.append_eq_nil.1 h).2
  have hrev : (p ++ q).reverse = q.reverse ++ p.reverse := List.reverse_append _ _
  have hqr : q.reverse ≠ [] := by
    intro h
    exact hq (List.reverse_eq_nil_iff.1 h)
  have hall : ∀ c ∈ q.reverse, (c != '/') = true := by
    intro c hc
    simp only [bne_iff_ne, ne_eq]
    rintro rfl
    exact hs (List.mem_reverse.1 hc)
  have hdw : ((p ++ q).reverse.dropWhile (fun c => c == '/')) = (p ++ q).reverse := by
    rw [hrev]
    cases hq2 : q.reverse with
    | nil => exact absurd hq2 hqr
    | cons c cs =>
      have hc : (c != '/') = true := hall c (by rw [hq2]; exact List.mem_cons_self _ _)
      have hc2 : ¬ ((c == '/') = true) := by
        simp only [bne_iff_ne, ne_eq] at hc
        simpa using hc
      rw [List.cons_append]
      exact List.dropWhile_cons_of_neg hc2
  have htw : (q.reverse ++ p.reverse).takeWhile (fun c => c != '/')
      = q.reverse ++ p.reverse.takeWhile (fun c => c != '/') :=
    List.takeWhile_append_of_pos hall
  unfold filepathBase
  rw [if_neg hne]
  simp only [hdw, List.reverse_reverse]
  rw [hrev, htw, List.reverse_append, List.reverse_reverse]
  rw [if_neg]
  intro h
  exact hq (List.append_eq_nil.1 h).2

/-- The middle part and an identifier without a dot do not end with `.zip`. -/
theorem not_ends_zip {x h d m y : GoString}
    (hh : h.length = 6) (hha : h.all isLowerAlnum = true)
    (hd : d.length = 8) (hda : d.all isDigit = true) (hm : '.' ∉ m)
    (heq : x ++ ['-'] ++ h ++ ['-'] ++ d ++ ['-'] ++ m = y ++ dotZip) : False := by
  have hdotX : '.' ∉ ['-'] ++ h ++ ['-'] ++ d ++ ['-'] := by
    intro hc
    simp only [List.mem_append, List.mem_singleton] at hc
    rw [List.all_eq_true] at hha hda
    rcases hc with (((hc | hc) | hc) | hc) | hc
    · exact absurd hc (by decide)
    · exact absurd (hha _ hc) (by decide)
    · exact absurd hc (by decide)
    · exact absurd (hda _ hc) (by decide)
    · exact absurd hc (by decide)
  have heq2 : (x ++ (['-'] ++ h ++ ['-'] ++ d ++ ['-'])) ++ m = y ++ dotZip := by
    rw [← heq]; simp [List.append_assoc]
  rcases List.append_eq_append_iff.1 heq2 with ⟨a', _, ha'⟩ | ⟨c', hc1, hc2⟩
  · apply hm
    rw [ha']
    simp [dotZip]
  · cases c' with
    | nil =>
      apply hm
      rw [List.nil_append] at hc2
      rw [← hc2]
      simp [dotZip]
    | cons c0 cs =>
      have hc0 : c0 = '.' := by
        have := congrArg List.head? hc2
        simpa [dotZip] using this.symm
      have hlen : (c0 :: cs).length ≤ (['-'] ++ h ++ ['-'] ++ d ++ ['-']).length := by
        have := congrArg List.length hc2
        rw [hashDate_length h d hh hd]
        simp only [dotZip, List.length_append, List.length_cons, List.length_nil] at this ⊢
        omega
      have hsuf1 : (c0 :: cs) <:+ x ++ (['-'] ++ h ++ ['-'] ++ d ++ ['-']) :=
        ⟨y, hc1.symm⟩
      have hsuf2 : (['-'] ++ h ++ ['-'] ++ d ++ ['-'])
          <:+ x ++ (['-'] ++ h ++ ['-'] ++ d ++ ['-']) := List.suffix_append _ _
      have hsuf : (c0 :: cs) <:+ (['-'] ++ h ++ ['-'] ++ d ++ ['-']) :=
        List.suffix_of_suffix_length_le hsuf1 hsuf2 hlen
      apply hdotX
      apply hsuf.subset
      rw [hc0]
      exact List.mem_cons_self _ _

theorem not_mem_of_isLiteralText {a : GoString} {c : Char} (h : isLiteralText a = true)
    (hc : regexpSpecial.contains c = true) : c ∉ a := by
  intro hmem
  unfold isLiteralText at h
  rw [List.all_eq_true] at h
  have := h c hmem
  rw [hc] at this
  cases this

theorem IsSupported_of_mem {d : StandardAlgorithmDetector} {a : GoString}
    (h : a ∈ d.supportedAlgorithms) : d.IsSupported a = true := by
  unfold StandardAlgorithmDetector.IsSupported
  rw [List.any_eq_true]
  exact ⟨a, h, by simp⟩

theorem parseAlternation_of_literal {first : GoString} {rest : List GoString}
    (h : ∀ a ∈ first :: rest, isLiteralText a = true) :
    parseAlternation first rest = .alternatives := by
  unfold parseAlternation
  rw [if_pos]
  rw [List.all_eq_true]
  exact h


/-- The zip pattern matched with a supported, non-empty group 1: that is the result. -/
theorem DetectFromPath_zip_hit {supported : List GoString} {ext path m : GoString}
    (hlit : ∀ a ∈ supported, isLiteralText a = true)
    (hz : detectorSubmatch supported (dotZip ++ ext) (filepathBase path) = some m)
    (hm : m ≠ []) (hmem : m ∈ supported) :
    (CreateStandardDetector supported ext).DetectFromPath path = some (.ok m) := by
  have hsup : (CreateStandardDetector supported ext).IsSupported m = true :=
    IsSupported_of_mem hmem
  cases supported with
  | nil => cases hmem
  | cons first rest =>
    have hm2 : (m != []) = true := by simpa using hm
    simp only [StandardAlgorithmDetector.DetectFromPath, CreateStandardDetector,
      parseAlternation_of_literal hlit, hz]
    simp only [CreateStandardDetector] at hsup
    simp [hm2, hsup]

/-- The zip pattern did not match, or matched with an empty group 1: the result is decided
by the file pattern. -/
theorem DetectFromPath_file {supported : List GoString} {ext path : GoString}
    {fm : Option GoString}
    (hne : supported ≠ []) (hlit : ∀ a ∈ supported, isLiteralText a = true)
    (hz : detectorSubmatch supported (dotZip ++ ext) (filepathBase path) = none ∨
      detectorSubmatch supported (dotZip ++ ext) (filepathBase path) = some [])
    (hf : detectorSubmatch supported ext (filepathBase path) = fm) :
    (CreateStandardDetector supported ext).DetectFromPath path
      = some (.ok (match fm with
          | some m => if m != [] && (CreateStandardDetector supported ext).IsSupported m
              then m else []
          | none => [])) := by
  cases supported with
  | nil => exact absurd rfl hne
  | cons first rest =>
    simp only [StandardAlgorithmDetector.DetectFromPath, CreateStandardDetector,
      parseAlternation_of_literal hlit, hf]
    rcases hz with hz | hz
    · simp only [hz]
      cases fm with
      | none => rfl
      | some m =>
        simp only
        split <;> rfl
    · simp only [hz]
      cases fm with
      | none => rfl
      | some m =>
        simp only
        split
        · simp_all
        · simp_all
          split <;> rfl


theorem middle_no_slash {h d a e : GoString}
    (hha : h.all isLowerAlnum = true) (hda : d.all isDigit = true)
    (ha : '/' ∉ a) (he : '/' ∉ e) :
    '/' ∉ ['-'] ++ h ++ ['-'] ++ d ++ ['-'] ++ a ++ e := by
  intro hc
  simp only [List.mem_append, List.mem_singleton] at hc
  rw [List.all_eq_true] at hha hda
  rcases hc with (((((hc | hc) | hc) | hc) | hc) | hc) | hc
  · exact absurd hc (by decide)
  · exact absurd (hha _ hc) (by decide)
  · exact absurd hc (by decide)
  · exact absurd (hda _ hc) (by decide)
  · exact absurd hc (by decide)
  · exact ha hc
  · exact he hc

/-- On a detector whose identifiers hold no special character, `DetectFromPath` returns the
empty string or a supported identifier, and an identifier only when the base name ends with
the middle part, that identifier and `.zip<ext>` or `<ext>`. -/
theorem DetectFromPath_sound (supported : List GoString) (ext path : GoString)
    (hne : supported ≠ []) (hlit : ∀ a ∈ supported, isLiteralText a = true) :
    ∃ r, (CreateStandardDetector supported ext).DetectFromPath path = some (.ok r) ∧
      (r = [] ∨ (r ∈ supported ∧ ∃ x hash date, hash.length = 6 ∧
        hash.all isLowerAlnum = true ∧ date.length = 8 ∧ date.all isDigit = true ∧
        (filepathBase path = x ++ ['-'] ++ hash ++ ['-'] ++ date ++ ['-'] ++ r
            ++ (dotZip ++ ext) ∨
          filepathBase path = x ++ ['-'] ++ hash ++ ['-'] ++ date ++ ['-'] ++ r ++ ext))) := by
  have hfile : (detectorSubmatch supported (dotZip ++ ext) (filepathBase path) = none ∨
      detectorSubmatch supported (dotZip ++ ext) (filepathBase path) = some []) →
      ∃ r, (CreateStandardDetector supported ext).DetectFromPath path = some (.ok r) ∧
      (r = [] ∨ (r ∈ supported ∧ ∃ x hash date, hash.length = 6 ∧
        hash.all isLowerAlnum = true ∧ date.length = 8 ∧ date.all isDigit = true ∧
        (filepathBase path = x ++ ['-'] ++ hash ++ ['-'] ++ date ++ ['-'] ++ r
            ++ (dotZip ++ ext) ∨
          filepathBase path = x ++ ['-'] ++ hash ++ ['-'] ++ date ++ ['-'] ++ r ++ ext))) := by
    intro hz
    cases hfm : detectorSubmatch supported ext (filepathBase path) with
    | none => exact ⟨[], DetectFromPath_file hne hlit hz hfm, Or.inl rfl⟩
    | some m =>
      have hres := DetectFromPath_file hne hlit hz hfm
      simp only at hres
      obtain ⟨hm, x, h, d, hh, hha, hd, hda, hs⟩ := detectorSubmatch_eq_some hfm
      split at hres
      · exact ⟨m, hres, Or.inr ⟨hm, x, h, d, hh, hha, hd, hda, Or.inr hs⟩⟩
      · exact ⟨[], hres, Or.inl rfl⟩
  cases hzm : detectorSubmatch supported (dotZip ++ ext) (filepathBase path) with
  | none => exact hfile (Or.inl hzm)
  | some m =>
    by_cases hm0 : m = []
    · exact hfile (Or.inr (by rw [hzm, hm0]))
    · obtain ⟨hm, x, h, d, hh, hha, hd, hda, hs⟩ := detectorSubmatch_eq_some hzm
      exact ⟨m, DetectFromPath_zip_hit hlit hzm hm0 hm,
        Or.inr ⟨hm, x, h, d, hh, hha, hd, hda, Or.inl hs⟩⟩

/-- The first index at which a search over `0, ..., n - 1` succeeds. -/
theorem findSome_range_first {β : Type} (f : Nat → Option β) (n : Nat) (b : β)
    (h : (List.range n).findSome? f = some b) :
    ∃ i, i < n ∧ f i = some b ∧ ∀ j, j < i → f j = none := by
  induction n with
  | zero => simp at h
  | succ n ih =>
    rw [List.range_succ, List.findSome?_append] at h
    cases hfs : (List.range n).findSome? f with
    | some b' =>
      rw [hfs] at h
      have hb : b' = b := by simpa [Option.or] using h
      subst hb
      obtain ⟨i, hi, hfi, hmin⟩ := ih hfs
      exact ⟨i, by omega, hfi, hmin⟩
    | none =>
      rw [hfs] at h
      simp only [Option.or, List.findSome?_cons, List.findSome?_nil] at h
      rw [List.findSome?_eq_none_iff] at hfs
      cases hfn : f n with
      | none => simp [hfn] at h
      | some b' =>
        simp only [hfn, Option.some.injEq] at h
        subst h
        exact ⟨n, by omega, hfn, fun j hj => hfs j (List.mem_range.2 hj)⟩

/-- The match the detector pattern picks, as a splitting of the text: the match starts after
`p`, `.*` takes `m`, and the rest of the pattern matches `t`.  No longer run of `.*` from the
same start leads to a match, and no earlier start leads to one. -/
theorem detectorSubmatch_pick {algs : List GoString} {suffix str a : GoString}
    (h : detectorSubmatch algs suffix str = some a) :
    ∃ p m t, str = p ++ m ++ t ∧ '\n' ∉ m ∧ matchTail algs suffix t = some a ∧
      (∀ m' t', m ++ t = m' ++ t' → m.length < m'.length → '\n' ∉ m' →
        matchTail algs suffix t' = none) ∧
      (∀ p' m' t', str = p' ++ m' ++ t' → p'.length < p.length → '\n' ∉ m' →
        matchTail algs suffix t' = none) := by
  unfold detectorSubmatch at h
  obtain ⟨i, hi, hfi, hmin⟩ := findSome_range_first _ _ _ h
  simp only at hfi hmin
  obtain ⟨k, hk, hfk, hall⟩ := greedyStar_eq_some hfi
  have hile : i ≤ str.length := by omega
  have hkle : k ≤ (str.drop i).length :=
    le_trans hk (List.Sublist.length_le (List.takeWhile_sublist _))
  have hrun : ∀ (s m' t' : GoString), s = m' ++ t' → '\n' ∉ m' →
      m'.length ≤ (s.takeWhile (fun c => c != '\n')).length := by
    intro s m' t' hs hm'
    apply takeWhile_length_ge
    · rw [hs]; simp
    · intro c hc
      rw [hs, List.take_left' rfl] at hc
      simp only [bne_iff_ne, ne_eq]
      rintro rfl
      exact hm' hc
  refine ⟨str.take i, (str.drop i).take k, (str.drop i).drop k, ?_, ?_, hfk, ?_, ?_⟩
  · rw [List.append_assoc, List.take_append_drop, List.take_append_drop]
  · intro hc
    have := mem_take_of_le_takeWhile _ (str.drop i) k hk _ hc
    simp at this
  · intro m' t' he hlt hm'
    rw [List.take_append_drop] at he
    have hlen : ((str.drop i).take k).length = k := by
      rw [List.length_take]; exact Nat.min_eq_left hkle
    rw [hlen] at hlt
    have := hall m'.length hlt (hrun _ m' t' he hm')
    rw [he, List.drop_left' rfl] at this
    exact this
  · intro p' m' t' he hlt hm'
    have hlen : (str.take i).length = i := by
      rw [List.length_take]; exact Nat.min_eq_left hile
    rw [hlen] at hlt
    have hnone := hmin p'.length hlt
    have hd : str.drop p'.length = m' ++ t' := by
      conv_lhs => rw [he, List.append_assoc]
      exact List.drop_left' rfl
    have := greedyStar_eq_none hnone m'.length (hrun _ m' t' hd hm')
    rw [hd, List.drop_left' rfl] at this
    exact this

/-- A text without a dash before a dash: a second splitting at a dash starts after it. -/
theorem dash_split_first {x r p r' : GoString} (hx : '-' ∉ x)
    (heq : x ++ '-' :: r = p ++ '-' :: r') :
    (p = x ∧ r = r') ∨ ∃ a', p = x ++ '-' :: a' ∧ r = a' ++ '-' :: r' := by
  rcases List.append_eq_append_iff.1 heq with ⟨a', ha1, ha2⟩ | ⟨c', hc1, hc2⟩
  · cases a' with
    | nil =>
      left
      rw [List.nil_append] at ha2
      exact ⟨by simpa using ha1, (List.cons.inj ha2).2⟩
    | cons c cs =>
      right
      rw [List.cons_append] at ha2
      obtain ⟨hc, hr⟩ := List.cons.inj ha2
      subst hc
      exact ⟨cs, ha1, hr⟩
  · cases c' with
    | nil =>
      left
      rw [List.nil_append] at hc2
      exact ⟨by simpa using hc1.symm, ((List.cons.inj hc2).2).symm⟩
    | cons c cs =>
      exfalso
      rw [List.cons_append] at hc2
      obtain ⟨hc, _⟩ := List.cons.inj hc2
      apply hx
      rw [hc1, ← hc]
      simp

theorem middle_not_newline {h d : GoString}
    (hha : h.all isLowerAlnum = true) (hda : d.all isDigit = true) :
    '\n' ∉ ['-'] ++ h ++ ['-'] ++ d ++ ['-'] := by
  intro hc
  have := middle_no_newline hha hda (List.not_mem_nil '\n') '\n' (by simpa using hc)
  simp at this

/-- Where the middle part can start again inside `-`, hash, `-`, date, `-`, A: at the last
of these dashes or inside A. -/
theorem later_tail_position {h d A pre h' d' a : GoString}
    (hha : h.all isLowerAlnum = true)
    (hd : d.length = 8) (hda : d.all isDigit = true) (hh' : h'.length = 6)
    (hpre : pre ≠ [])
    (heq : ['-'] ++ h ++ ['-'] ++ d ++ ['-'] ++ A
      = pre ++ (['-'] ++ h' ++ ['-'] ++ d' ++ ['-'] ++ a)) :
    ∃ u, pre = ['-'] ++ h ++ ['-'] ++ d ++ u ∧
      ['-'] ++ A = u ++ ['-'] ++ h' ++ ['-'] ++ d' ++ ['-'] ++ a := by
  cases pre with
  | nil => exact absurd rfl hpre
  | cons c pre' =>
    simp only [List.append_assoc, List.singleton_append, List.cons_append,
      List.nil_append, List.cons.injEq] at heq ⊢
    obtain ⟨hc, heq⟩ := heq
    subst hc
    rcases dash_split_first (List.count_eq_zero.1 (count_dash_eq_zero_of_alnum hha)) heq with ⟨hp, hr⟩ | ⟨a', hp, hr⟩
    · exfalso
      rcases dash_split_first (List.count_eq_zero.1 (count_dash_eq_zero_of_digits hda)) hr with ⟨hp2, _⟩ | ⟨a2, hp2, _⟩
      · have := congrArg List.length hp2
        omega
      · have := congrArg List.length hp2
        simp only [List.length_append, List.length_cons] at this
        omega
    · rcases dash_split_first (List.count_eq_zero.1 (count_dash_eq_zero_of_digits hda)) hr with ⟨hp2, hr2⟩ | ⟨a2, hp2, hr2⟩
      · refine ⟨[], ⟨rfl, ?_⟩, ?_⟩
        · rw [hp, hp2]; simp
        · rw [hr2]; simp
      · refine ⟨'-' :: a2, ⟨rfl, ?_⟩, ?_⟩
        · rw [hp, hp2]
        · rw [hr2]; simp

/-- The detector pattern finds a match on every text that ends with the middle part, a listed
identifier and the suffix. -/
theorem detectorSubmatch_ne_none (algs : List GoString) (suffix name h d A : GoString)
    (hA : A ∈ algs)
    (hh : h.length = 6) (hha : h.all isLowerAlnum = true)
    (hd : d.length = 8) (hda : d.all isDigit = true) :
    detectorSubmatch algs suffix (name ++ ['-'] ++ h ++ ['-'] ++ d ++ ['-'] ++ A ++ suffix)
      ≠ none := by
  intro hres
  have hT := matchTail_append algs suffix h d A hA hh hha hd hda
  have hstr : name ++ ['-'] ++ h ++ ['-'] ++ d ++ ['-'] ++ A ++ suffix
      = name ++ (['-'] ++ h ++ ['-'] ++ d ++ ['-'] ++ A ++ suffix) := by
    simp [List.append_assoc]
  rw [hstr] at hres
  unfold detectorSubmatch at hres
  rw [List.findSome?_eq_none_iff] at hres
  have h1 := hres name.length (by simp only [List.mem_range, List.length_append]; omega)
  simp only at h1
  have h2 := greedyStar_eq_none h1 0 (Nat.zero_le _)
  simp only [List.drop_left, List.drop_zero] at h2
  rw [hT] at h2
  cases h2

/-- Completeness of the detector match: on a text that ends with the middle part, a listed
identifier A and the suffix, group 1 is A, unless a later or an earlier reading of the text
captures the match. -/
theorem detectorSubmatch_exact (algs : List GoString) (suffix name h d A : GoString)
    (hA : A ∈ algs)
    (hh : h.length = 6) (hha : h.all isLowerAlnum = true)
    (hd : d.length = 8) (hda : d.all isDigit = true) (hname : '/' ∉ name)
    (hL : ∀ u hs ds B : GoString, B ∈ algs → hs.length = 6 → hs.all isLowerAlnum = true →
      ds.length = 8 → ds.all isDigit = true → '\n' ∉ u →
      ['-'] ++ A ≠ u ++ ['-'] ++ hs ++ ['-'] ++ ds ++ ['-'] ++ B)
    (hE : ∀ v hs ds B : GoString, B ∈ algs → hs.length = 6 → hs.all isLowerAlnum = true →
      ds.length = 8 → ds.all isDigit = true → '\n' ∈ v → '/' ∉ v →
      B ≠ v ++ ['-'] ++ hs ++ ['-'] ++ ds ++ ['-'] ++ A) :
    detectorSubmatch algs suffix (name ++ ['-'] ++ h ++ ['-'] ++ d ++ ['-'] ++ A ++ suffix)
      = some A := by
  have hT : matchTail algs suffix (['-'] ++ h ++ ['-'] ++ d ++ ['-'] ++ A ++ suffix) = some A :=
    matchTail_append algs suffix h d A hA hh hha hd hda
  cases hres : detectorSubmatch algs suffix
      (name ++ ['-'] ++ h ++ ['-'] ++ d ++ ['-'] ++ A ++ suffix) with
  | none => exact absurd hres (detectorSubmatch_ne_none algs suffix name h d A hA hh hha hd hda)
  | some a0 =>
    obtain ⟨p, m, t, hsplit, hm, hmt, hlate, hearly⟩ := detectorSubmatch_pick hres
    obtain ⟨ha0, h', d', hh', hha', hd', hda', ht⟩ := matchTail_eq_some hmt
    have hsame : ∀ {x y : GoString},
        ['-'] ++ h ++ ['-'] ++ d ++ ['-'] ++ x = ['-'] ++ h' ++ ['-'] ++ d' ++ ['-'] ++ y →
        x = y := by
      intro x y e
      have hl : (['-'] ++ h ++ ['-'] ++ d ++ ['-']).length
          = (['-'] ++ h' ++ ['-'] ++ d' ++ ['-']).length := by
        rw [hashDate_length h d hh hd, hashDate_length h' d' hh' hd']
      exact (List.append_inj e hl).2
    -- the match does not start after `name`
    have hple : p.length ≤ name.length := by
      by_contra hlt
      have := hearly name [] (['-'] ++ h ++ ['-'] ++ d ++ ['-'] ++ A ++ suffix)
        (by simp [List.append_assoc]) (by omega) (List.not_mem_nil _)
      rw [hT] at this
      cases this
    have hcancel : name ++ (['-'] ++ h ++ ['-'] ++ d ++ ['-'] ++ A)
        = (p ++ m) ++ (['-'] ++ h' ++ ['-'] ++ d' ++ ['-'] ++ a0) := by
      refine @List.append_cancel_right _ _ suffix _ ?_
      have := hsplit
      rw [ht] at this
      simpa [List.append_assoc] using this
    rcases List.append_eq_append_iff.1 hcancel with ⟨a', hpa, ha'⟩ | ⟨c', hpc, hc'⟩
    · -- the middle part read by the match starts at or after the one before A
      by_cases hnil : a' = []
      · subst hnil
        rw [List.nil_append] at ha'
        rw [hsame ha']
      · exfalso
        obtain ⟨u, hu1, hu2⟩ := later_tail_position hha hd hda hh' hnil ha'
        refine hL u h' d' a0 ha0 hh' hha' hd' hda' ?_ hu2
        -- `u` is part of what `.*` took
        intro hnl
        apply hm
        have e : p ++ m = p ++ (name.drop p.length ++ a') := by
          rw [hpa]
          conv_lhs => rw [← List.take_append_drop p.length name]
          have : name.take p.length = p := by
            have h1 := congrArg (List.take p.length) hpa
            rw [List.take_left' rfl, List.take_append_of_le_length hple] at h1
            exact h1.symm
          rw [this, List.append_assoc]
        rw [List.append_cancel_left e, hu1]
        simp [hnl]
    · -- the middle part read by the match starts before the one before A
      by_cases hnil : c' = []
      · subst hnil
        rw [List.nil_append] at hc'
        rw [hsame hc'.symm]
      · exfalso
        by_cases hnl : '\n' ∈ c'
        · -- an identifier that holds a newline reaches over the middle part before A
          have hc2 : (['-'] ++ h' ++ ['-'] ++ d' ++ ['-']) ++ a0
              = c' ++ (['-'] ++ h ++ ['-'] ++ d ++ ['-'] ++ A) := by
            rw [← hc']
          rcases List.append_eq_append_iff.1 hc2 with ⟨v, hv1, hv2⟩ | ⟨w, hw1, _⟩
          · refine hE v h d a0 ha0 hh hha hd hda ?_ ?_ ?_
            · rw [hv1] at hnl
              rcases List.mem_append.1 hnl with hx | hx
              · exact absurd hx (middle_not_newline hha' hda')
              · exact hx
            · intro hs
              apply hname
              rw [hpc, hv1]
              simp [hs]
            · rw [hv2]; simp [List.append_assoc]
          · apply middle_not_newline hha' hda'
            rw [hw1]
            exact List.mem_append_left _ hnl
        · -- `.*` can take the characters of `c'` as well
          have := hlate (m ++ c') (['-'] ++ h ++ ['-'] ++ d ++ ['-'] ++ A ++ suffix)
            (by rw [ht, hc']; simp [List.append_assoc])
            (by
              have : 0 < c'.length := List.length_pos.2 hnil
              simp only [List.length_append]; omega)
            (by
              intro hx
              rcases List.mem_append.1 hx with hx | hx
              · exact hm hx
              · exact hnl hx)
          rw [hT] at this
          cases this

/-- A later reading captures the match: when `-A` reads as a text without a newline, the
middle part and a listed identifier, group 1 is never A. -/
theorem detectorSubmatch_late_capture (algs : List GoString) (suffix str A u hs ds B : GoString)
    (hB : B ∈ algs) (hhs : hs.length = 6) (hhsa : hs.all isLowerAlnum = true)
    (hds : ds.length = 8) (hdsa : ds.all isDigit = true) (hu : '\n' ∉ u)
    (heq : ['-'] ++ A = u ++ ['-'] ++ hs ++ ['-'] ++ ds ++ ['-'] ++ B) :
    detectorSubmatch algs suffix str ≠ some A := by
  intro hres
  obtain ⟨p, m, t, _, hm, hmt, hlate, _⟩ := detectorSubmatch_pick hres
  obtain ⟨_, h', d', _, hha', _, hda', ht⟩ := matchTail_eq_some hmt
  have hnl : '\n' ∉ ['-'] ++ h' ++ ['-'] ++ d' := by
    intro hc
    apply middle_not_newline hha' hda'
    exact List.mem_append_left _ hc
  have ht2 : t = (['-'] ++ h' ++ ['-'] ++ d' ++ u)
      ++ (['-'] ++ hs ++ ['-'] ++ ds ++ ['-'] ++ B ++ suffix) := by
    rw [ht]
    have e : ['-'] ++ h' ++ ['-'] ++ d' ++ ['-'] ++ A ++ suffix
        = ['-'] ++ h' ++ ['-'] ++ d' ++ (['-'] ++ A) ++ suffix := by
      simp [List.append_assoc]
    rw [e, heq]
    simp [List.append_assoc]
  have := hlate (m ++ (['-'] ++ h' ++ ['-'] ++ d' ++ u))
    (['-'] ++ hs ++ ['-'] ++ ds ++ ['-'] ++ B ++ suffix)
    (by rw [ht2]; simp [List.append_assoc])
    (by simp only [List.length_append, List.length_cons, List.length_nil]; omega)
    (by
      intro hx
      rcases List.mem_append.1 hx with hx | hx
      · exact hm hx
      · rcases List.mem_append.1 hx with hx | hx
        · exact hnl hx
        · exact hu hx)
  rw [matchTail_append algs suffix hs ds B hB hhs hhsa hds hdsa] at this
  cases this

/-- An earlier reading captures the match: when a listed identifier B reads as a text with a
newline, the middle part and A, then on the name that ends with the middle part and B,
group 1 is not A. -/
theorem detectorSubmatch_early_capture (algs : List GoString)
    (suffix h1 d1 v h d A B : GoString) (hB : B ∈ algs)
    (hh1 : h1.length = 6) (hh1a : h1.all isLowerAlnum = true)
    (hd1 : d1.length = 8) (hd1a : d1.all isDigit = true)
    (hh : h.length = 6) (hd : d.length = 8) (hv : '\n' ∈ v)
    (heq : B = v ++ ['-'] ++ h ++ ['-'] ++ d ++ ['-'] ++ A) :
    detectorSubmatch algs suffix
      ((['-'] ++ h1 ++ ['-'] ++ d1 ++ ['-'] ++ v) ++ ['-'] ++ h ++ ['-'] ++ d ++ ['-'] ++ A
        ++ suffix) ≠ some A := by
  intro hres
  obtain ⟨p, m, t, hsplit, hm, hmt, _, hearly⟩ := detectorSubmatch_pick hres
  obtain ⟨_, h', d', hh', _, hd', _, ht⟩ := matchTail_eq_some hmt
  have hstr : (['-'] ++ h1 ++ ['-'] ++ d1 ++ ['-'] ++ v) ++ ['-'] ++ h ++ ['-'] ++ d ++ ['-']
      ++ A ++ suffix = ['-'] ++ h1 ++ ['-'] ++ d1 ++ ['-'] ++ B ++ suffix := by
    rw [heq]; simp [List.append_assoc]
  have hp : p = [] := by
    by_contra hne
    have := hearly [] [] (['-'] ++ h1 ++ ['-'] ++ d1 ++ ['-'] ++ B ++ suffix)
      (by rw [hstr]; rfl) (List.length_pos.2 hne) (List.not_mem_nil _)
    rw [matchTail_append algs suffix h1 d1 B hB hh1 hh1a hd1 hd1a] at this
    cases this
  subst hp
  rw [ht] at hsplit
  have hc : (['-'] ++ h1 ++ ['-'] ++ d1 ++ ['-'] ++ v) ++ (['-'] ++ h ++ ['-'] ++ d ++ ['-'])
      = m ++ (['-'] ++ h' ++ ['-'] ++ d' ++ ['-']) := by
    refine @List.append_cancel_right _ _ (A ++ suffix) _ ?_
    simpa [List.append_assoc] using hsplit
  have hl : (['-'] ++ h ++ ['-'] ++ d ++ ['-']).length
      = (['-'] ++ h' ++ ['-'] ++ d' ++ ['-']).length := by
    rw [hashDate_length h d hh hd, hashDate_length h' d' hh' hd']
  have hm2 := (List.append_inj' hc hl).1
  apply hm
  rw [← hm2]
  exact List.mem_append_right _ hv

/-- A separator in the base name: the base name is `/`. -/
theorem filepathBase_slash_only (p : GoString) (h : '/' ∈ filepathBase p) :
    filepathBase p = ['/'] := by
  unfold filepathBase at h ⊢
  by_cases hp : p = []
  · rw [if_pos hp] at h
    exact absurd h (by decide)
  · rw [if_neg hp] at h ⊢
    simp only at h ⊢
    split
    · rfl
    · rename_i hlast
      rw [if_neg hlast, List.mem_reverse] at h
      have := List.mem_takeWhile_imp h
      simp at this

/-- A non-empty result of `DetectFromPath` is part of the base name together with the
extension: neither holds a separator. -/
theorem DetectFromPath_result_no_slash (supported : List GoString) (ext path r : GoString)
    (hne : supported ≠ []) (hlit : ∀ a ∈ supported, isLiteralText a = true)
    (h : (CreateStandardDetector supported ext).DetectFromPath path = some (.ok r))
    (hr : r ≠ []) : '/' ∉ r ∧ '/' ∉ ext := by
  obtain ⟨r', hD, hcase⟩ := DetectFromPath_sound supported ext path hne hlit
  rw [h] at hD
  have hrr : r = r' := by
    injection hD with hD
    injection hD
  subst hrr
  rcases hcase with h0 | ⟨_, x, hash, date, hh, _, hd, _, hb⟩
  · exact absurd h0 hr
  · have hbase : '/' ∉ filepathBase path := by
      intro hs
      have h1 := filepathBase_slash_only path hs
      rcases hb with hb | hb
      · have := congrArg List.length hb
        rw [h1] at this
        simp only [List.length_append, List.length_cons, List.length_nil, hh, hd] at this
        omega
      · have := congrArg List.length hb
        rw [h1] at this
        simp only [List.length_append, List.length_cons, List.length_nil, hh, hd] at this
        omega
    constructor
    · intro hs
      apply hbase
      rcases hb with hb | hb <;> rw [hb] <;> simp [hs]
    · intro hs
      apply hbase
      rcases hb with hb | hb <;> rw [hb] <;> simp [hs]

/-- On a file name of the file form without a separator, the result of `DetectFromPath` is
group 1 of the file pattern. -/
theorem DetectFromPath_file_form (supported : List GoString) (ext n h d A : GoString)
    (hlit : ∀ a ∈ supported, isLiteralText a = true) (hA : A ∈ supported)
    (hh : h.length = 6) (hha : h.all isLowerAlnum = true)
    (hd : d.length = 8) (hda : d.all isDigit = true)
    (hn : '/' ∉ n) (hslash : '/' ∉ A) (hext : '/' ∉ ext) :
    ∃ m, detectorSubmatch supported ext
        (n ++ ['-'] ++ h ++ ['-'] ++ d ++ ['-'] ++ A ++ ext) = some m ∧
      (CreateStandardDetector supported ext).DetectFromPath
        (n ++ ['-'] ++ h ++ ['-'] ++ d ++ ['-'] ++ A ++ ext) = some (.ok m) := by
  have hne : supported ≠ [] := List.ne_nil_of_mem hA
  have hbase : filepathBase (n ++ ['-'] ++ h ++ ['-'] ++ d ++ ['-'] ++ A ++ ext)
      = n ++ ['-'] ++ h ++ ['-'] ++ d ++ ['-'] ++ A ++ ext := by
    have := filepathBase_append [] (n ++ ['-'] ++ h ++ ['-'] ++ d ++ ['-'] ++ A ++ ext)
      (by simp) (by
        intro hc
        have e : n ++ ['-'] ++ h ++ ['-'] ++ d ++ ['-'] ++ A ++ ext
            = n ++ (['-'] ++ h ++ ['-'] ++ d ++ ['-'] ++ A ++ ext) := by
          simp [List.append_assoc]
        rw [e] at hc
        rcases List.mem_append.1 hc with hc | hc
        · exact hn hc
        · exact middle_no_slash hha hda hslash hext hc)
    simpa using this
  have hz : detectorSubmatch supported (dotZip ++ ext)
      (filepathBase (n ++ ['-'] ++ h ++ ['-'] ++ d ++ ['-'] ++ A ++ ext)) = none := by
    cases hzm : detectorSubmatch supported (dotZip ++ ext)
      (filepathBase (n ++ ['-'] ++ h ++ ['-'] ++ d ++ ['-'] ++ A ++ ext)) with
    | none => rfl
    | some m =>
      exfalso
      obtain ⟨_, x, h', d', _, _, _, _, hs⟩ := detectorSubmatch_eq_some hzm
      rw [hbase] at hs
      have hs2 : n ++ ['-'] ++ h ++ ['-'] ++ d ++ ['-'] ++ A
          = (x ++ ['-'] ++ h' ++ ['-'] ++ d' ++ ['-'] ++ m) ++ dotZip := by
        refine @List.append_cancel_right _ _ ext _ ?_
        rw [hs]; simp [List.append_assoc]
      exact not_ends_zip hh hha hd hda (not_mem_of_isLiteralText (hlit A hA) (by decide)) hs2
  cases hfm : detectorSubmatch supported ext
      (n ++ ['-'] ++ h ++ ['-'] ++ d ++ ['-'] ++ A ++ ext) with
  | none => exact absurd hfm (detectorSubmatch_ne_none supported ext n h d A hA hh hha hd hda)
  | some m =>
    refine ⟨m, rfl, ?_⟩
    have hmem := (detectorSubmatch_eq_some hfm).1
    have hsup : (CreateStandardDetector supported ext).IsSupported m = true :=
      IsSupported_of_mem hmem
    rw [← hbase] at hfm
    rw [DetectFromPath_file hne hlit (Or.inl hz) hfm]
    simp only [hsup, Bool.and_true]
    by_cases hm0 : m = []
    · simp [hm0]
    · simp [hm0]

/-- C18 as amended: positive detection, with the exact condition.  Let no supported
identifier hold a character that is special in a regular expression and let A be one of
them.  Then `DetectFromPath` returns A on `<name>-<hash>-<date>-A<ext>` and on
`<name>-<hash>-<date>-A.zip<ext>` for every name, every hash of six characters of `[a-z0-9]`
and every date of eight digits if and only if A holds no `/` and either the extension holds
a `/` and A is empty, or the extension holds no `/` and neither of two readings exists:
`-A` as a text without a newline, a middle part `-<hash>-<date>-` and a supported
identifier B; a supported identifier B as a text with a newline and without `/`, a middle
part and A. -/
theorem C18_detector_positive (supported : List GoString) (ext A : GoString)
    (hlit : ∀ a ∈ supported, isLiteralText a = true) (hA : A ∈ supported) :
    (∀ name hash date : GoString, hash.length = 6 → hash.all isLowerAlnum = true →
        date.length = 8 → date.all isDigit = true →
        (CreateStandardDetector supported ext).DetectFromPath
            (name ++ ['-'] ++ hash ++ ['-'] ++ date ++ ['-'] ++ A ++ ext) = some (.ok A) ∧
        (CreateStandardDetector supported ext).DetectFromPath
            (name ++ ['-'] ++ hash ++ ['-'] ++ date ++ ['-'] ++ A ++ dotZip ++ ext)
          = some (.ok A)) ↔
    ('/' ∉ A ∧
      (('/' ∈ ext ∧ A = []) ∨
        ('/' ∉ ext ∧
          (∀ u hs ds B : GoString, B ∈ supported →
            hs.length = 6 → hs.all isLowerAlnum = true →
            ds.length = 8 → ds.all isDigit = true → '\n' ∉ u →
            ['-'] ++ A ≠ u ++ ['-'] ++ hs ++ ['-'] ++ ds ++ ['-'] ++ B) ∧
          (∀ v hs ds B : GoString, B ∈ supported →
            hs.length = 6 → hs.all isLowerAlnum = true →
            ds.length = 8 → ds.all isDigit = true → '\n' ∈ v → '/' ∉ v →
            B ≠ v ++ ['-'] ++ hs ++ ['-'] ++ ds ++ ['-'] ++ A)))) := by
  have hne : supported ≠ [] := List.ne_nil_of_mem hA
  constructor
  · -- detection on every name forces the condition
    intro H
    have h0 := (H [] "aaaaaa".toList "00000000".toList
      (by decide) (by decide) (by decide) (by decide)).1
    have hsA : '/' ∉ A := by
      intro hs
      exact (DetectFromPath_result_no_slash supported ext _ A hne hlit h0
        (List.ne_nil_of_mem hs)).1 hs
    refine ⟨hsA, ?_⟩
    by_cases hse : '/' ∈ ext
    · left
      refine ⟨hse, ?_⟩
      by_contra hA0
      exact (DetectFromPath_result_no_slash supported ext _ A hne hlit h0 hA0).2 hse
    · right
      refine ⟨hse, ?_, ?_⟩
      · intro u hs ds B hB h1 h2 h3 h4 hu heq
        obtain ⟨m, hm1, hm2⟩ := DetectFromPath_file_form supported ext []
          "aaaaaa".toList "00000000".toList A hlit hA
          (by decide) (by decide) (by decide) (by decide) (List.not_mem_nil _) hsA hse
        rw [h0] at hm2
        have hmA : A = m := by
          injection hm2 with hm2
          injection hm2
        rw [← hmA] at hm1
        exact detectorSubmatch_late_capture supported ext _ A u hs ds B hB h1 h2 h3 h4 hu heq
          hm1
      · intro v hs ds B hB h1 h2 h3 h4 hv hvs heq
        have hn : '/' ∉ ['-'] ++ "aaaaaa".toList ++ ['-'] ++ "00000000".toList ++ ['-'] ++ v := by
          intro hc
          rcases List.mem_append.1 hc with hc | hc
          · exact absurd hc (by decide)
          · exact hvs hc
        have h1' := (H (['-'] ++ "aaaaaa".toList ++ ['-'] ++ "00000000".toList ++ ['-'] ++ v)
          hs ds h1 h2 h3 h4).1
        obtain ⟨m, hm1, hm2⟩ := DetectFromPath_file_form supported ext
          (['-'] ++ "aaaaaa".toList ++ ['-'] ++ "00000000".toList ++ ['-'] ++ v)
          hs ds A hlit hA h1 h2 h3 h4 hn hsA hse
        rw [h1'] at hm2
        have hmA : A = m := by
          injection hm2 with hm2
          injection hm2
        rw [← hmA] at hm1
        exact detectorSubmatch_early_capture supported ext "aaaaaa".toList "00000000".toList
          v hs ds A B hB (by decide) (by decide) (by decide) (by decide) h1 h3 hv heq hm1
  · -- the condition is enough
    rintro ⟨hslash, hcond⟩ name hash date hh hha hd hda
    rcases hcond with ⟨hse, hA0⟩ | ⟨hext, hL, hE⟩
    · -- no base name ends with the extension
      have key : ∀ path : GoString,
          (CreateStandardDetector supported ext).DetectFromPath path = some (.ok []) := by
        intro path
        obtain ⟨r, hD, _⟩ := DetectFromPath_sound supported ext path hne hlit
        by_cases hr : r = []
        · rw [hD, hr]
        · exact absurd hse (DetectFromPath_result_no_slash supported ext path r hne hlit hD hr).2
      rw [hA0]
      exact ⟨key _, key _⟩
    · have hdot : ∀ a ∈ supported, '.' ∉ a := fun a ha =>
        not_mem_of_isLiteralText (hlit a ha) (by decide)
      have hsup : (CreateStandardDetector supported ext).IsSupported A = true :=
        IsSupported_of_mem hA
      generalize hn : (name.reverse.takeWhile (fun c => c != '/')).reverse = n'
      have hn' : '/' ∉ n' := by
        rw [← hn, List.mem_reverse]
        intro hc
        have := List.mem_takeWhile_imp hc
        simp at this
      constructor
      · -- the file form
        have hbase : filepathBase (name ++ ['-'] ++ hash ++ ['-'] ++ date ++ ['-'] ++ A ++ ext)
            = n' ++ ['-'] ++ hash ++ ['-'] ++ date ++ ['-'] ++ A ++ ext := by
          have := filepathBase_append name (['-'] ++ hash ++ ['-'] ++ date ++ ['-'] ++ A ++ ext)
            (by simp) (middle_no_slash hha hda hslash hext)
          rw [hn] at this
          simpa [List.append_assoc] using this
        have hz : detectorSubmatch supported (dotZip ++ ext)
            (filepathBase (name ++ ['-'] ++ hash ++ ['-'] ++ date ++ ['-'] ++ A ++ ext))
            = none := by
          cases hzm : detectorSubmatch supported (dotZip ++ ext)
            (filepathBase (name ++ ['-'] ++ hash ++ ['-'] ++ date ++ ['-'] ++ A ++ ext)) with
          | none => rfl
          | some m =>
            exfalso
            obtain ⟨_, x, h', d', _, _, _, _, hs⟩ := detectorSubmatch_eq_some hzm
            rw [hbase] at hs
            have hs2 : n' ++ ['-'] ++ hash ++ ['-'] ++ date ++ ['-'] ++ A
                = (x ++ ['-'] ++ h' ++ ['-'] ++ d' ++ ['-'] ++ m) ++ dotZip := by
              refine @List.append_cancel_right _ _ ext _ ?_
              rw [hs]; simp [List.append_assoc]
            exact not_ends_zip hh hha hd hda (hdot A hA) hs2
        have hf : detectorSubmatch supported ext
            (filepathBase (name ++ ['-'] ++ hash ++ ['-'] ++ date ++ ['-'] ++ A ++ ext))
            = some A := by
          rw [hbase]
          exact detectorSubmatch_exact supported ext n' hash date A hA hh hha hd hda hn' hL hE
        rw [DetectFromPath_file hne hlit (Or.inl hz) hf]
        simp only [hsup, Bool.and_true]
        by_cases hA0 : A = []
        · simp [hA0]
        · simp [hA0]
      · -- the directory form
        have hbase : filepathBase
            (name ++ ['-'] ++ hash ++ ['-'] ++ date ++ ['-'] ++ A ++ dotZip ++ ext)
            = n' ++ ['-'] ++ hash ++ ['-'] ++ date ++ ['-'] ++ A ++ (dotZip ++ ext) := by
          have := filepathBase_append name
            (['-'] ++ hash ++ ['-'] ++ date ++ ['-'] ++ A ++ (dotZip ++ ext))
            (by simp) (middle_no_slash hha hda hslash (by
              intro hc
              rcases List.mem_append.1 hc with hc | hc
              · exact absurd hc (by decide)
              · exact hext hc))
          rw [hn] at this
          simpa [List.append_assoc] using this
        have hz : detectorSubmatch supported (dotZip ++ ext) (filepathBase
            (name ++ ['-'] ++ hash ++ ['-'] ++ date ++ ['-'] ++ A ++ dotZip ++ ext))
            = some A := by
          rw [hbase]
          exact detectorSubmatch_exact supported (dotZip ++ ext) n' hash date A hA
            hh hha hd hda hn' hL hE
        by_cases hA0 : A = []
        · have hf : detectorSubmatch supported ext (filepathBase
              (name ++ ['-'] ++ hash ++ ['-'] ++ date ++ ['-'] ++ A ++ dotZip ++ ext))
              = none := by
            cases hfm : detectorSubmatch supported ext (filepathBase
              (name ++ ['-'] ++ hash ++ ['-'] ++ date ++ ['-'] ++ A ++ dotZip ++ ext)) with
            | none => rfl
            | some m =>
              exfalso
              obtain ⟨hm, x, h', d', hh', hha', hd', hda', hs⟩ := detectorSubmatch_eq_some hfm
              rw [hbase] at hs
              have hs2 : x ++ ['-'] ++ h' ++ ['-'] ++ d' ++ ['-'] ++ m
                  = (n' ++ ['-'] ++ hash ++ ['-'] ++ date ++ ['-'] ++ A) ++ dotZip := by
                refine @List.append_cancel_right _ _ ext _ ?_
                rw [← hs]; simp [List.append_assoc]
              exact not_ends_zip hh' hha' hd' hda' (hdot m hm) hs2
          rw [DetectFromPath_file hne hlit (Or.inr (by rw [hz, hA0])) hf]
          simp only [hA0]
        · exact DetectFromPath_zip_hit hlit hz hA0 hA

theorem C18_detector_positive_witness :
    (CreateStandardDetector ["rsa".toList, "aes-256".toList] ".enc".toList).DetectFromPath
        "docs/n-abcdef-20250915-aes-256.enc".toList = some (.ok "aes-256".toList) ∧
    (CreateStandardDetector ["rsa".toList, "aes-256".toList] ".enc".toList).DetectFromPath
        "docs/n-abcdef-20250915-aes-256.zip.enc".toList = some (.ok "aes-256".toList) :=
  (C18_detector_positive ["rsa".toList, "aes-256".toList] ".enc".toList "aes-256".toList
      (by decide) (by decide)).2
    ⟨by decide, Or.inr ⟨by decide,
      (by
        intro u hs ds B _ h1 _ h2 _ _ heq
        have hl := congrArg List.length heq
        have h7 : (['-'] ++ "aes-256".toList).length = 8 := rfl
        rw [h7] at hl
        simp only [List.length_append, List.length_cons, List.length_nil, h1, h2] at hl
        omega),
      (by
        intro v hs ds B hB h1 _ h2 _ _ _ heq
        have hl := congrArg List.length heq
        simp only [List.length_append, List.length_cons, List.length_nil, h1, h2] at hl
        have hB2 : B.length ≤ 7 := by
          simp only [List.mem_cons, List.mem_singleton, List.not_mem_nil, or_false] at hB
          rcases hB with rfl | rfl
          · decide
          · decide
        omega)⟩⟩
    "docs/n".toList "abcdef".toList "20250915".toList
    (by decide) (by decide) (by decide) (by decide)

/-- C18 fails as stated.  (1) With the supported identifiers `a` and `b-abcdef-20250915-a`
the file name `n-abcdef-20250915-b-abcdef-20250915-a.enc` has the form for both of them and
`DetectFromPath` returns `a`.  (2) With the extension `/e` the base name of
`n-abcdef-20250915-rsa/e` is `e` and the result is empty.  (3) With the supported
identifier `a/b` the base name of `n-abcdef-20250915-a/b.enc` is `b.enc` and the result is
empty.  (4) With the supported identifiers `a` and `b`, newline, `-abcdef-20250915-a`, and
the name `n-abcdef-20250915-b`, newline, the file name of `a` is detected as the other
identifier. -/
theorem C18_counterexample :
    ("b-abcdef-20250915-a".toList ∈ ["a".toList, "b-abcdef-20250915-a".toList] ∧
      (CreateStandardDetector ["a".toList, "b-abcdef-20250915-a".toList]
          ".enc".toList).DetectFromPath
        ("n".toList ++ ['-'] ++ "abcdef".toList ++ ['-'] ++ "20250915".toList ++ ['-']
          ++ "b-abcdef-20250915-a".toList ++ ".enc".toList) = some (.ok "a".toList)) ∧
    ((CreateStandardDetector ["rsa".toList] "/e".toList).DetectFromPath
        ("n".toList ++ ['-'] ++ "abcdef".toList ++ ['-'] ++ "20250915".toList ++ ['-']
          ++ "rsa".toList ++ "/e".toList) = some (.ok [])) ∧
    ((CreateStandardDetector ["a/b".toList] ".enc".toList).DetectFromPath
        ("n".toList ++ ['-'] ++ "abcdef".toList ++ ['-'] ++ "20250915".toList ++ ['-']
          ++ "a/b".toList ++ ".enc".toList) = some (.ok [])) ∧
    ("a".toList ∈ ["a".toList, "b\n-abcdef-20250915-a".toList] ∧
      (CreateStandardDetector ["a".toList, "b\n-abcdef-20250915-a".toList]
          ".enc".toList).DetectFromPath
        ("n-abcdef-20250915-b\n".toList ++ ['-'] ++ "abcdef".toList ++ ['-']
          ++ "20250915".toList ++ ['-'] ++ "a".toList ++ ".enc".toList)
        = some (.ok "b\n-abcdef-20250915-a".toList)) := by
  decide

/-- The names of the detector tests that must not be detected: a name without the middle
part, the old format, an unsupported identifier, and a `kmac` file on a detector that
supports `rsa` only. -/
theorem DetectFromPath_undetected_examples :
    (CreateStandardDetector [nameRSA, nameKMAC] ".encrypted".toList).DetectFromPath
        "document.txt".toList = some (.ok []) ∧
    (CreateStandardDetector [nameRSA, nameKMAC] ".encrypted".toList).DetectFromPath
        "document-rsa.encrypted".toList = some (.ok []) ∧
    (CreateStandardDetector [nameRSA, nameKMAC, "aes".toList, "chacha20".toList]
        ".encrypted".toList).DetectFromPath
        "file-ghijkl-20250915-unknown.encrypted".toList = some (.ok []) ∧
    (CreateStandardDetector [nameRSA] ".encrypted".toList).DetectFromPath
        "file-abc123-20250915-kmac.encrypted".toList = some (.ok []) := by
  decide

/-- C19 fails on the code.  A detector created with the single supported identifier `(` and
the extension `.encrypted` has a non-empty supported list.  The identifier is pasted into
the pattern unquoted, the pattern has an unclosed group, `regexp.MustCompile` panics, and
`DetectFromPath` on `document.txt` returns neither the empty string nor a member of the
list. -/
theorem C19_detector_panics :
    (CreateStandardDetector ["(".toList] ".encrypted".toList).supportedAlgorithms ≠ [] ∧
    (CreateStandardDetector ["(".toList] ".encrypted".toList).DetectFromPath
        "document.txt".toList = some .panic := by
  decide

/-! ## Claims on error propagation -/

theorem code_EncryptionFailed (method : String) (e : GoError) :
    (EncryptionFailed method e).code? = some ErrorCode.ErrEncryptionFailed ∧
    (EncryptionFailed method e).Unwrap = e := ⟨rfl, rfl⟩

theorem code_DecryptionFailed (method : String) (e : GoError) :
    (DecryptionFailed method e).code? = some ErrorCode.ErrDecryptionFailed ∧
    (DecryptionFailed method e).Unwrap = e := ⟨rfl, rfl⟩

/-- C21 as amended: error propagation.  When the service chosen for the algorithm returns an
error `e` from `EncryptData` (`DecryptData`), `Encrypt` (`Decrypt`) returns
`EncryptionFailed(method, e)` (`DecryptionFailed(method, e)`): its code is
`ENCRYPTION_FAILED` (`DECRYPTION_FAILED`), its cause is `e` unchanged, the source was read
once and nothing was written.  In particular, decrypting with an RSA service that has no
private key fails with `DecryptionFailed("rsa", KeyNotFound("private", path))`. -/
theorem C21_error_wrapping (p : UnifiedProcessor) (env : CryptoEnv) (elapsed : Int)
    (source : DataSource) (sink : DataSink) (opts : CryptoOptions) (reader : Reader)
    (hread : source.Read = .ok reader) :
    (∀ svc e, p.getCryptoService opts.Method = .ok svc →
      svc.EncryptData env reader = .err e →
      p.Encrypt env elapsed source sink opts
          = (.err (EncryptionFailed (String.mk opts.Method) e), [.sourceRead]) ∧
        (EncryptionFailed (String.mk opts.Method) e).code?
          = some ErrorCode.ErrEncryptionFailed ∧
        (EncryptionFailed (String.mk opts.Method) e).Unwrap = e) ∧
    (∀ svc e, opts.Method ≠ [] → p.getCryptoService opts.Method = .ok svc →
      svc.DecryptData env reader = .err e →
      p.Decrypt env elapsed source sink opts
          = (.err (DecryptionFailed (String.mk opts.Method) e), [.sourceRead]) ∧
        (DecryptionFailed (String.mk opts.Method) e).code?
          = some ErrorCode.ErrDecryptionFailed ∧
        (DecryptionFailed (String.mk opts.Method) e).Unwrap = e) ∧
    (∀ r, opts.Method = nameRSA → p.rsaService = some r → r.privateKey = none →
      p.Decrypt env elapsed source sink opts
          = (.err (DecryptionFailed "rsa" (KeyNotFound "private" r.config.PrivateKeyPath)),
              [.sourceRead]) ∧
        (KeyNotFound "private" r.config.PrivateKeyPath).code?
          = some ErrorCode.ErrKeyNotFound) := by
  refine ⟨?_, ?_, ?_⟩
  · intro svc e hsvc hfail
    refine ⟨?_, rfl, rfl⟩
    simp only [UnifiedProcessor.Encrypt, hsvc, hread, hfail]
  · intro svc e hm hsvc hfail
    refine ⟨?_, rfl, rfl⟩
    simp only [UnifiedProcessor.Decrypt, hm, if_false, hsvc, hread, hfail]
  · intro r hm hr hk
    refine ⟨?_, rfl⟩
    have hne : nameRSA ≠ [] := by decide
    have hsvc : p.getCryptoService nameRSA = .ok (.rsa r) := by
      simp only [UnifiedProcessor.getCryptoService, if_true, hr]
    have hfail : (CryptoService.rsa r).DecryptData env reader
        = .err (KeyNotFound "private" r.config.PrivateKeyPath) := by
      simp only [CryptoService.DecryptData, RSAServiceInterface.DecryptData, hk]
    simp only [UnifiedProcessor.Decrypt, hm, hne, if_false, hsvc, hread, hfail]
    rfl

/-- Witness of C21: the processor whose RSA service has no private key, asked to decrypt a
readable source with the algorithm "rsa". -/
theorem C21_error_wrapping_witness :
    publicOnlyProcessor.Decrypt modelEnv 0
        (fileSourceNamed "a-abcdef-20250101-rsa.hycrypt".toList [1, 2, 3])
        (modelSink "out".toList) (optionsFor nameRSA)
      = (.err (DecryptionFailed "rsa" (KeyNotFound "private" "private.pem")),
          [.sourceRead]) :=
  ((C21_error_wrapping publicOnlyProcessor modelEnv 0
      (fileSourceNamed "a-abcdef-20250101-rsa.hycrypt".toList [1, 2, 3])
      (modelSink "out".toList) (optionsFor nameRSA) (.ok [1, 2, 3]) rfl).2.2
    (publicOnlyRSAService 256) rfl rfl rfl).1

/-- C21 fails as stated: the RSA service without a private key returns the error
`KeyNotFound` (code `KEY_NOT_FOUND`, message "private key not found"), and `Decrypt`
returns to its caller an error with the code `DECRYPTION_FAILED` and the message
"decryption with rsa failed", whose cause is the service's error. -/
theorem C21_counterexample :
    (CryptoService.rsa (publicOnlyRSAService 256)).DecryptData modelEnv (.ok [1, 2, 3])
      = .err (KeyNotFound "private" "private.pem") ∧
    (KeyNotFound "private" "private.pem").code? = some ErrorCode.ErrKeyNotFound ∧
    (KeyNotFound "private" "private.pem").message? = some "private key not found" ∧
    (∃ e, (publicOnlyProcessor.Decrypt modelEnv 0
          (fileSourceNamed "a-abcdef-20250101-rsa.hycrypt".toList [1, 2, 3])
          (modelSink "out".toList) (optionsFor nameRSA)).1 = .err e ∧
      e ≠ KeyNotFound "private" "private.pem" ∧
      e.code? = some ErrorCode.ErrDecryptionFailed ∧
      e.message? = some "decryption with rsa failed" ∧
      e.Unwrap = KeyNotFound "private" "private.pem") := by
  refine ⟨rfl, rfl, rfl, DecryptionFailed "rsa" (KeyNotFound "private" "private.pem"),
    rfl, ?_, rfl, rfl, rfl⟩
  decide

/-! ## Claims on the totality of RSA decryption -/

/-- C27 fails on the code, for every RSA service with a private key loaded and every AES-GCM:
the 7-byte blob `00 00 00 05 01 02 03` is classified as a hybrid envelope with the length
field 5, its key field `blob[4 : 9]` does not lie inside the blob (4 + 5 = 9 > 7), and
`DecryptData` returns neither a plaintext nor an error: the slice expression panics. -/
theorem C27_decrypt_panics (r : RSAServiceInterface) (priv : PrivateKey) (gcm : GCM)
    (hpriv : r.privateKey = some priv) :
    isHybridEncrypted [0, 0, 0, 5, 1, 2, 3] = true ∧
    bigEndianUint32 [0, 0, 0, 5, 1, 2, 3] = 5 ∧
    ¬ (4 + bigEndianUint32 [0, 0, 0, 5, 1, 2, 3] ≤ ([0, 0, 0, 5, 1, 2, 3] : Bytes).length) ∧
    r.DecryptData gcm (.ok [0, 0, 0, 5, 1, 2, 3]) = .panic := by
  have hk : bigEndianUint32 [0, 0, 0, 5, 1, 2, 3] = 5 := by decide
  have hhyb : isHybridEncrypted [0, 0, 0, 5, 1, 2, 3] = true := by decide
  refine ⟨hhyb, hk, ?_, ?_⟩
  · rw [hk]; decide
  · apply DecryptData_panic gcm hpriv hhyb
    rw [hk]; decide

/-- Witness of C27's failing input: the model service with a 256-byte key pair. -/
theorem C27_decrypt_panics_witness :
    (modelRSAService 256).DecryptData modelGCM (.ok [0, 0, 0, 5, 1, 2, 3]) = .panic :=
  (C27_decrypt_panics (modelRSAService 256) (modelPrivateKey 256) modelGCM rfl).2.2.2

/-! ## Claims on the agreement of the two file name classifiers -/

theorem filepathBase_of_no_slash {f : GoString} (hne : f ≠ []) (hs : '/' ∉ f) :
    filepathBase f = f := by
  have := filepathBase_append [] f hne hs
  simpa using this

theorem rsa_kmac_literal : ∀ a ∈ [nameRSA, nameKMAC], isLiteralText a = true := by decide

theorem rsa_kmac_no_newline : ∀ a ∈ [nameRSA, nameKMAC], '\n' ∉ a := by decide

theorem rsa_kmac_mem {m : GoString} (hm : m = nameRSA ∨ m = nameKMAC) :
    m ∈ [nameRSA, nameKMAC] := by
  rcases hm with rfl | rfl <;> simp

theorem rsa_kmac_plain {m : GoString} (hm : m = nameRSA ∨ m = nameKMAC) :
    m ≠ [] ∧ '-' ∉ m ∧ '.' ∉ m ∧ '/' ∉ m := by
  rcases hm with rfl | rfl <;> decide

/-- The detector for `rsa` and `kmac` recognises every base name that ends with the middle
part, one of the two identifiers and the extension, with or without `.zip`, whatever stands
before the middle part. -/
theorem DetectFromPath_rsa_kmac (ext f x h d m z : GoString)
    (hf : f = x ++ ['-'] ++ h ++ ['-'] ++ d ++ ['-'] ++ m ++ z ++ ext)
    (hz : z = [] ∨ z = dotZip) (hslash : '/' ∉ f) (hm : m = nameRSA ∨ m = nameKMAC)
    (hh : h.length = 6) (hha : h.all isLowerAlnum = true)
    (hd : d.length = 8) (hda : d.all isDigit = true) :
    (CreateStandardDetector [nameRSA, nameKMAC] ext).DetectFromPath f = some (.ok m) := by
  obtain ⟨hm0, hmdash, hmdot, _⟩ := rsa_kmac_plain hm
  have hmem := rsa_kmac_mem hm
  have hfne : f ≠ [] := by
    rw [hf]; simp
  have hbase := filepathBase_of_no_slash hfne hslash
  rcases hz with rfl | rfl
  · -- the file form
    have hf2 : f = x ++ ['-'] ++ h ++ ['-'] ++ d ++ ['-'] ++ m ++ ext := by
      rw [hf]; simp
    have hzm : detectorSubmatch [nameRSA, nameKMAC] (dotZip ++ ext) (filepathBase f) = none := by
      cases hzm : detectorSubmatch [nameRSA, nameKMAC] (dotZip ++ ext) (filepathBase f) with
      | none => rfl
      | some a =>
        exfalso
        obtain ⟨_, y, h', d', _, _, _, _, hs⟩ := detectorSubmatch_eq_some hzm
        rw [hbase, hf2] at hs
        have hs2 : x ++ ['-'] ++ h ++ ['-'] ++ d ++ ['-'] ++ m
            = (y ++ ['-'] ++ h' ++ ['-'] ++ d' ++ ['-'] ++ a) ++ dotZip := by
          refine @List.append_cancel_right _ _ ext _ ?_
          rw [hs]; simp [List.append_assoc]
        exact not_ends_zip hh hha hd hda hmdot hs2
    have hfm : detectorSubmatch [nameRSA, nameKMAC] ext (filepathBase f) = some m := by
      rw [hbase, hf2]
      exact detectorSubmatch_append _ ext x h d m hmem hmdash rsa_kmac_no_newline hh hha hd hda
    rw [DetectFromPath_file (by simp) rsa_kmac_literal (Or.inl hzm) hfm]
    have hsup : (CreateStandardDetector [nameRSA, nameKMAC] ext).IsSupported m = true :=
      IsSupported_of_mem hmem
    simp [hsup, hm0]
  · -- the directory form
    have hzm : detectorSubmatch [nameRSA, nameKMAC] (dotZip ++ ext) (filepathBase f)
        = some m := by
      rw [hbase, hf]
      have := detectorSubmatch_append [nameRSA, nameKMAC] (dotZip ++ ext) x h d m hmem hmdash
        rsa_kmac_no_newline hh hha hd hda
      simpa [List.append_assoc] using this
    exact DetectFromPath_zip_hit rsa_kmac_literal hzm hm0 hmem

/-- A text that ends with `rsa` does not end with `kmac`. -/
theorem rsa_ne_kmac_suffix (a b : GoString) : a ++ nameRSA ≠ b ++ nameKMAC := by
  intro h
  have := congrArg List.getLast? h
  simp [nameRSA, nameKMAC, List.getLast?_append] at this

/-- A name of the encrypted form has one reading only: the part before the middle part, the
identifier and the presence of `.zip` are determined. -/
theorem encrypted_form_unique {x n h d h' d' m m' z z' e : GoString}
    (hm : m = nameRSA ∨ m = nameKMAC) (hm' : m' = nameRSA ∨ m' = nameKMAC)
    (hz : z = [] ∨ z = dotZip) (hz' : z' = [] ∨ z' = dotZip)
    (hh : h.length = 6) (hha : h.all isLowerAlnum = true)
    (hd : d.length = 8) (hda : d.all isDigit = true)
    (hh' : h'.length = 6) (hha' : h'.all isLowerAlnum = true)
    (hd' : d'.length = 8) (hda' : d'.all isDigit = true)
    (heq : x ++ ['-'] ++ h ++ ['-'] ++ d ++ ['-'] ++ m ++ z ++ e
      = n ++ ['-'] ++ h' ++ ['-'] ++ d' ++ ['-'] ++ m' ++ z' ++ e) :
    x = n ∧ m = m' := by
  have h1 : x ++ ['-'] ++ h ++ ['-'] ++ d ++ ['-'] ++ m ++ z
      = n ++ ['-'] ++ h' ++ ['-'] ++ d' ++ ['-'] ++ m' ++ z' :=
    List.append_cancel_right heq
  have h2 : x ++ ['-'] ++ h ++ ['-'] ++ d ++ ['-'] ++ m
      = n ++ ['-'] ++ h' ++ ['-'] ++ d' ++ ['-'] ++ m' := by
    rcases hz with rfl | rfl <;> rcases hz' with rfl | rfl
    · simpa using h1
    · exfalso
      rw [List.append_nil] at h1
      exact not_ends_zip hh hha hd hda (rsa_kmac_plain hm).2.2.1 h1
    · exfalso
      rw [List.append_nil] at h1
      exact not_ends_zip hh' hha' hd' hda' (rsa_kmac_plain hm').2.2.1 h1.symm
    · exact List.append_cancel_right h1
  have hmm : m = m' := by
    rcases hm with rfl | rfl <;> rcases hm' with rfl | rfl
    · rfl
    · exact absurd h2 (rsa_ne_kmac_suffix _ _)
    · exact absurd h2.symm (rsa_ne_kmac_suffix _ _)
    · rfl
  subst hmm
  have h3 : x ++ (['-'] ++ h ++ ['-'] ++ d ++ ['-'])
      = n ++ (['-'] ++ h' ++ ['-'] ++ d' ++ ['-']) := by
    refine @List.append_cancel_right _ _ m _ ?_
    rw [← List.append_assoc, ← List.append_assoc]
    simpa [List.append_assoc] using h2
  have hl : (['-'] ++ h ++ ['-'] ++ d ++ ['-']).length
      = (['-'] ++ h' ++ ['-'] ++ d' ++ ['-']).length := by
    rw [hashDate_length h d hh hd, hashDate_length h' d' hh' hd']
  exact ⟨(List.append_inj' h3 hl).1, rfl⟩

/-- A method returned by `ParseEncryptedName` comes from a name of the encrypted form whose
first part is not empty and holds no newline. -/
theorem ParseEncryptedName_method_form (s : DefaultStrategyInterface) (f : GoString)
    (hm : (s.ParseEncryptedName f).2.1 ≠ []) :
    ∃ n h d z, n ≠ [] ∧ n.all (fun c => c != '\n') = true ∧
      h.length = 6 ∧ h.all isLowerAlnum = true ∧ d.length = 8 ∧ d.all isDigit = true ∧
      ((s.ParseEncryptedName f).2.1 = nameRSA ∨ (s.ParseEncryptedName f).2.1 = nameKMAC) ∧
      (z = [] ∨ z = dotZip) ∧
      f = n ++ ['-'] ++ h ++ ['-'] ++ d ++ ['-'] ++ (s.ParseEncryptedName f).2.1 ++ z
        ++ s.extension := by
  by_cases hsuf : stringsHasSuffix f s.extension = true
  · by_cases hdir : stringsHasSuffix f (dotZip ++ s.extension) = true
    · obtain ⟨p, hp⟩ := stringsHasSuffix_eq_true hdir
      have htrim : stringsTrimSuffix f (dotZip ++ s.extension) = p := by
        rw [hp]; exact stringsTrimSuffix_append p _
      cases hfs : findStringSubmatch p with
      | none =>
        exfalso; apply hm
        simp [DefaultStrategyInterface.ParseEncryptedName, hsuf, hdir, htrim, hfs]
      | some r =>
        obtain ⟨n, h, d, m⟩ := r
        have hmeth : (s.ParseEncryptedName f).2.1 = m := by
          simp only [DefaultStrategyInterface.ParseEncryptedName, hsuf, hdir, htrim, hfs,
            Bool.not_true, Bool.false_eq_true, if_false, if_true]
          split <;> rfl
        obtain ⟨hmm, hstem, hn, hh, hha, hd, hda, hnl⟩ := findStringSubmatch_eq_some hfs
        refine ⟨n, h, d, dotZip, hn, hnl, hh, hha, hd, hda, ?_, Or.inr rfl, ?_⟩
        · rw [hmeth]; exact hmm
        · rw [hmeth]
          conv_lhs => rw [hp, hstem]
          simp [List.append_assoc]
    · obtain ⟨p, hp⟩ := stringsHasSuffix_eq_true hsuf
      have htrim : stringsTrimSuffix f s.extension = p := by
        rw [hp]; exact stringsTrimSuffix_append p _
      cases hfs : findStringSubmatch p with
      | none =>
        exfalso; apply hm
        simp [DefaultStrategyInterface.ParseEncryptedName, hsuf, hdir, htrim, hfs]
      | some r =>
        obtain ⟨n, h, d, m⟩ := r
        have hmeth : (s.ParseEncryptedName f).2.1 = m := by
          simp only [DefaultStrategyInterface.ParseEncryptedName, hsuf, hdir, htrim, hfs,
            Bool.not_true, Bool.false_eq_true, if_false]
          split <;> rfl
        obtain ⟨hmm, hstem, hn, hh, hha, hd, hda, hnl⟩ := findStringSubmatch_eq_some hfs
        refine ⟨n, h, d, [], hn, hnl, hh, hha, hd, hda, ?_, Or.inl rfl, ?_⟩
        · rw [hmeth]; exact hmm
        · rw [hmeth]
          conv_lhs => rw [hp, hstem]
          simp [List.append_assoc]
  · exfalso; apply hm
    simp [DefaultStrategyInterface.ParseEncryptedName, hsuf]

/-- `ParseEncryptedName` returns the identifier of a name of the encrypted form whose first
part is not empty and holds no newline. -/
theorem ParseEncryptedName_method (s : DefaultStrategyInterface) (n h d m z : GoString)
    (hm : m = nameRSA ∨ m = nameKMAC) (hz : z = [] ∨ z = dotZip) (hne : n ≠ [])
    (hnl : n.all (fun c => c != '\n') = true)
    (hh : h.length = 6) (hha : h.all isLowerAlnum = true)
    (hd : d.length = 8) (hda : d.all isDigit = true) :
    (s.ParseEncryptedName
      (n ++ ['-'] ++ h ++ ['-'] ++ d ++ ['-'] ++ m ++ z ++ s.extension)).2.1 = m := by
  rcases hz with rfl | rfl
  · have := ParseEncryptedName_file s m n h d hm hne hnl hh hha hd hda
    simp only [sprintfName] at this
    rw [List.append_nil, this]
  · rw [ParseEncryptedName_directory s m n h d hm hne hnl hh hha hd hda]

/-- C28 as amended: the two classifiers agree on a base file name exactly when it is not of
the form `x-<hash6>-<date8>-<rsa|kmac>.hycrypt` or `x-<hash6>-<date8>-<rsa|kmac>.zip.hycrypt`
with `x` empty or holding a newline.  (On a name of that form the detector returns the
identifier and `ParseEncryptedName` returns the empty method.) -/
theorem C28_classifiers_agree (f : GoString) (hslash : '/' ∉ f) :
    ((CreateStandardDetector [nameRSA, nameKMAC] ".hycrypt".toList).DetectFromPath f
        = some (.ok ((DefaultStrategy ".hycrypt".toList).ParseEncryptedName f).2.1)) ↔
      ¬ ∃ x h d m z, (x = [] ∨ '\n' ∈ x) ∧
        h.length = 6 ∧ h.all isLowerAlnum = true ∧ d.length = 8 ∧ d.all isDigit = true ∧
        (m = nameRSA ∨ m = nameKMAC) ∧ (z = [] ∨ z = dotZip) ∧
        f = x ++ ['-'] ++ h ++ ['-'] ++ d ++ ['-'] ++ m ++ z ++ ".hycrypt".toList := by
  have hext : (DefaultStrategy ".hycrypt".toList).extension = ".hycrypt".toList := rfl
  constructor
  · -- agreement excludes the exceptional form
    rintro hagree ⟨x, h, d, m, z, hx, hh, hha, hd, hda, hm, hz, hf⟩
    have hdet := DetectFromPath_rsa_kmac ".hycrypt".toList f x h d m z hf hz hslash hm
      hh hha hd hda
    rw [hdet] at hagree
    have hpm : ((DefaultStrategy ".hycrypt".toList).ParseEncryptedName f).2.1 = m := by
      injection hagree with h1
      injection h1 with h2
      exact h2.symm
    have hm0 : ((DefaultStrategy ".hycrypt".toList).ParseEncryptedName f).2.1 ≠ [] := by
      rw [hpm]; exact (rsa_kmac_plain hm).1
    obtain ⟨n, h', d', z', hn, hnl, hh', hha', hd', hda', hm', hz', hf'⟩ :=
      ParseEncryptedName_method_form _ f hm0
    rw [hpm, hext] at hf'
    have huniq := encrypted_form_unique hm hm hz hz' hh hha hd hda hh' hha' hd' hda'
      (hf.symm.trans hf')
    rw [huniq.1] at hx
    rcases hx with hx | hx
    · exact hn hx
    · rw [List.all_eq_true] at hnl
      have := hnl _ hx
      simp at this
  · -- outside the exceptional form the results are equal
    intro hnot
    by_cases hpm : ((DefaultStrategy ".hycrypt".toList).ParseEncryptedName f).2.1 = []
    · obtain ⟨r, hr, hcase⟩ := DetectFromPath_sound [nameRSA, nameKMAC] ".hycrypt".toList f
        (by simp) rsa_kmac_literal
      rw [hr, hpm]
      rcases hcase with rfl | ⟨hmem, x, h, d, hh, hha, hd, hda, hform⟩
      · rfl
      · exfalso
        have hm : r = nameRSA ∨ r = nameKMAC := by simpa using hmem
        have hfne : f ≠ [] := by
          intro hf0
          have hb : filepathBase f = ['.'] := by rw [hf0]; rfl
          rcases hform with hform | hform <;>
          · rw [hb] at hform
            have := congrArg List.length hform
            simp at this
            omega
        rw [filepathBase_of_no_slash hfne hslash] at hform
        have hform2 : ∃ z, (z = [] ∨ z = dotZip) ∧
            f = x ++ ['-'] ++ h ++ ['-'] ++ d ++ ['-'] ++ r ++ z ++ ".hycrypt".toList := by
          rcases hform with hform | hform
          · exact ⟨dotZip, Or.inr rfl, by rw [hform]; simp [List.append_assoc]⟩
          · exact ⟨[], Or.inl rfl, by rw [hform]; simp [List.append_assoc]⟩
        obtain ⟨z, hz, hf⟩ := hform2
        by_cases hx : x = [] ∨ '\n' ∈ x
        · exact hnot ⟨x, h, d, r, z, hx, hh, hha, hd, hda, hm, hz, hf⟩
        · have hx1 : x ≠ [] := fun h0 => hx (Or.inl h0)
          have hx2 : x.all (fun c => c != '\n') = true := by
            rw [List.all_eq_true]
            intro c hc
            simp only [bne_iff_ne, ne_eq]
            rintro rfl
            exact hx (Or.inr hc)
          have := ParseEncryptedName_method (DefaultStrategy ".hycrypt".toList) x h d r z hm hz
            hx1 hx2 hh hha hd hda
          rw [hext, ← hf, hpm] at this
          exact (rsa_kmac_plain hm).1 this.symm
    · obtain ⟨n, h, d, z, hn, hnl, hh, hha, hd, hda, hm, hz, hf⟩ :=
        ParseEncryptedName_method_form _ f hpm
      rw [hext] at hf
      exact DetectFromPath_rsa_kmac ".hycrypt".toList f n h d _ z hf hz hslash hm hh hha hd hda

/-- Witness of C28: `report-abcdef-20250915-kmac.zip.hycrypt` is not of the exceptional
form (a name of the encrypted form has one reading, and here the first part is `report`),
and both classifiers return `kmac`. -/
theorem C28_classifiers_agree_witness :
    (CreateStandardDetector [nameRSA, nameKMAC] ".hycrypt".toList).DetectFromPath
        "report-abcdef-20250915-kmac.zip.hycrypt".toList = some (.ok nameKMAC) ∧
    ((DefaultStrategy ".hycrypt".toList).ParseEncryptedName
        "report-abcdef-20250915-kmac.zip.hycrypt".toList).2.1 = nameKMAC := by
  have hp : ((DefaultStrategy ".hycrypt".toList).ParseEncryptedName
      "report-abcdef-20250915-kmac.zip.hycrypt".toList).2.1 = nameKMAC := by decide
  refine ⟨?_, hp⟩
  rw [← hp]
  apply (C28_classifiers_agree "report-abcdef-20250915-kmac.zip.hycrypt".toList
    (by decide)).2
  rintro ⟨x, h, d, m, z, hx, hh, hha, hd, hda, hm, hz, hf⟩
  have huniq := @encrypted_form_unique "report".toList x "abcdef".toList "20250915".toList
    h d nameKMAC m dotZip z ".hycrypt".toList
    (Or.inr rfl) hm (Or.inr rfl) hz (by decide) (by decide) (by decide) (by decide)
    hh hha hd hda hf
  rw [← huniq.1] at hx
  revert hx
  decide

/-- C28 fails as stated: on the base names `-abcdef-20250915-rsa.hycrypt` (nothing before
the hash) and `a`, newline, `b-abcdef-20250915-kmac.zip.hycrypt` the detector returns `rsa`
and `kmac`, and `ParseEncryptedName` returns the empty method. -/
theorem C28_counterexample :
    (CreateStandardDetector [nameRSA, nameKMAC] ".hycrypt".toList).DetectFromPath
        "-abcdef-20250915-rsa.hycrypt".toList = some (.ok nameRSA) ∧
    ((DefaultStrategy ".hycrypt".toList).ParseEncryptedName
        "-abcdef-20250915-rsa.hycrypt".toList).2.1 = [] ∧
    filepathBase "-abcdef-20250915-rsa.hycrypt".toList
      = "-abcdef-20250915-rsa.hycrypt".toList ∧
    (CreateStandardDetector [nameRSA, nameKMAC] ".hycrypt".toList).DetectFromPath
        "a\nb-abcdef-20250915-kmac.zip.hycrypt".toList = some (.ok nameKMAC) ∧
    ((DefaultStrategy ".hycrypt".toList).ParseEncryptedName
        "a\nb-abcdef-20250915-kmac.zip.hycrypt".toList).2.1 = [] ∧
    filepathBase "a\nb-abcdef-20250915-kmac.zip.hycrypt".toList
      = "a\nb-abcdef-20250915-kmac.zip.hycrypt".toList := by
  decide

/-! ## Claims on the rendering of file sizes -/

theorem wrapInt64_of_range {x : Int} (h1 : -2 ^ 63 ≤ x) (h2 : x < 2 ^ 63) :
    wrapInt64 x = x := by
  unfold wrapInt64
  omega

/-- The invariant of the unit loop: `div` is a power of 1024 that does not overflow and `n`
is `size / div`, that is `div * n <= size < div * (n + 1)`; at the end
`div <= size < 1024 * div`. -/
theorem sizeUnitLoop_spec (s : Int) (hs : s < 2 ^ 63) :
    ∀ (k : Nat) (n div : Int) (exp : Nat), n.toNat ≤ k → 1 ≤ n →
      div = 1024 ^ (exp + 1) → div * n ≤ s → s < div * (n + 1) →
      (sizeUnitLoop n div exp).1 = 1024 ^ ((sizeUnitLoop n div exp).2 + 1) ∧
      (sizeUnitLoop n div exp).1 ≤ s ∧ s < 1024 * (sizeUnitLoop n div exp).1 ∧
      exp ≤ (sizeUnitLoop n div exp).2 := by
  intro k
  induction k with
  | zero =>
    intro n div exp hk hn _ _ _
    omega
  | succ k ih =>
    intro n div exp hk hn hdiv hlo hhi
    have hdpos : (0 : Int) < div := by rw [hdiv]; positivity
    rw [sizeUnitLoop]
    by_cases hge : n ≥ 1024
    · rw [if_pos hge]
      have hmul : div * 1024 ≤ s :=
        le_trans (mul_le_mul_of_nonneg_left hge (le_of_lt hdpos)) hlo
      have hw : wrapInt64 (div * 1024) = div * 1024 := by
        apply wrapInt64_of_range <;> omega
      rw [hw]
      have h2 : (1 : Int) ≤ n / 1024 := by omega
      have h3 : (n / 1024).toNat ≤ k := by omega
      have h4 : div * 1024 = 1024 ^ (exp + 1 + 1) := by
        rw [hdiv]; ring
      have h5 : div * 1024 * (n / 1024) ≤ s := by
        have : 1024 * (n / 1024) ≤ n := by omega
        calc div * 1024 * (n / 1024) = div * (1024 * (n / 1024)) := by ring
          _ ≤ div * n := mul_le_mul_of_nonneg_left this (le_of_lt hdpos)
          _ ≤ s := hlo
      have h6 : s < div * 1024 * (n / 1024 + 1) := by
        have : n + 1 ≤ 1024 * (n / 1024 + 1) := by omega
        calc s < div * (n + 1) := hhi
          _ ≤ div * (1024 * (n / 1024 + 1)) :=
            mul_le_mul_of_nonneg_left this (le_of_lt hdpos)
          _ = div * 1024 * (n / 1024 + 1) := by ring
      obtain ⟨r1, r2, r3, r4⟩ := ih (n / 1024) (div * 1024) (exp + 1) h3 h2 h4 h5 h6
      exact ⟨r1, r2, r3, by omega⟩
    · rw [if_neg hge]
      refine ⟨hdiv, ?_, ?_, le_refl _⟩
      · calc div = div * 1 := by ring
          _ ≤ div * n := mul_le_mul_of_nonneg_left hn (le_of_lt hdpos)
          _ ≤ s := hlo
      · have : n + 1 ≤ 1024 := by omega
        calc s < div * (n + 1) := hhi
          _ ≤ div * 1024 := mul_le_mul_of_nonneg_left this (le_of_lt hdpos)
          _ = 1024 * div := by ring

/-- C29: `FormatFileSize` is safe for every 64-bit size of at least 1024.  The loop ends
(the function is total) with an exponent between 0 and 5, the index into `KMGTPE` is in
range and the function returns, the divisor is `1024 ^ (exp + 1)` without overflow, and
`divisor <= size < 1024 * divisor`. -/
theorem C29_unit_selection (fmtF1 : FloatFormat) (size : Int)
    (hlo : 1024 ≤ size) (hhi : size < 2 ^ 63) :
    (sizeUnitLoop (size / 1024) 1024 0).2 ≤ 5 ∧
    (sizeUnitLoop (size / 1024) 1024 0).1 = 1024 ^ ((sizeUnitLoop (size / 1024) 1024 0).2 + 1) ∧
    (sizeUnitLoop (size / 1024) 1024 0).1 ≤ size ∧
    size < 1024 * (sizeUnitLoop (size / 1024) 1024 0).1 ∧
    ∃ letter, unitLetters.get? (sizeUnitLoop (size / 1024) 1024 0).2 = some letter ∧
      FormatFileSize fmtF1 size
        = .ok (fmtF1 size (sizeUnitLoop (size / 1024) 1024 0).1 ++ [' ', letter, 'B']) := by
  obtain ⟨r1, r2, r3, _⟩ := sizeUnitLoop_spec size hhi (size / 1024).toNat (size / 1024) 1024 0
    (le_refl _) (by omega) (by norm_num) (by omega) (by omega)
  have hexp : (sizeUnitLoop (size / 1024) 1024 0).2 ≤ 5 := by
    by_contra hgt
    have h6 : 7 ≤ (sizeUnitLoop (size / 1024) 1024 0).2 + 1 := by omega
    have hpow : (1024 : Int) ^ 7 ≤ 1024 ^ ((sizeUnitLoop (size / 1024) 1024 0).2 + 1) :=
      pow_le_pow_right₀ (by norm_num) h6
    have : (1024 : Int) ^ 7 ≤ size := by
      rw [← r1] at hpow
      exact le_trans hpow r2
    norm_num at this
    omega
  refine ⟨hexp, r1, r2, r3, ?_⟩
  have hlt : (sizeUnitLoop (size / 1024) 1024 0).2 < unitLetters.length := by
    simp only [unitLetters, List.length_cons, List.length_nil]
    omega
  refine ⟨unitLetters.get ⟨_, hlt⟩, List.get?_eq_get hlt, ?_⟩
  unfold FormatFileSize
  rw [if_neg (by omega)]
  simp only [List.get?_eq_get hlt]

/-- Witness of C29: the largest `int64`, rendered in units of `EB` with the divisor
`1024 ^ 6`. -/
theorem C29_unit_selection_witness :
    (sizeUnitLoop ((2 ^ 63 - 1) / 1024) 1024 0).2 ≤ 5 ∧
    (sizeUnitLoop ((2 ^ 63 - 1) / 1024) 1024 0).1
      = 1024 ^ ((sizeUnitLoop ((2 ^ 63 - 1) / 1024) 1024 0).2 + 1) ∧
    (sizeUnitLoop ((2 ^ 63 - 1) / 1024) 1024 0).1 ≤ 2 ^ 63 - 1 :=
  ⟨(C29_unit_selection modelFloatFormat (2 ^ 63 - 1) (by norm_num) (by norm_num)).1,
    (C29_unit_selection modelFloatFormat (2 ^ 63 - 1) (by norm_num) (by norm_num)).2.1,
    (C29_unit_selection modelFloatFormat (2 ^ 63 - 1) (by norm_num) (by norm_num)).2.2.1⟩

theorem modelFloatFormat_lawful : FloatFormat.Lawful modelFloatFormat := by
  constructor
  intro a b ha _ hb _ hdvd
  obtain ⟨a', rfl⟩ := Int.eq_ofNat_of_zero_le (le_of_lt ha)
  obtain ⟨b', rfl⟩ := Int.eq_ofNat_of_zero_le (le_of_lt hb)
  have hb' : 0 < b' := by exact_mod_cast hb
  have hdvd' : b' ∣ a' := by exact_mod_cast hdvd
  obtain ⟨q, rfl⟩ := hdvd'
  have hq : ((b' * q : Nat) : Int) / (b' : Int) = (q : Int) := by
    rw [Int.natCast_mul, Int.mul_ediv_cancel_left]
    exact_mod_cast (Nat.pos_iff_ne_zero.1 hb')
  have hn : b' * q * 10 / b' = q * 10 := by
    rw [Nat.mul_assoc, Nat.mul_div_cancel_left _ hb']
  have hr : b' * q * 10 % b' = 0 := by
    rw [Nat.mul_assoc]; exact Nat.mul_mod_right _ _
  have hfd : fmtDecimal (q : Int) = Nat.toDigits 10 q := by
    unfold fmtDecimal
    rw [if_neg (by omega)]
    rfl
  rw [hq, hfd]
  simp only [modelFloatFormat, Int.natAbs_ofNat, hn, hr, Nat.mul_zero, hb', if_true,
    Nat.mul_div_cancel _ (by decide : 0 < 10), Nat.mul_mod_left]
  have h0 : Nat.toDigits 10 0 = ['0'] := by decide
  rw [h0, List.append_assoc]
  rfl

theorem sizeUnitLoop_one : sizeUnitLoop 1 1024 0 = (1024, 0) := by
  rw [sizeUnitLoop]
  rfl

/-- C26 fails on the code, for every rendering of floating-point numbers that follows
IEEE 754 and fmt: `FormatFileSize(1024)` is `1.0 KB`, with one decimal (the format is
`%.1f`), the file size line of a result is `文件大小: 1.0 KB` with or without emoji, and
neither contains `1.00 KB`, which the test of the renderer expects. -/
theorem C26_one_decimal (fmtF1 : FloatFormat) (hfmt : fmtF1.Lawful) :
    FormatFileSize fmtF1 1024 = .ok "1.0 KB".toList ∧
    renderFileSize fmtF1 true 1024 = .ok "📏 文件大小: 1.0 KB\n".toList ∧
    renderFileSize fmtF1 false 1024 = .ok "文件大小: 1.0 KB\n".toList ∧
    stringsContains "1.0 KB".toList "1.00 KB".toList = false ∧
    stringsContains "📏 文件大小: 1.0 KB\n".toList "1.00 KB".toList = false ∧
    stringsContains "文件大小: 1.0 KB\n".toList "1.00 KB".toList = false := by
  have hq : fmtF1 1024 1024 = ['1', '.', '0'] := by
    rw [hfmt.exact_quotient 1024 1024 (by norm_num) (by norm_num) (by norm_num) (by norm_num)
      (dvd_refl _)]
    rfl
  have hF : FormatFileSize fmtF1 1024 = .ok "1.0 KB".toList := by
    unfold FormatFileSize
    rw [if_neg (by norm_num)]
    have h1 : (1024 : Int) / 1024 = 1 := by norm_num
    simp only [h1, sizeUnitLoop_one, hq]
    rfl
  refine ⟨hF, ?_, ?_, by decide, by decide, by decide⟩
  · unfold renderFileSize
    rw [if_pos (by norm_num), hF]
    rfl
  · unfold renderFileSize
    rw [if_pos (by norm_num), hF]
    rfl

/-- Witness of C26's failing input with the model rendering. -/
theorem C26_one_decimal_witness :
    FormatFileSize modelFloatFormat 1024 = .ok "1.0 KB".toList :=
  (C26_one_decimal modelFloatFormat modelFloatFormat_lawful).1

/-! ## Claims on the step counter of the UI state manager -/

/-- Where the step counter is in range after `SetOperation(op)` and `SetState(s)` on a
fresh manager: everywhere except for the key-generation operation in the states
`StateFileInput`, `StateTextInput`, `StateHexInput`, `StateOutputFormat`, `StateOutput` and
`StateProcessing`. -/
theorem step_in_range_iff (op s : Int) :
    (1 ≤ ((UIStateManager.SetOperation op).SetState s).currentStep ∧
      ((UIStateManager.SetOperation op).SetState s).currentStep
        ≤ ((UIStateManager.SetOperation op).SetState s).totalSteps) ↔
    ¬ (op = OperationKeyGen ∧ (s = StateFileInput ∨ s = StateTextInput ∨ s = StateHexInput ∨
      s = StateOutputFormat ∨ s = StateOutput ∨ s = StateProcessing)) := by
  have ht : ((UIStateManager.SetOperation op).SetState s).totalSteps
      = (if op = 0 then 7 else if op = 1 then 6 else if op = 2 then 3 else 7) := rfl
  have hc : ((UIStateManager.SetOperation op).SetState s).currentStep
      = (if s = 0 then 1
        else if s = 1 ∨ s = 3 then 2
        else if s = 2 then 3
        else if s = 4 then 3
        else if s = 5 ∨ s = 6 ∨ s = 7 then 4
        else if s = 8 then 5
        else if s = 9 then (if op = 0 then 6 else 5)
        else if s = 13 then (if op = 0 then 6 else 5)
        else if s = 14 then
          (if op = 0 then 7 else if op = 1 then 6 else if op = 2 then 3 else 7)
        else if s = 10 then 1
        else if s = 11 ∨ s = 12 then 2
        else 1) := rfl
  rw [ht, hc]
  have e : (op = OperationKeyGen ∧ (s = StateFileInput ∨ s = StateTextInput ∨
      s = StateHexInput ∨ s = StateOutputFormat ∨ s = StateOutput ∨ s = StateProcessing))
      ↔ (op = 2 ∧ (s = 5 ∨ s = 6 ∨ s = 7 ∨ s = 8 ∨ s = 9 ∨ s = 13)) := Iff.rfl
  rw [e]
  clear ht hc e
  by_cases hs : 0 ≤ s ∧ s ≤ 14
  · obtain ⟨hs1, hs2⟩ := hs
    interval_cases s <;> norm_num <;> split_ifs <;> omega
  · have e0 : ¬ s = 0 := by omega
    have e1 : ¬ s = 1 := by omega
    have e2 : ¬ s = 2 := by omega
    have e3 : ¬ s = 3 := by omega
    have e4 : ¬ s = 4 := by omega
    have e5 : ¬ s = 5 := by omega
    have e6 : ¬ s = 6 := by omega
    have e7 : ¬ s = 7 := by omega
    have e8 : ¬ s = 8 := by omega
    have e9 : ¬ s = 9 := by omega
    have e10 : ¬ s = 10 := by omega
    have e11 : ¬ s = 11 := by omega
    have e12 : ¬ s = 12 := by omega
    have e13 : ¬ s = 13 := by omega
    have e14 : ¬ s = 14 := by omega
    simp only [e0, e1, e2, e3, e4, e5, e6, e7, e8, e9, e10, e11, e12, e13, e14, or_self,
      if_false, and_false, not_false_eq_true, iff_true]
    split_ifs <;> omega

/-- C30 fails on the code: after `SetOperation(OperationKeyGen)` and
`SetState(StateProcessing)` on a fresh manager the total is 3 and the current step is 5,
and the title `RenderProcessing` shows for a key generation reads `步骤 5/3`. -/
theorem C30_step_exceeds_total :
    ((UIStateManager.SetOperation OperationKeyGen).SetState StateProcessing).totalSteps = 3 ∧
    ((UIStateManager.SetOperation OperationKeyGen).SetState StateProcessing).currentStep = 5 ∧
    ¬ (((UIStateManager.SetOperation OperationKeyGen).SetState StateProcessing).currentStep
      ≤ ((UIStateManager.SetOperation OperationKeyGen).SetState StateProcessing).totalSteps) ∧
    (renderProcessingManager "keygen".toList []).GetProcessingTitle
      = "⏳ 步骤 5/3: 密钥生成中...".toList := by
  decide

/-! ## Claims on the recovery of the original name -/

theorem stringsSplit_ne_nil (s : GoString) (sep : Char) : stringsSplit s sep ≠ [] := by
  cases s with
  | nil => simp [stringsSplit]
  | cons c cs =>
    unfold stringsSplit
    split
    · simp
    · split <;> simp

theorem stringsSplit_of_not_mem {x : GoString} {sep : Char} (h : sep ∉ x) :
    stringsSplit x sep = [x] := by
  induction x with
  | nil => rfl
  | cons c cs ih =>
    have hc : c ≠ sep := fun e => h (by rw [e]; exact List.mem_cons_self _ _)
    have hcs : sep ∉ cs := fun hm => h (List.mem_cons_of_mem _ hm)
    unfold stringsSplit
    rw [if_neg hc, ih hcs]

theorem stringsSplit_append (a b : GoString) (sep : Char) :
    stringsSplit (a ++ sep :: b) sep = stringsSplit a sep ++ stringsSplit b sep := by
  induction a with
  | nil =>
    simp only [List.nil_append, stringsSplit, if_true, List.singleton_append]
  | cons c cs ih =>
    by_cases hc : c = sep
    · rw [List.cons_append, stringsSplit, if_pos hc, ih]
      conv_rhs => rw [stringsSplit, if_pos hc]
      rfl
    · rw [List.cons_append, stringsSplit, if_neg hc, ih]
      conv_rhs => rw [stringsSplit, if_neg hc]
      cases hs : stringsSplit cs sep with
      | nil => exact absurd hs (stringsSplit_ne_nil cs sep)
      | cons p ps => rfl

theorem stringsJoinText_cons_cons (p q : GoString) (ps : List GoString) (sep : GoString) :
    stringsJoinText (p :: q :: ps) sep = p ++ sep ++ stringsJoinText (q :: ps) sep := by
  have h : ∀ (l : List GoString) (x y : GoString),
      l.foldl (fun acc z => acc ++ sep ++ z) (x ++ sep ++ y)
        = x ++ sep ++ l.foldl (fun acc z => acc ++ sep ++ z) y := by
    intro l
    induction l with
    | nil => intro x y; rfl
    | cons z zs ih =>
      intro x y
      simp only [List.foldl_cons]
      rw [← ih x (y ++ sep ++ z)]
      simp [List.append_assoc]
  simp only [stringsJoinText, List.foldl_cons]
  exact h ps p q

/-- Joining the parts of a split text gives the text back. -/
theorem stringsJoinText_split (s : GoString) (sep : Char) :
    stringsJoinText (stringsSplit s sep) [sep] = s := by
  induction s with
  | nil => rfl
  | cons c cs ih =>
    by_cases hc : c = sep
    · rw [stringsSplit, if_pos hc]
      cases hs : stringsSplit cs sep with
      | nil => exact absurd hs (stringsSplit_ne_nil cs sep)
      | cons p ps =>
        rw [stringsJoinText_cons_cons, ← hs, ih, hc]
        rfl
    · rw [stringsSplit, if_neg hc]
      cases hs : stringsSplit cs sep with
      | nil => exact absurd hs (stringsSplit_ne_nil cs sep)
      | cons p ps =>
        rw [hs] at ih
        cases ps with
        | nil =>
          simp only [stringsJoinText, List.foldl_nil] at ih ⊢
          rw [ih]
        | cons q qs =>
          rw [stringsJoinText_cons_cons] at ih ⊢
          rw [← ih]
          simp [List.append_assoc]

theorem not_dash_of_alnum {h : GoString} (hh : h.all isLowerAlnum = true) : '-' ∉ h := by
  intro hm
  rw [List.all_eq_true] at hh
  exact absurd (hh _ hm) (by decide)

theorem not_dash_of_digits {d : GoString} (hd : d.all isDigit = true) : '-' ∉ d := by
  intro hm
  rw [List.all_eq_true] at hd
  exact absurd (hd _ hm) (by decide)

theorem goLen_of_alnum {r : GoString} (hr : r.all isLowerAlnum = true) :
    goLen r = r.length := by
  induction r with
  | nil => rfl
  | cons c cs ih =>
    simp only [List.all_cons, Bool.and_eq_true] at hr
    have hc : c.utf8Size = 1 := by
      have h1 := hr.1
      simp only [isLowerAlnum, Bool.or_eq_true, Bool.and_eq_true, decide_eq_true_eq] at h1
      have hlt : c.val.toNat ≤ 127 := by
        rcases h1 with ⟨_, h2⟩ | ⟨_, h2⟩
        · have h3 : c.val.toNat ≤ ('z' : Char).val.toNat := h2
          exact le_trans h3 (by decide)
        · have h3 : c.val.toNat ≤ ('9' : Char).val.toNat := h2
          exact le_trans h3 (by decide)
      have hle : c.val ≤ UInt32.ofNatCore 127 Char.utf8Size.proof_1 := hlt
      simp only [Char.utf8Size, hle, if_true]
    have := ih hr.2
    simp only [goLen, List.map_cons, List.sum_cons, List.length_cons] at this ⊢
    omega

/-- The parts of a name followed by three or four parts without a dash. -/
theorem stringsSplit_tail3 (name a b c : GoString)
    (ha : '-' ∉ a) (hb : '-' ∉ b) (hc : '-' ∉ c) :
    stringsSplit (name ++ ['-'] ++ a ++ ['-'] ++ b ++ ['-'] ++ c) '-'
      = stringsSplit name '-' ++ [a, b, c] := by
  have e : name ++ ['-'] ++ a ++ ['-'] ++ b ++ ['-'] ++ c
      = name ++ '-' :: (a ++ '-' :: (b ++ '-' :: c)) := by simp [List.append_assoc]
  rw [e, stringsSplit_append, stringsSplit_append, stringsSplit_append,
    stringsSplit_of_not_mem ha, stringsSplit_of_not_mem hb, stringsSplit_of_not_mem hc]
  rfl

theorem stringsSplit_tail4 (name a b c d : GoString)
    (ha : '-' ∉ a) (hb : '-' ∉ b) (hc : '-' ∉ c) (hd : '-' ∉ d) :
    stringsSplit (name ++ ['-'] ++ a ++ ['-'] ++ b ++ ['-'] ++ c ++ ['-'] ++ d) '-'
      = stringsSplit name '-' ++ [a, b, c, d] := by
  have e : name ++ ['-'] ++ a ++ ['-'] ++ b ++ ['-'] ++ c ++ ['-'] ++ d
      = name ++ '-' :: (a ++ '-' :: (b ++ '-' :: (c ++ '-' :: d))) := by
    simp [List.append_assoc]
  rw [e, stringsSplit_append, stringsSplit_append, stringsSplit_append, stringsSplit_append,
    stringsSplit_of_not_mem ha, stringsSplit_of_not_mem hb, stringsSplit_of_not_mem hc,
    stringsSplit_of_not_mem hd]
  rfl

/-- `GetOriginalFileName` on a name with the extension `.hycrypt`, in terms of the parts of
the text before the extension. -/
theorem GetOriginalFileName_hycrypt (base : GoString) (front : List GoString)
    (back : List GoString) (hfront : front ≠ [])
    (hparts : stringsSplit base '-' = front ++ back)
    (hcase : (back.length = 3 ∧
        ¬ (goLen (back.getLastD []) = 6 ∧ IsAlphaNumeric (back.getLastD []) = true)) ∨
      (back.length = 4 ∧ goLen (back.getLastD []) = 6 ∧
        IsAlphaNumeric (back.getLastD []) = true)) :
    GetOriginalFileName (base ++ dotHycrypt) = stringsJoinText front ['-'] := by
  have hsuf : stringsHasSuffix (base ++ dotHycrypt) dotHycrypt = true :=
    stringsHasSuffix_append base dotHycrypt
  have htake : (base ++ dotHycrypt).take ((base ++ dotHycrypt).length - dotHycrypt.length)
      = base := by
    rw [List.length_append, Nat.add_sub_cancel, List.take_left]
  have hflen : 0 < front.length := List.length_pos.2 hfront
  have hlast : (front ++ back).getLastD [] = back.getLastD [] := by
    rcases hcase with ⟨hl, _⟩ | ⟨hl, _⟩ <;>
    · have hb : back ≠ [] := by
        intro h0; rw [h0] at hl; simp at hl
      rw [List.getLastD_eq_getLast?, List.getLastD_eq_getLast?,
        List.getLast?_append_of_ne_nil _ hb]
  unfold GetOriginalFileName
  simp only [hsuf, htake, hparts, hlast, if_true]
  rcases hcase with ⟨hl, hnd⟩ | ⟨hl, hg, ha⟩
  · have h1 : (goLen (back.getLastD []) == 6 && IsAlphaNumeric (back.getLastD [])
        && decide ((front ++ back).length ≥ 5)) = false := by
      rw [Bool.and_eq_false_iff, Bool.and_eq_false_iff]
      left
      by_cases hg : goLen (back.getLastD []) = 6
      · right
        cases hA : IsAlphaNumeric (back.getLastD []) with
        | false => rfl
        | true => exact absurd ⟨hg, hA⟩ hnd
      · left
        simpa using hg
    have h2 : (front ++ back).length ≥ 4 := by
      rw [List.length_append, hl]; omega
    have h3 : (front ++ back).take ((front ++ back).length - 3) = front := by
      rw [List.length_append, hl, Nat.add_sub_cancel, List.take_left]
    simp only [h1, Bool.false_eq_true, if_false, h2, if_true, h3]
  · have h1 : (goLen (back.getLastD []) == 6 && IsAlphaNumeric (back.getLastD [])
        && decide ((front ++ back).length ≥ 5)) = true := by
      have : (front ++ back).length ≥ 5 := by
        rw [List.length_append, hl]; omega
      have hg2 : (goLen (back.getLastD []) == 6) = true := by rw [hg]; rfl
      rw [hg2, ha, decide_eq_true this]
      rfl
    have h3 : (front ++ back).take ((front ++ back).length - 4) = front := by
      rw [List.length_append, hl, Nat.add_sub_cancel, List.take_left]
    simp only [h1, if_true, h3]

/-- C25: original-name recovery for display.  For every original name, both identifiers,
every hash made of characters of `[a-z0-9]` and every date made of digits (six and eight of
them in a generated name), `GetOriginalFileName` returns the name on
`<name>-<hash6>-<date8>-<alg>.hycrypt`, on the directory form with `.zip.hycrypt`, and on
both after a duplicate suffix `-<random6>` of six characters of `[a-z0-9]` has been put
before `.hycrypt`. -/
theorem C25_original_name (name h d m r : GoString) (hm : m = nameRSA ∨ m = nameKMAC)
    (hha : h.all isLowerAlnum = true) (hda : d.all isDigit = true)
    (hr : r.length = 6) (hra : r.all isLowerAlnum = true) :
    GetOriginalFileName (name ++ ['-'] ++ h ++ ['-'] ++ d ++ ['-'] ++ m ++ dotHycrypt)
      = name ∧
    GetOriginalFileName
        (name ++ ['-'] ++ h ++ ['-'] ++ d ++ ['-'] ++ (m ++ dotZip) ++ dotHycrypt) = name ∧
    GetOriginalFileName
        (name ++ ['-'] ++ h ++ ['-'] ++ d ++ ['-'] ++ m ++ ['-'] ++ r ++ dotHycrypt)
      = name ∧
    GetOriginalFileName
        (name ++ ['-'] ++ h ++ ['-'] ++ d ++ ['-'] ++ (m ++ dotZip) ++ ['-'] ++ r
          ++ dotHycrypt) = name := by
  have hhd := not_dash_of_alnum hha
  have hdd := not_dash_of_digits hda
  have hrd := not_dash_of_alnum hra
  have hmd : '-' ∉ m := (rsa_kmac_plain hm).2.1
  have hmz : '-' ∉ m ++ dotZip := by
    rcases hm with rfl | rfl <;> decide
  have hfront := stringsSplit_ne_nil name '-'
  have hjoin := stringsJoinText_split name '-'
  have hm6 : ¬ (goLen m = 6 ∧ IsAlphaNumeric m = true) := by
    rcases hm with rfl | rfl <;> decide
  have hmz6 : ¬ (goLen (m ++ dotZip) = 6 ∧ IsAlphaNumeric (m ++ dotZip) = true) := by
    rcases hm with rfl | rfl <;> decide
  have hr6 : goLen r = 6 := by rw [goLen_of_alnum hra, hr]
  have hrA : IsAlphaNumeric r = true := hra
  refine ⟨?_, ?_, ?_, ?_⟩
  · rw [GetOriginalFileName_hycrypt _ _ [h, d, m] hfront
      (stringsSplit_tail3 name h d m hhd hdd hmd) (Or.inl ⟨rfl, hm6⟩), hjoin]
  · rw [GetOriginalFileName_hycrypt _ _ [h, d, m ++ dotZip] hfront
      (stringsSplit_tail3 name h d (m ++ dotZip) hhd hdd hmz) (Or.inl ⟨rfl, hmz6⟩), hjoin]
  · rw [GetOriginalFileName_hycrypt _ _ [h, d, m, r] hfront
      (stringsSplit_tail4 name h d m r hhd hdd hmd hrd) (Or.inr ⟨rfl, hr6, hrA⟩), hjoin]
  · rw [GetOriginalFileName_hycrypt _ _ [h, d, m ++ dotZip, r] hfront
      (stringsSplit_tail4 name h d (m ++ dotZip) r hhd hdd hmz hrd)
      (Or.inr ⟨rfl, hr6, hrA⟩), hjoin]

/-- Witness of C25: the name `my-report.pdf` (with a dash of its own), encrypted with
`kmac`. -/
theorem C25_original_name_witness :
    GetOriginalFileName "my-report.pdf-abcdef-20250101-kmac.hycrypt".toList
      = "my-report.pdf".toList ∧
    GetOriginalFileName "my-report.pdf-abcdef-20250101-kmac.zip.hycrypt".toList
      = "my-report.pdf".toList ∧
    GetOriginalFileName "my-report.pdf-abcdef-20250101-kmac-x1y2z3.hycrypt".toList
      = "my-report.pdf".toList ∧
    GetOriginalFileName "my-report.pdf-abcdef-20250101-kmac.zip-x1y2z3.hycrypt".toList
      = "my-report.pdf".toList :=
  C25_original_name "my-report.pdf".toList "abcdef".toList "20250101".toList nameKMAC
    "x1y2z3".toList (Or.inr rfl) (by decide) (by decide) (by decide) (by decide)

/-! ## Claims on the hex source and the hex sink -/

/-- C22 fails on the code, whatever error `fmt.Sscanf` reports on a rejected pair: the
cleaned input `ag` has even length and holds `g`, which is not a hexadecimal digit, and
`CreateHexSource` succeeds with the single byte `0x0a`; likewise `0x` gives the byte
`0x00` and `f`, `-` gives `0x0f`.  `fmt.Sscanf` with `%02x` reads the digits it finds and
does not look at what follows them. -/
theorem C22_invalid_digit_accepted (scanErr : GoString → GoError) (name : GoString) :
    cleanHexInput "ag".toList = "ag".toList ∧ ("ag".toList.length % 2 = 0) ∧
    isHexDigitChar 'g' = false ∧
    CreateHexSource scanErr "ag".toList name = some (.ok { data := [0x0a], name := name }) ∧
    CreateHexSource scanErr "0x".toList name = some (.ok { data := [0x00], name := name }) ∧
    CreateHexSource scanErr "f-".toList name = some (.ok { data := [0x0f], name := name }) :=
  ⟨by decide, by decide, by decide, rfl, rfl, rfl⟩

/-- An input whose cleaned text has odd length is rejected with `InvalidFormat`. -/
theorem CreateHexSource_odd (scanErr : GoString → GoError) (hexData name : GoString)
    (hascii : hexData.all (fun c => decide (c.toNat < 128)) = true)
    (hodd : (cleanHexInput hexData).length % 2 = 1) :
    CreateHexSource scanErr hexData name
      = some (.error (InvalidFormat "hex" (.errorString "odd length hex string"))) := by
  unfold CreateHexSource
  rw [if_pos hascii]
  simp [hodd]

set_option maxRecDepth 100000 in
/-- One byte written as two digits of `hextable` is read back by `fmt.Sscanf`. -/
theorem sscanfHexByte_hextable (v : Byte) :
    sscanfHexByte [hextable.getD (v.val / 16) '0', hextable.getD (v.val % 16) '0'] = some v := by
  revert v
  decide

theorem decodeHexPairs_encode (b : Bytes) : decodeHexPairs (hexEncodeToString b) = .ok b := by
  induction b with
  | nil => rfl
  | cons v vs ih =>
    have e : hexEncodeToString (v :: vs)
        = hextable.getD (v.val / 16) '0' :: hextable.getD (v.val % 16) '0'
          :: hexEncodeToString vs := by
      simp [hexEncodeToString]
    rw [e, decodeHexPairs, sscanfHexByte_hextable]
    simp only [hexEncodeToString] at ih ⊢
    rw [ih]

theorem hexEncodeToString_length (b : Bytes) : (hexEncodeToString b).length = 2 * b.length := by
  induction b with
  | nil => rfl
  | cons v vs ih =>
    have e : hexEncodeToString (v :: vs)
        = hextable.getD (v.val / 16) '0' :: hextable.getD (v.val % 16) '0'
          :: hexEncodeToString vs := by
      simp [hexEncodeToString]
    rw [e, List.length_cons, List.length_cons, ih, List.length_cons]
    omega

theorem not_hex_of_filler {c : Char} (h : c ∈ [' ', '\t', '\n', '\r', '=']) :
    isHexDigitChar c = false := by
  simp only [List.mem_cons, List.mem_singleton, List.not_mem_nil, or_false] at h
  rcases h with rfl | rfl | rfl | rfl | rfl <;> decide

theorem ascii_of_hex {c : Char} (h : isHexDigitChar c = true) : c.toNat < 128 := by
  simp only [isHexDigitChar, Bool.or_eq_true, Bool.and_eq_true, decide_eq_true_eq] at h
  have key : ∀ d : Char, c ≤ d → d.toNat < 128 → c.toNat < 128 := by
    intro d hcd hd
    have h3 : c.toNat ≤ d.toNat := hcd
    omega
  rcases h with (⟨_, h2⟩ | ⟨_, h2⟩) | ⟨_, h2⟩
  · exact key '9' h2 (by decide)
  · exact key 'f' h2 (by decide)
  · exact key 'F' h2 (by decide)

/-- `cleanHexInput` keeps the hexadecimal digits of a text made of digits and of the five
deleted characters, in lower case. -/
theorem cleanHexInput_of_digits_and_fillers (s : GoString)
    (hchars : ∀ c ∈ s, c ∈ [' ', '\t', '\n', '\r', '='] ∨ isHexDigitChar c = true) :
    cleanHexInput s = (s.filter isHexDigitChar).map Char.toLower := by
  unfold cleanHexInput
  simp only [List.filter_filter]
  congr 1
  apply List.filter_congr
  intro c hc
  rcases hchars c hc with hf | hx
  · rw [not_hex_of_filler hf]
    simp only [List.mem_cons, List.mem_singleton, List.not_mem_nil, or_false] at hf
    rcases hf with rfl | rfl | rfl | rfl | rfl <;> decide
  · rw [hx]
    have h1 : c ≠ ' ' := by rintro rfl; exact absurd hx (by decide)
    have h2 : c ≠ '\n' := by rintro rfl; exact absurd hx (by decide)
    have h3 : c ≠ '\r' := by rintro rfl; exact absurd hx (by decide)
    have h4 : c ≠ '\t' := by rintro rfl; exact absurd hx (by decide)
    have h5 : c ≠ '=' := by rintro rfl; exact absurd hx (by decide)
    simp [h1, h2, h3, h4, h5]

/-- C23: hex round trip.  For every byte sequence `b`, the hex sink writes
`hex.EncodeToString(b)`, and for every text `s` made of hexadecimal digits, in either case,
and of spaces, tabs, line feeds, carriage returns and `=`, whose digits read in lower case
are that string, `CreateHexSource(s)` succeeds and holds exactly `b`, with
`Size() = len(b)`. -/
theorem C23_hex_round_trip (scanErr : GoString → GoError) (b : Bytes) (s name : GoString)
    (hchars : ∀ c ∈ s, c ∈ [' ', '\t', '\n', '\r', '='] ∨ isHexDigitChar c = true)
    (hdigits : (s.filter isHexDigitChar).map Char.toLower
      = ((HexSink.mk []).Write (.ok b)).2.GetResult) :
    ((HexSink.mk []).Write (.ok b)).2.GetResult = hexEncodeToString b ∧
    CreateHexSource scanErr s name = some (.ok { data := b, name := name }) ∧
    (HexSource.mk b name).Size = b.length := by
  have hres : ((HexSink.mk []).Write (.ok b)).2.GetResult = hexEncodeToString b := rfl
  refine ⟨hres, ?_, rfl⟩
  rw [hres] at hdigits
  have hascii : s.all (fun c => decide (c.toNat < 128)) = true := by
    rw [List.all_eq_true]
    intro c hc
    rcases hchars c hc with hf | hx
    · simp only [List.mem_cons, List.mem_singleton, List.not_mem_nil, or_false] at hf
      rcases hf with rfl | rfl | rfl | rfl | rfl <;> decide
    · exact decide_eq_true (ascii_of_hex hx)
  have hclean : cleanHexInput s = hexEncodeToString b := by
    rw [cleanHexInput_of_digits_and_fillers s hchars, hdigits]
  unfold CreateHexSource
  rw [if_pos hascii]
  simp only [hclean, hexEncodeToString_length, decodeHexPairs_encode]
  simp

/-- Witness of C23: the bytes of `Hello`, written `48 65 6C`, line feed, `6c 6F=`. -/
theorem C23_hex_round_trip_witness :
    CreateHexSource (fun _ => .errorString "scan") "48 65 6C\n6c 6F=".toList
        "hex-input".toList
      = some (.ok { data := [0x48, 0x65, 0x6c, 0x6c, 0x6f], name := "hex-input".toList }) :=
  (C23_hex_round_trip (fun _ => .errorString "scan") [0x48, 0x65, 0x6c, 0x6c, 0x6f]
    "48 65 6C\n6c 6F=".toList "hex-input".toList (by decide) (by decide)).2.1

/-! ## Claims on the unique path of the file sink -/

theorem not_mem_takeWhile_ne (c : Char) (l : GoString) :
    c ∉ l.takeWhile (fun x => x != c) := by
  intro h
  have := List.mem_takeWhile_imp h
  simp at this

/-- The base name is `/`, or it holds no separator and is not empty. -/
theorem filepathBase_cases (p : GoString) :
    filepathBase p = ['/'] ∨ ('/' ∉ filepathBase p ∧ filepathBase p ≠ []) := by
  unfold filepathBase
  by_cases hp : p = []
  · rw [if_pos hp]
    right
    decide
  · rw [if_neg hp]
    simp only
    split
    · left; rfl
    · rename_i hlast
      right
      refine ⟨?_, hlast⟩
      intro hm
      rw [List.mem_reverse] at hm
      exact not_mem_takeWhile_ne '/' _ hm

theorem dropWhile_ne_of_mem (c : Char) (l : GoString) (h : c ∈ l) :
    ∃ rest, l.dropWhile (fun x => x != c) = c :: rest := by
  induction l with
  | nil => cases h
  | cons a l ih =>
    by_cases hac : a = c
    · subst hac
      exact ⟨l, by simp [List.dropWhile]⟩
    · have hm : c ∈ l := by
        rcases List.mem_cons.1 h with h1 | h1
        · exact absurd h1.symm hac
        · exact h1
      obtain ⟨rest, hr⟩ := ih hm
      refine ⟨rest, ?_⟩
      rw [List.dropWhile_cons_of_pos (by simpa using hac), hr]

theorem split_at_last (p : Char → Bool) (l : GoString) :
    l = (l.reverse.dropWhile p).reverse ++ (l.reverse.takeWhile p).reverse := by
  have := List.takeWhile_append_dropWhile p l.reverse
  have h2 := congrArg List.reverse this
  rw [List.reverse_append, List.reverse_reverse] at h2
  exact h2.symm

/-- The extension is a suffix of the name. -/
theorem filepathExt_suffix (f : GoString) : ∃ pre, f = pre ++ filepathExt f := by
  unfold filepathExt
  simp only
  by_cases hdot : '.' ∈ (f.reverse.takeWhile (fun c => c != '/')).reverse
  · rw [if_pos hdot]
    have h1 := split_at_last (fun c => c != '/') f
    have h2 := split_at_last (fun c => c != '.')
      (f.reverse.takeWhile (fun c => c != '/')).reverse
    obtain ⟨rest, hr⟩ := dropWhile_ne_of_mem '.'
      ((f.reverse.takeWhile (fun c => c != '/')).reverse).reverse
      (List.mem_reverse.2 hdot)
    rw [hr, List.reverse_cons] at h2
    refine ⟨(f.reverse.dropWhile (fun c => c != '/')).reverse ++ rest.reverse, ?_⟩
    conv_lhs => rw [h1, h2]
    simp [List.append_assoc]
  · rw [if_neg hdot]
    exact ⟨f, by simp⟩

theorem trimSuffix_append_ext (f : GoString) :
    stringsTrimSuffix f (filepathExt f) ++ filepathExt f = f := by
  obtain ⟨pre, hpre⟩ := filepathExt_suffix f
  generalize filepathExt f = e at hpre
  rw [hpre, stringsTrimSuffix_append]

theorem stringsJoinText_concat (out : List GoString) (n sep : GoString) (h : out ≠ []) :
    stringsJoinText (out ++ [n]) sep = stringsJoinText out sep ++ sep ++ n := by
  cases out with
  | nil => exact absurd rfl h
  | cons p ps =>
    simp only [stringsJoinText, List.cons_append, List.foldl_append, List.foldl_cons,
      List.foldl_nil]

/-- `Clean` of a non-empty text, a separator and a plain element: the element, alone or
after a separator. -/
theorem filepathClean_append_elem (d n : GoString) (hn0 : n ≠ [])
    (hslash : '/' ∉ n) (hdot : n ≠ ['.']) (hdd : n ≠ ['.', '.']) :
    filepathClean (d ++ '/' :: n) = n ∨ ∃ y, filepathClean (d ++ '/' :: n) = y ++ '/' :: n := by
  have hne : d ++ '/' :: n ≠ [] := by simp
  have hsplit : stringsSplit (d ++ '/' :: n) '/' = stringsSplit d '/' ++ [n] := by
    rw [stringsSplit_append, stringsSplit_of_not_mem hslash]
  have hfold : ∀ rooted, (stringsSplit (d ++ '/' :: n) '/').foldl (cleanStep rooted) []
      = (stringsSplit d '/').foldl (cleanStep rooted) [] ++ [n] := by
    intro rooted
    rw [hsplit, List.foldl_append, List.foldl_cons, List.foldl_nil]
    unfold cleanStep
    rw [if_neg (by simp [hn0, hdot]), if_neg hdd]
  unfold filepathClean
  rw [if_neg hne]
  simp only [hfold]
  generalize ((stringsSplit d '/').foldl
    (cleanStep ((d ++ '/' :: n).head? == some '/')) []) = out
  have hjoin : stringsJoinText (out ++ [n]) ['/'] = n ∨
      ∃ y, stringsJoinText (out ++ [n]) ['/'] = y ++ '/' :: n := by
    by_cases hout : out = []
    · left; rw [hout]; rfl
    · right
      refine ⟨stringsJoinText out ['/'], ?_⟩
      rw [stringsJoinText_concat out n ['/'] hout]
      simp [List.append_assoc]
  split
  · right
    rcases hjoin with hj | ⟨y, hj⟩
    · exact ⟨[], by rw [hj]; rfl⟩
    · exact ⟨'/' :: y, by rw [hj]; rfl⟩
  · rw [if_neg (by simp)]
    exact hjoin

theorem cleanStep_nonempty (rooted : Bool) (out : List GoString) (elem : GoString)
    (h : ∀ e ∈ out, e ≠ []) : ∀ e ∈ cleanStep rooted out elem, e ≠ [] := by
  unfold cleanStep
  split
  · exact h
  · rename_i h1
    have hne : elem ≠ [] := fun h0 => h1 (Or.inl h0)
    have hpush : ∀ e ∈ out ++ [elem], e ≠ [] := by
      intro e he
      rcases List.mem_append.1 he with he | he
      · exact h e he
      · rw [List.mem_singleton.1 he]; exact hne
    split
    · split
      · split
        · exact hpush
        · intro e he
          exact h e (List.dropLast_subset _ he)
      · split
        · exact h
        · exact hpush
    · exact hpush

theorem foldl_cleanStep_nonempty (rooted : Bool) (l : List GoString) :
    ∀ out : List GoString, (∀ e ∈ out, e ≠ []) →
      ∀ e ∈ l.foldl (cleanStep rooted) out, e ≠ [] := by
  induction l with
  | nil => intro out h; exact h
  | cons a l ih =>
    intro out h
    rw [List.foldl_cons]
    exact ih _ (cleanStep_nonempty rooted out a h)

theorem stringsJoinText_prefix (a : GoString) (l : List GoString) (sep : GoString) :
    ∃ t, stringsJoinText (a :: l) sep = a ++ t := by
  have h : ∀ (l : List GoString) (x : GoString),
      ∃ t, l.foldl (fun acc q => acc ++ sep ++ q) x = x ++ t := by
    intro l
    induction l with
    | nil => intro x; exact ⟨[], by simp⟩
    | cons q qs ih =>
      intro x
      obtain ⟨t, ht⟩ := ih (x ++ sep ++ q)
      exact ⟨sep ++ q ++ t, by rw [List.foldl_cons, ht]; simp [List.append_assoc]⟩
  exact h l a

theorem filepathClean_ne_nil (p : GoString) : filepathClean p ≠ [] := by
  unfold filepathClean
  by_cases hp : p = []
  · rw [if_pos hp]; simp
  · rw [if_neg hp]
    simp only
    split
    · simp
    · split
      · simp
      · rename_i hout
        cases hc : (stringsSplit p '/').foldl
            (cleanStep (p.head? == some '/')) [] with
        | nil => exact absurd hc hout
        | cons a l =>
          have hne : a ≠ [] := by
            have := foldl_cleanStep_nonempty (p.head? == some '/') (stringsSplit p '/') []
              (by intro e he; cases he) a (by rw [hc]; exact List.mem_cons_self _ _)
            exact this
          obtain ⟨t, ht⟩ := stringsJoinText_prefix a l ['/']
          rw [ht]
          intro h0
          exact hne (List.append_eq_nil.1 h0).1

theorem datasinkRandomString_eq (draw : Nat → Fin 36) (n : Nat) :
    datasinkRandomString draw n = generateRandomString draw n := rfl

theorem not_slash_of_alnum {r : GoString} (hr : r.all isLowerAlnum = true) : '/' ∉ r := by
  intro hm
  rw [List.all_eq_true] at hr
  exact absurd (hr _ hm) (by decide)

theorem filepathBase_after_separator (y n : GoString) (hn0 : n ≠ []) (hslash : '/' ∉ n) :
    filepathBase (y ++ '/' :: n) = n := by
  have := filepathBase_append (y ++ ['/']) n hn0 hslash
  have e : y ++ ['/'] ++ n = y ++ '/' :: n := by simp
  rw [e] at this
  rw [this]
  simp [List.reverse_append]

/-- The base name of `Join(dir, name)` for a plain element `name`. -/
theorem filepathBase_clean_elem (d n : GoString) (hn0 : n ≠ [])
    (hslash : '/' ∉ n) (hdot : n ≠ ['.']) (hdd : n ≠ ['.', '.']) :
    filepathBase (filepathClean (d ++ '/' :: n)) = n := by
  rcases filepathClean_append_elem d n hn0 hslash hdot hdd with h | ⟨y, h⟩
  · rw [h]; exact filepathBase_of_no_slash hn0 hslash
  · rw [h]; exact filepathBase_after_separator y n hn0 hslash

theorem filepathExt_slash : filepathExt ['/'] = [] := by decide

/-- The file name of the path tried next: the old file name with `-`, six random characters
of `[a-z0-9]`, before its extension (for the path `/`, whose base name is `/`, it is `-` and
the random characters). -/
theorem filepathBase_nextUniquePath (draw : Nat → Fin 36) (p : GoString) :
    (filepathBase p ≠ ['/'] →
      filepathBase (nextUniquePath draw p)
        = stringsTrimSuffix (filepathBase p) (filepathExt (filepathBase p)) ++ ['-']
          ++ datasinkRandomString draw 6 ++ filepathExt (filepathBase p)) ∧
    (filepathBase p = ['/'] →
      filepathBase (nextUniquePath draw p) = ['-'] ++ datasinkRandomString draw 6) := by
  have hr : (datasinkRandomString draw 6).all isLowerAlnum = true :=
    generateRandomString_all draw 6
  have hrs := not_slash_of_alnum hr
  have hdir : filepathDir p ≠ [] := filepathClean_ne_nil _
  constructor
  · intro hb
    have hbs : '/' ∉ filepathBase p := by
      rcases filepathBase_cases p with h | h
      · exact absurd h hb
      · exact h.1
    have hsum := trimSuffix_append_ext (filepathBase p)
    generalize hstem : stringsTrimSuffix (filepathBase p) (filepathExt (filepathBase p))
      = stem at hsum
    generalize hext : filepathExt (filepathBase p) = ext at hsum
    have hs1 : '/' ∉ stem := fun hm => hbs (by rw [← hsum]; exact List.mem_append_left _ hm)
    have hs2 : '/' ∉ ext := fun hm => hbs (by rw [← hsum]; exact List.mem_append_right _ hm)
    have hns : '/' ∉ stem ++ ['-'] ++ datasinkRandomString draw 6 ++ ext := by
      intro hm
      simp only [List.mem_append, List.mem_singleton] at hm
      rcases hm with ((hm | hm) | hm) | hm
      · exact hs1 hm
      · exact absurd hm (by decide)
      · exact hrs hm
      · exact hs2 hm
    have hdash : '-' ∈ stem ++ ['-'] ++ datasinkRandomString draw 6 ++ ext := by simp
    have hn0 : stem ++ ['-'] ++ datasinkRandomString draw 6 ++ ext ≠ [] :=
      List.ne_nil_of_mem hdash
    have hnd : stem ++ ['-'] ++ datasinkRandomString draw 6 ++ ext ≠ ['.'] := by
      intro h; rw [h] at hdash; exact absurd hdash (by decide)
    have hndd : stem ++ ['-'] ++ datasinkRandomString draw 6 ++ ext ≠ ['.', '.'] := by
      intro h; rw [h] at hdash; exact absurd hdash (by decide)
    have hnext : nextUniquePath draw p = filepathClean (filepathDir p ++
        '/' :: (stem ++ ['-'] ++ datasinkRandomString draw 6 ++ ext)) := by
      simp only [nextUniquePath, filepathJoin]
      rw [if_pos hdir, hstem, hext]
      simp [List.append_assoc]
    rw [hnext]
    exact filepathBase_clean_elem _ _ hn0 hns hnd hndd
  · intro hb
    have hdash : '-' ∈ ['-'] ++ datasinkRandomString draw 6 := by simp
    have hns : '/' ∉ ['-'] ++ datasinkRandomString draw 6 := by
      intro hm
      simp only [List.mem_append, List.mem_singleton] at hm
      rcases hm with hm | hm
      · exact absurd hm (by decide)
      · exact hrs hm
    have hnd : ['-'] ++ datasinkRandomString draw 6 ≠ ['.'] := by
      intro h; rw [h] at hdash; exact absurd hdash (by decide)
    have hndd : ['-'] ++ datasinkRandomString draw 6 ≠ ['.', '.'] := by
      intro h; rw [h] at hdash; exact absurd hdash (by decide)
    have hnext : nextUniquePath draw p = filepathClean ((filepathDir p ++ ['/']) ++
        '/' :: (['-'] ++ datasinkRandomString draw 6)) := by
      simp only [nextUniquePath, filepathJoin, hb, filepathExt_slash]
      rw [if_pos hdir]
      have : stringsTrimSuffix ['/'] [] = ['/'] := by decide
      rw [this]
      simp [List.append_assoc]
    rw [hnext]
    exact filepathBase_clean_elem _ _ (List.ne_nil_of_mem hdash) hns hnd hndd

/-- The file name grows with every path tried. -/
theorem filepathBase_nextUniquePath_length (draw : Nat → Fin 36) (p : GoString) :
    (filepathBase p).length + 6 ≤ (filepathBase (nextUniquePath draw p)).length := by
  have hlen : (datasinkRandomString draw 6).length = 6 := generateRandomString_length draw 6
  by_cases hb : filepathBase p = ['/']
  · rw [(filepathBase_nextUniquePath draw p).2 hb, hb]
    simp only [List.length_append, List.length_cons, List.length_nil, hlen]
    omega
  · rw [(filepathBase_nextUniquePath draw p).1 hb]
    have hsum := congrArg List.length (trimSuffix_append_ext (filepathBase p))
    simp only [List.length_append, List.length_cons, List.length_nil, hlen] at hsum ⊢
    omega

/-- With more fuel than the longest existing file name has characters, the search returns,
and it returns a path that does not exist. -/
theorem generateUniqueFilePath_returns (fs : List GoString) (draws : Nat → Nat → Fin 36) :
    ∀ (fuel k : Nat) (p : GoString),
      (∀ q ∈ fs, (filepathBase q).length < (filepathBase p).length + fuel) →
      ∃ q, generateUniqueFilePath fs draws (fuel + 1) k p = some q ∧ q ∉ fs := by
  intro fuel
  induction fuel with
  | zero =>
    intro k p h
    have hp : p ∉ fs := by
      intro hm
      have := h p hm
      omega
    exact ⟨p, by simp [generateUniqueFilePath, hp], hp⟩
  | succ fuel ih =>
    intro k p h
    by_cases hp : p ∈ fs
    · have hgrow := filepathBase_nextUniquePath_length (draws k) p
      obtain ⟨q, hq, hqfs⟩ := ih (k + 1) (nextUniquePath (draws k) p) (by
        intro q hq
        have := h q hq
        omega)
      refine ⟨q, ?_, hqfs⟩
      rw [generateUniqueFilePath]
      simp only [hp, not_true_eq_false, if_false]
      exact hq
    · exact ⟨p, by simp [generateUniqueFilePath, hp], hp⟩

/-- Whatever the search returns does not exist. -/
theorem generateUniqueFilePath_not_mem (fs : List GoString) (draws : Nat → Nat → Fin 36) :
    ∀ (fuel k : Nat) (p q : GoString),
      generateUniqueFilePath fs draws fuel k p = some q → q ∉ fs := by
  intro fuel
  induction fuel with
  | zero => intro k p q h; cases h
  | succ fuel ih =>
    intro k p q h
    rw [generateUniqueFilePath] at h
    by_cases hp : p ∈ fs
    · simp only [hp, not_true_eq_false, if_false] at h
      exact ih _ _ _ h
    · simp only [hp, not_false_eq_true, if_true, Option.some.injEq] at h
      rw [← h]; exact hp

/-- C24 as amended: the unique path of the file sink, over a file system given as the list
of the existing paths.  (1) When nothing exists at `p`, `generateUniqueFilePath(p)` returns
`p`.  (2) When `p` exists and the path tried next does not, that path is returned.  (3) The
file name of the path tried next is the old file name with `-` and six random characters
of `[a-z0-9]` before its extension; its directory is `Join(Dir(p), ...)`, cleaned.  (4) With
more fuel than the longest existing file name has characters the search returns, and what
it returns does not exist, so it differs from `p` when `p` exists; one suffix is added for
every path tried that exists.  (5) Hence two file sinks created for the same target never
have the same path: the second path did not exist when it was chosen, and the first file
is still there. -/
theorem C24_unique_path (fs created : List GoString) (draws : Nat → Nat → Fin 36)
    (p : GoString) :
    (∀ fuel k, p ∉ fs → generateUniqueFilePath fs draws (fuel + 1) k p = some p) ∧
    (∀ fuel k, p ∈ fs → nextUniquePath (draws k) p ∉ fs →
      generateUniqueFilePath fs draws (fuel + 2) k p
        = some (nextUniquePath (draws k) p)) ∧
    (∀ k, filepathBase p ≠ ['/'] →
      filepathBase (nextUniquePath (draws k) p)
        = stringsTrimSuffix (filepathBase p) (filepathExt (filepathBase p)) ++ ['-']
          ++ datasinkRandomString (draws k) 6 ++ filepathExt (filepathBase p) ∧
      stringsTrimSuffix (filepathBase p) (filepathExt (filepathBase p))
        ++ filepathExt (filepathBase p) = filepathBase p ∧
      (datasinkRandomString (draws k) 6).length = 6 ∧
      (datasinkRandomString (draws k) 6).all isLowerAlnum = true) ∧
    (∀ fuel k, (∀ q ∈ fs, (filepathBase q).length ≤ fuel) →
      ∃ q, generateUniqueFilePath fs draws (fuel + 1) k p = some q ∧ q ∉ fs ∧
        (p ∈ fs → q ≠ p)) ∧
    (∀ fuel1 k1 fuel2 k2 s1 fs1 s2 fs2,
      FileSink fs created draws fuel1 k1 p = some (s1, fs1) →
      FileSink fs1 [] draws fuel2 k2 p = some (s2, fs2) →
      s2.path ≠ s1.path ∧ s2.path ∉ fs1 ∧ s1.path ∈ fs2) := by
  refine ⟨?_, ?_, ?_, ?_, ?_⟩
  · intro fuel k hp
    simp [generateUniqueFilePath, hp]
  · intro fuel k hp hnext
    rw [generateUniqueFilePath]
    simp only [hp, not_true_eq_false, if_false]
    rw [generateUniqueFilePath]
    simp only [hnext, not_false_eq_true, if_true]
  · intro k hb
    exact ⟨(filepathBase_nextUniquePath (draws k) p).1 hb, trimSuffix_append_ext _,
      generateRandomString_length (draws k) 6, generateRandomString_all (draws k) 6⟩
  · intro fuel k hfs
    have hpos : 1 ≤ (filepathBase p).length := by
      rcases filepathBase_cases p with h | h
      · rw [h]; simp
      · exact List.length_pos.2 h.2
    obtain ⟨q, hq, hqfs⟩ := generateUniqueFilePath_returns fs draws fuel k p (by
      intro q hq
      have := hfs q hq
      omega)
    exact ⟨q, hq, hqfs, fun hp hqp => hqfs (hqp ▸ hp)⟩
  · intro fuel1 k1 fuel2 k2 s1 fs1 s2 fs2 h1 h2
    unfold FileSink at h1 h2
    cases hq1 : generateUniqueFilePath (created ++ fs) draws fuel1 k1 p with
    | none => rw [hq1] at h1; cases h1
    | some q1 =>
      rw [hq1] at h1
      simp only [Option.some.injEq, Prod.mk.injEq] at h1
      obtain ⟨hs1, hfs1⟩ := h1
      cases hq2 : generateUniqueFilePath ([] ++ fs1) draws fuel2 k2 p with
      | none => rw [hq2] at h2; cases h2
      | some q2 =>
        rw [hq2] at h2
        simp only [Option.some.injEq, Prod.mk.injEq] at h2
        obtain ⟨hs2, hfs2⟩ := h2
        have hnot := generateUniqueFilePath_not_mem _ _ _ _ _ _ hq2
        rw [List.nil_append] at hnot
        have hmem1 : q1 ∈ fs1 := by rw [← hfs1]; exact List.mem_cons_self _ _
        rw [← hs1, ← hs2]
        refine ⟨fun h => hnot (by
          have h2 : q2 = q1 := h
          rw [h2]; exact hmem1), hnot, ?_⟩
        rw [← hfs2]
        exact List.mem_cons_of_mem _ (by rw [List.nil_append]; exact hmem1)

/-- Witness of C24: `a.txt` exists, the random characters are `x1y2z3`, the sink gets
`a-x1y2z3.txt`. -/
theorem C24_unique_path_witness :
    generateUniqueFilePath ["a.txt".toList] (fun _ => drawText "x1y2z3".toList) 2 0
      "a.txt".toList = some "a-x1y2z3.txt".toList := by
  have h := (C24_unique_path ["a.txt".toList] [] (fun _ => drawText "x1y2z3".toList)
    "a.txt".toList).2.1 0 0 (by decide) (by decide)
  rw [h]
  decide

/-- C24 fails as stated.  (1) With `a.txt` and `a-aaaaaa.txt` existing and the random
characters `aaaaaa`, then `bbbbbb`, the path returned for `a.txt` is
`a-aaaaaa-bbbbbb.txt`: it differs from `a.txt` by two suffixes, and no six characters `r`
make it `a-r.txt`.  (2) With `./a.txt` existing the path returned is `a-aaaaaa.txt`, not
`./a-aaaaaa.txt`: `filepath.Join` cleans the path. -/
theorem C24_counterexample :
    generateUniqueFilePath ["a.txt".toList, "a-aaaaaa.txt".toList]
        (fun k => if k = 0 then drawText "aaaaaa".toList else drawText "bbbbbb".toList)
        3 0 "a.txt".toList = some "a-aaaaaa-bbbbbb.txt".toList ∧
    (¬ ∃ r : GoString, r.length = 6 ∧
      "a-aaaaaa-bbbbbb.txt".toList = "a".toList ++ ['-'] ++ r ++ ".txt".toList) ∧
    generateUniqueFilePath ["./a.txt".toList] (fun _ => drawText "aaaaaa".toList)
        2 0 "./a.txt".toList = some "a-aaaaaa.txt".toList ∧
    "a-aaaaaa.txt".toList ≠ "./a-aaaaaa.txt".toList := by
  refine ⟨by decide, ?_, by decide, by decide⟩
  rintro ⟨r, hr, h⟩
  have := congrArg List.length h
  simp [hr] at this

end Hycrypt
